import Mathlib

/-!
Verification of the `automobile-complete` core against its design document.

This file shallowly embeds the two tries of the repository and the
operations the design document talks about:

* `Node` / `dfs` from `src/automobile_complete/completionlist/node.py`
  (the statistics / auto-selection engine),
* `CT` / `walk_to` / `insert_pair` / `accept` from `trie.py`
  (the navigable trie with its edit-aware cursor),
* `merge_completions` from `src/automobile_complete/completionlist/merge/merge.py`.

Python dicts are modelled as association lists in insertion order,
floats as rationals, and raised exceptions as `Except` errors.
-/

namespace Amc

/-! ## The statistics trie (`Node` in completionlist/node.py)

A node stores, besides its children, the word-completion information
(`word_id`, `word_freq`) written by `Node.build`, and the auto-completion
fields (`auto_word_id`, `auto_suffix`) which are `none` on a freshly built
trie and are written by `dfs` (or directly by the merge resolver).
Display-only attributes (`words`, `prefix`, `anchor_freq`, the `best_*`
caches before `dfs` runs) carry no information on a fresh trie and are
omitted from the persistent structure; the `best_*` statistics appear in
the `dfs` result type `StatNode` below. -/
inductive Node where
  | mk (wordId : Option Nat) (wordFreq : ℚ) (autoWordId : Option Nat)
       (autoSuffix : Option String) (children : List (Char × Node))

def Node.wordId : Node → Option Nat
  | .mk w _ _ _ _ => w

def Node.wordFreq : Node → ℚ
  | .mk _ f _ _ _ => f

def Node.autoWordId : Node → Option Nat
  | .mk _ _ a _ _ => a

def Node.autoSuffix : Node → Option String
  | .mk _ _ _ s _ => s

def Node.children : Node → List (Char × Node)
  | .mk _ _ _ _ cs => cs

/-- Result of the `dfs` statistics traversal: the same tree decorated with
every statistic the traversal writes onto the Python node, plus the
traversal-local runner-up values (`second_best_word_subtree_freq`,
`second_best_word_subtree_sum_freq`) and the `prefix_len` / `min_prefix_len`
arguments in effect at the node, recorded so that specifications can refer
to them.  Field order:
wordId, wordFreq, sumFreq, bestWordId, bestWordFreq, bestChildChar,
bestChildSumFreq, bestWordSubtreeId, bestWordSubtreeFreq,
bestWordSubtreeSumFreq, secondBestFreq, secondBestSumFreq, autoWordId,
autoSuffix, hasAuto, depth, minPreUsed, children. -/
inductive StatNode where
  | mk (wordId : Option Nat) (wordFreq : ℚ) (sumFreq : ℚ)
       (bestWordId : Option Nat) (bestWordFreq : ℚ)
       (bestChildChar : Option Char) (bestChildSumFreq : ℚ)
       (bestWordSubtreeId : Option Nat) (bestWordSubtreeFreq : ℚ)
       (bestWordSubtreeSumFreq : ℚ)
       (secondBestFreq : ℚ) (secondBestSumFreq : ℚ)
       (autoWordId : Option Nat) (autoSuffix : Option String) (hasAuto : Bool)
       (depth : Nat) (minPreUsed : Nat)
       (children : List (Char × StatNode))

def StatNode.wordId : StatNode → Option Nat
  | .mk a _ _ _ _ _ _ _ _ _ _ _ _ _ _ _ _ _ => a

def StatNode.wordFreq : StatNode → ℚ
  | .mk _ a _ _ _ _ _ _ _ _ _ _ _ _ _ _ _ _ => a

def StatNode.sumFreq : StatNode → ℚ
  | .mk _ _ a _ _ _ _ _ _ _ _ _ _ _ _ _ _ _ => a

def StatNode.bestWordId : StatNode → Option Nat
  | .mk _ _ _ a _ _ _ _ _ _ _ _ _ _ _ _ _ _ => a

def StatNode.bestWordFreq : StatNode → ℚ
  | .mk _ _ _ _ a _ _ _ _ _ _ _ _ _ _ _ _ _ => a

def StatNode.bestChildChar : StatNode → Option Char
  | .mk _ _ _ _ _ a _ _ _ _ _ _ _ _ _ _ _ _ => a

def StatNode.bestChildSumFreq : StatNode → ℚ
  | .mk _ _ _ _ _ _ a _ _ _ _ _ _ _ _ _ _ _ => a

def StatNode.bestWordSubtreeId : StatNode → Option Nat
  | .mk _ _ _ _ _ _ _ a _ _ _ _ _ _ _ _ _ _ => a

def StatNode.bestWordSubtreeFreq : StatNode → ℚ
  | .mk _ _ _ _ _ _ _ _ a _ _ _ _ _ _ _ _ _ => a

def StatNode.bestWordSubtreeSumFreq : StatNode → ℚ
  | .mk _ _ _ _ _ _ _ _ _ a _ _ _ _ _ _ _ _ => a

def StatNode.secondBestFreq : StatNode → ℚ
  | .mk _ _ _ _ _ _ _ _ _ _ a _ _ _ _ _ _ _ => a

def StatNode.secondBestSumFreq : StatNode → ℚ
  | .mk _ _ _ _ _ _ _ _ _ _ _ a _ _ _ _ _ _ => a

def StatNode.autoWordId : StatNode → Option Nat
  | .mk _ _ _ _ _ _ _ _ _ _ _ _ a _ _ _ _ _ => a

def StatNode.autoSuffix : StatNode → Option String
  | .mk _ _ _ _ _ _ _ _ _ _ _ _ _ a _ _ _ _ => a

def StatNode.hasAuto : StatNode → Bool
  | .mk _ _ _ _ _ _ _ _ _ _ _ _ _ _ a _ _ _ => a

def StatNode.depth : StatNode → Nat
  | .mk _ _ _ _ _ _ _ _ _ _ _ _ _ _ _ a _ _ => a

def StatNode.minPreUsed : StatNode → Nat
  | .mk _ _ _ _ _ _ _ _ _ _ _ _ _ _ _ _ a _ => a

def StatNode.children : StatNode → List (Char × StatNode)
  | .mk _ _ _ _ _ _ _ _ _ _ _ _ _ _ _ _ _ a => a

/-- Errors `dfs` can raise: the two documented configuration errors
(node.py lines 560-568), the two ways `word_list[best_word_subtree_id]`
(line 650) can blow up, and Python's RecursionError for over-deep recursion
(the recursion budget is modelled as explicit fuel; every call in this file
supplies more fuel than the depth of its trie, so `recursionError` never
occurs in the verified scenarios). -/
inductive DfsErr where
  | valueError
  | runtimeError
  | typeError
  | indexError
  | recursionError
deriving DecidableEq, Repr

/-- State of the child loop of `dfs` (node.py lines 570-576 initialise it,
lines 602-625 update it per child). -/
structure SelSt where
  bestSubFreq : ℚ
  bestSubChar : Option Char
  bestWFreq : ℚ
  bestWId : Option Nat
  bwsId : Option Nat
  bwsFreq : ℚ
  bwsSum : ℚ
  secondSum : ℚ
  secondFreq : ℚ
  hasAuto : Bool

/-- Loop-state initialisation of `dfs` (node.py lines 570-598):
`total` is `node.sum_freq`, already fully accumulated at this point. -/
def selInit (wt : ℚ) (wordId : Option Nat) (wordFreq total : ℚ)
    (hasAuto0 : Bool) : SelSt :=
  { bestSubFreq := wordFreq
    bestSubChar := none
    bestWFreq := wordFreq
    bestWId := wordId
    bwsId := wordId
    bwsFreq := wordFreq
    bwsSum := if wordFreq / total ≥ wt then total else 0
    secondSum := 0
    secondFreq := 0
    hasAuto := hasAuto0 }

/-- Best-subtree-by-sum update of the child loop (node.py lines 604-606). -/
def selStepSub (s : SelSt) (ch : Char) (c : StatNode) : SelSt :=
  if c.sumFreq > s.bestSubFreq then
    { s with bestSubFreq := c.sumFreq, bestSubChar := some ch } else s

/-- Best-single-word update of the child loop (node.py lines 609-611). -/
def selStepWord (s : SelSt) (c : StatNode) : SelSt :=
  if c.bestWordId.isSome = true ∧ c.bestWordFreq > s.bestWFreq then
    { s with bestWFreq := c.bestWordFreq, bestWId := c.bestWordId } else s

/-- Candidate / runner-up update of the child loop (node.py lines 613-621). -/
def selStepBws (wt st total : ℚ) (s : SelSt) (c : StatNode) : SelSt :=
  if c.bestWordSubtreeId.isSome = true ∧
      c.bestWordSubtreeSumFreq > s.bwsSum ∧
      c.bestWordSubtreeSumFreq / total ≥ st ∧
      c.bestWordSubtreeFreq / total ≥ wt then
    { s with bwsSum := c.bestWordSubtreeSumFreq
             bwsFreq := c.bestWordSubtreeFreq
             bwsId := c.bestWordSubtreeId }
  else
    { s with
      secondSum := if c.bestWordSubtreeSumFreq > s.secondSum then
          c.bestWordSubtreeSumFreq else s.secondSum
      secondFreq := if c.bestWordSubtreeFreq > s.secondFreq then
          c.bestWordSubtreeFreq else s.secondFreq }

/-- `has_auto` propagation of the child loop (node.py lines 624-625). -/
def selStepAuto (s : SelSt) (c : StatNode) : SelSt :=
  if c.hasAuto then { s with hasAuto := true } else s

/-- One iteration of the per-child loop in `dfs` (node.py lines 602-625):
the four independent updates in source order. -/
def selStep (wt st total : ℚ) (s : SelSt) (ch : Char) (c : StatNode) : SelSt :=
  selStepAuto (selStepBws wt st total (selStepWord (selStepSub s ch c) c) c) c

/-- Error-propagating traversal of a children list (the recursion loop of
node.py lines 578-586), parameterised by the recursive call. -/
def dfsList (f : Node → Except DfsErr StatNode) :
    List (Char × Node) → Except DfsErr (List (Char × StatNode))
  | [] => .ok []
  | (ch, c) :: rest =>
    match f c with
    | .error e => .error e
    | .ok r =>
      match dfsList f rest with
      | .error e => .error e
      | .ok rs => .ok ((ch, r) :: rs)

/-- The body of `dfs` after threshold validation (node.py lines 569-658).
The thresholds are already resolved here; the recursive call (lines 579-585)
passes `min_suffix_len` but omits `min_prefix_len`, so the children run with
the default `min_prefix_len = 1`, which this embedding reproduces by passing
the literal `1`.  `prefix_len` is modelled for the call sites of the
repository, which all start it at `1` at the root and increment per level.
The `fuel` argument models Python's recursion-depth limit. -/
def dfsCore (wl : List String) (wt st wrt srt : ℚ) (minSuf : Nat) :
    Nat → Node → Nat → Nat → Except DfsErr StatNode
  | 0, _, _, _ => .error .recursionError
  | fuel + 1, .mk wid wf awid asuf cs, preLen, minPre =>
    match dfsList (fun c => dfsCore wl wt st wrt srt minSuf fuel c (preLen + 1) 1) cs with
    | .error e => .error e
    | .ok kids =>
      let total := wf + (kids.map (fun p => p.2.sumFreq)).sum
      let s0 := selInit wt wid wf total awid.isSome
      let sF := kids.foldl (fun a p => selStep wt st total a p.1 p.2) s0
      if sF.bwsSum ≥ st ∧ sF.bwsFreq ≥ wt ∧
          sF.bwsFreq ≥ sF.secondFreq * wrt ∧
          sF.bwsSum ≥ sF.secondSum * srt then
        -- `w = word_list[best_word_subtree_id]` (line 650): a `None` index
        -- raises TypeError, an out-of-range one IndexError.
        match sF.bwsId with
        | none => .error .typeError
        | some i =>
          match wl.get? i with
          | none => .error .indexError
          | some w =>
            if (w.length : Int) - ((preLen : Int) - 1) ≥ (minSuf : Int) ∧
                (preLen : Int) - 1 ≥ (minPre : Int) then
              .ok (.mk wid wf total sF.bestWId sF.bestWFreq
                sF.bestSubChar sF.bestSubFreq
                sF.bwsId sF.bwsFreq sF.bwsSum
                sF.secondFreq sF.secondSum
                (some i) (some (w.drop (preLen - 1))) true
                (preLen - 1) minPre kids)
            else
              .ok (.mk wid wf total sF.bestWId sF.bestWFreq
                sF.bestSubChar sF.bestSubFreq
                sF.bwsId sF.bwsFreq sF.bwsSum
                sF.secondFreq sF.secondSum
                awid asuf sF.hasAuto
                (preLen - 1) minPre kids)
      else
        .ok (.mk wid wf total sF.bestWId sF.bestWFreq
          sF.bestSubChar sF.bestSubFreq
          none sF.bwsFreq sF.bwsSum
          sF.secondFreq sF.secondSum
          awid asuf sF.hasAuto
          (preLen - 1) minPre kids)

/-- The `dfs` entry point: threshold resolution and eager validation
(node.py lines 560-568), before any node is touched. -/
def dfsRun (wl : List String) (fuel : Nat) (t : Node) (preLen : Nat)
    (wordThr subThr : Option ℚ) (wrt srt : ℚ)
    (minSuf minPre : Nat) : Except DfsErr StatNode :=
  match wordThr, subThr with
  | none, none => .error .valueError
  | some w, none =>
    if w > w then .error .runtimeError
    else dfsCore wl w w wrt srt minSuf fuel t preLen minPre
  | none, some s =>
    if s > s then .error .runtimeError
    else dfsCore wl s s wrt srt minSuf fuel t preLen minPre
  | some w, some s =>
    if w > s then .error .runtimeError
    else dfsCore wl w s wrt srt minSuf fuel t preLen minPre

mutual

/-- All nodes of a `dfs` result, the node itself included. -/
def StatNode.subnodes : StatNode → List StatNode
  | n@(.mk _ _ _ _ _ _ _ _ _ _ _ _ _ _ _ _ _ cs) => n :: subnodesKids cs

def subnodesKids : List (Char × StatNode) → List StatNode
  | [] => []
  | (_, c) :: rest => c.subnodes ++ subnodesKids rest

end

mutual

/-- Well-formedness of a freshly built statistics trie, as `Node.build`
produces it from a weighted word list whose frequencies are at least 1:
word nodes carry their frequency, non-word nodes carry 0 and are never
leaves (every leaf of a built trie ends a word), and no auto-completion
has been selected yet. -/
def Node.wfB : Node → Bool
  | .mk wid f awid asuf cs =>
    (match wid with
     | some _ => decide (1 ≤ f)
     | none => decide (f = 0) && !cs.isEmpty) &&
    awid.isNone && asuf.isNone && wfKids cs

def wfKids : List (Char × Node) → Bool
  | [] => true
  | (_, c) :: rest => c.wfB && wfKids rest

end

/-! ### Shared facts about `dfsCore` -/

/-- The selection state after the child loop of `dfs` at a node. -/
def selFinal (wt st : ℚ) (wid : Option Nat) (wf total : ℚ) (hasAuto0 : Bool)
    (kids : List (Char × StatNode)) : SelSt :=
  kids.foldl (fun a p => selStep wt st total a p.1 p.2)
    (selInit wt wid wf total hasAuto0)

/-- The `valid` test of node.py lines 640-644. -/
def validTest (wt wrt srt st : ℚ) (s : SelSt) : Prop :=
  s.bwsSum ≥ st ∧ s.bwsFreq ≥ wt ∧
  s.bwsFreq ≥ s.secondFreq * wrt ∧ s.bwsSum ≥ s.secondSum * srt

instance (wt wrt srt st : ℚ) (s : SelSt) : Decidable (validTest wt wrt srt st s) := by
  unfold validTest; infer_instance

/-- The two length gates of node.py line 652. -/
def lenGates (minSuf minPre preLen : Nat) (w : String) : Prop :=
  (w.length : Int) - ((preLen : Int) - 1) ≥ (minSuf : Int) ∧
  (preLen : Int) - 1 ≥ (minPre : Int)

instance (minSuf minPre preLen : Nat) (w : String) :
    Decidable (lenGates minSuf minPre preLen w) := by
  unfold lenGates; infer_instance

/-- Inversion principle for a successful `dfsCore` at one node: what each
recorded statistic is, and how `best_word_subtree_id`, `auto_word_id` and
`auto_suffix` depend on the `valid` test and the length gates. -/
theorem dfsCore_ok_inv {wl : List String} {wt st wrt srt : ℚ} {minSuf : Nat}
    {fuel : Nat}
    {wid : Option Nat} {wf : ℚ} {awid : Option Nat} {asuf : Option String}
    {cs : List (Char × Node)} {preLen minPre : Nat} {r : StatNode}
    (h : dfsCore wl wt st wrt srt minSuf (fuel + 1)
      (.mk wid wf awid asuf cs) preLen minPre = .ok r) :
    ∃ kids,
      dfsList (fun c => dfsCore wl wt st wrt srt minSuf fuel c (preLen + 1) 1)
        cs = .ok kids ∧
      (let total := wf + (kids.map (fun p => p.2.sumFreq)).sum
       let sF := selFinal wt st wid wf total awid.isSome kids
       r.wordId = wid ∧ r.wordFreq = wf ∧ r.sumFreq = total ∧
       r.children = kids ∧
       r.bestWordSubtreeFreq = sF.bwsFreq ∧
       r.bestWordSubtreeSumFreq = sF.bwsSum ∧
       r.secondBestFreq = sF.secondFreq ∧ r.secondBestSumFreq = sF.secondSum ∧
       r.depth = preLen - 1 ∧ r.minPreUsed = minPre ∧
       ((validTest wt wrt srt st sF) →
         ∃ i w, sF.bwsId = some i ∧ wl.get? i = some w ∧
           r.bestWordSubtreeId = some i ∧
           (lenGates minSuf minPre preLen w →
             r.autoSuffix = some (w.drop (preLen - 1)) ∧ r.autoWordId = some i ∧
             r.hasAuto = true) ∧
           (¬ lenGates minSuf minPre preLen w →
             r.autoSuffix = asuf ∧ r.autoWordId = awid ∧ r.hasAuto = sF.hasAuto)) ∧
       (¬ validTest wt wrt srt st sF →
         r.bestWordSubtreeId = none ∧ r.autoSuffix = asuf ∧ r.autoWordId = awid ∧
         r.hasAuto = sF.hasAuto)) := by
  rw [dfsCore] at h
  cases hks : dfsList
      (fun c => dfsCore wl wt st wrt srt minSuf fuel c (preLen + 1) 1) cs with
  | error e => rw [hks] at h; exact absurd h (by simp)
  | ok kids =>
    rw [hks] at h
    refine ⟨kids, rfl, ?_⟩
    simp only at h ⊢
    set total := wf + (kids.map (fun p => p.2.sumFreq)).sum with htot
    set sF := selFinal wt st wid wf total awid.isSome kids with hsF
    rw [show (kids.foldl (fun a p => selStep wt st total a p.1 p.2)
      (selInit wt wid wf total awid.isSome)) = sF from rfl] at h
    split at h
    case isTrue hv =>
      split at h
      case h_1 hid => exact absurd h (by simp)
      case h_2 i hid =>
        split at h
        case h_1 hw => exact absurd h (by simp)
        case h_2 w hw =>
          split at h
          case isTrue hg =>
            cases h
            refine ⟨rfl, rfl, rfl, rfl, rfl, rfl, rfl, rfl, rfl, rfl, ?_, ?_⟩
            · intro _
              exact ⟨i, w, hid, hw, hid, fun _ => ⟨rfl, rfl, rfl⟩,
                fun hng => absurd hg hng⟩
            · intro hnv; exact absurd hv hnv
          case isFalse hg =>
            cases h
            refine ⟨rfl, rfl, rfl, rfl, rfl, rfl, rfl, rfl, rfl, rfl, ?_, ?_⟩
            · intro _
              exact ⟨i, w, hid, hw, hid, fun hgg => absurd hgg hg,
                fun _ => ⟨rfl, rfl, rfl⟩⟩
            · intro hnv; exact absurd hv hnv
    case isFalse hv =>
      cases h
      refine ⟨rfl, rfl, rfl, rfl, rfl, rfl, rfl, rfl, rfl, rfl, ?_, ?_⟩
      · intro hvv; exact absurd hvv hv
      · intro _; exact ⟨rfl, rfl, rfl, rfl⟩

/-- Inversion for a successful `dfsList` on a cons cell. -/
theorem dfsList_cons_inv {f : Node → Except DfsErr StatNode}
    {ch : Char} {c : Node} {rest : List (Char × Node)}
    {rs : List (Char × StatNode)}
    (h : dfsList f ((ch, c) :: rest) = .ok rs) :
    ∃ r rest2, f c = .ok r ∧ dfsList f rest = .ok rest2 ∧
      rs = (ch, r) :: rest2 := by
  rw [dfsList] at h
  cases hc : f c with
  | error e => rw [hc] at h; exact absurd h (by simp)
  | ok r =>
    rw [hc] at h
    cases hrest : dfsList f rest with
    | error e => rw [hrest] at h; exact absurd h (by simp)
    | ok rest2 =>
      rw [hrest] at h
      exact ⟨r, rest2, rfl, rfl, (Except.ok.inj h).symm⟩

theorem dfsList_nil_inv {f : Node → Except DfsErr StatNode}
    {rs : List (Char × StatNode)}
    (h : dfsList f [] = .ok rs) : rs = [] := by
  rw [dfsList] at h
  exact (Except.ok.inj h).symm

theorem subnodes_def (n : StatNode) :
    n.subnodes = n :: subnodesKids n.children := by
  cases n
  rw [StatNode.subnodes]
  rfl

theorem subnodesKids_cons (ch : Char) (r : StatNode)
    (rest : List (Char × StatNode)) :
    subnodesKids ((ch, r) :: rest) = r.subnodes ++ subnodesKids rest := by
  rw [subnodesKids]

theorem subnodesKids_nil : subnodesKids [] = [] := by
  rw [subnodesKids]

/-- Unpacking of the well-formedness of a node. -/
theorem wfB_parts {wid : Option Nat} {wf : ℚ} {awid : Option Nat}
    {asuf : Option String} {cs : List (Char × Node)}
    (h : Node.wfB (.mk wid wf awid asuf cs) = true) :
    (wid.isSome = true → 1 ≤ wf) ∧ (wid = none → wf = 0) ∧
    (wid = none → cs ≠ []) ∧ awid = none ∧ asuf = none ∧ wfKids cs = true := by
  rw [Node.wfB.eq_def] at h
  simp only [Bool.and_eq_true, Option.isNone_iff_eq_none] at h
  obtain ⟨⟨⟨hm, ha⟩, hs⟩, hk⟩ := h
  cases wid with
  | some i =>
    simp only [decide_eq_true_eq] at hm
    exact ⟨fun _ => hm, fun hc => Option.noConfusion hc,
      fun hc => Option.noConfusion hc, ha, hs, hk⟩
  | none =>
    simp only [Bool.and_eq_true, decide_eq_true_eq] at hm
    refine ⟨fun hc => Bool.noConfusion hc, fun _ => hm.1, fun _ hnil => ?_, ha, hs, hk⟩
    rw [hnil] at hm
    simp at hm

theorem wfKids_parts {ch : Char} {c : Node} {rest : List (Char × Node)}
    (h : wfKids ((ch, c) :: rest) = true) :
    c.wfB = true ∧ wfKids rest = true := by
  rw [wfKids] at h
  simp only [Bool.and_eq_true] at h
  exact h

/-! ### Claim C2: the `sum_freq` aggregation invariant -/

/-- Each member of a well-formed children list is well-formed. -/
theorem wfKids_mem {cs : List (Char × Node)} (h : wfKids cs = true) :
    ∀ p ∈ cs, p.2.wfB = true := by
  induction cs with
  | nil => intro p hp; exact absurd hp (List.not_mem_nil p)
  | cons q rest ih =>
    obtain ⟨ch, c⟩ := q
    obtain ⟨h1, h2⟩ := wfKids_parts h
    intro p hp
    rcases List.mem_cons.mp hp with rfl | hp2
    · exact h1
    · exact ih h2 p hp2

/-- Generic transfer of a per-node property through `dfsList`. -/
theorem dfsList_all {f : Node → Except DfsErr StatNode}
    {Q : StatNode → Prop} :
    ∀ cs rs, (∀ p ∈ cs, ∀ r, f p.2 = .ok r → ∀ u ∈ r.subnodes, Q u) →
      dfsList f cs = .ok rs → ∀ u ∈ subnodesKids rs, Q u := by
  intro cs
  induction cs with
  | nil =>
    intro rs _ h
    rw [dfsList_nil_inv h, subnodesKids_nil]
    intro u hu
    exact absurd hu (List.not_mem_nil u)
  | cons p rest ih =>
    obtain ⟨ch, c⟩ := p
    intro rs hf h
    obtain ⟨r, rest2, hc, hrest, rfl⟩ := dfsList_cons_inv h
    intro u hu
    rw [subnodesKids_cons] at hu
    rcases List.mem_append.mp hu with hu1 | hu2
    · exact hf (ch, c) (List.mem_cons_self _ _) r hc u hu1
    · exact ih rest2 (fun q hq => hf q (List.mem_cons_of_mem _ hq)) hrest u hu2

theorem dfsCore_sumInv {wl : List String} {wt st wrt srt : ℚ} {minSuf : Nat} :
    ∀ {fuel : Nat} {t : Node} {preLen minPre : Nat} {r : StatNode},
    t.wfB = true →
    dfsCore wl wt st wrt srt minSuf fuel t preLen minPre = .ok r →
    ∀ u ∈ r.subnodes,
      u.sumFreq = (if u.wordId.isSome then u.wordFreq else 0) +
        (u.children.map (fun p => p.2.sumFreq)).sum := by
  intro fuel
  induction fuel with
  | zero =>
    intro t preLen minPre r hwf h
    rw [dfsCore] at h
    exact absurd h (by simp)
  | succ fuel ih =>
    intro t preLen minPre r hwf h
    cases t with
    | mk wid wf awid asuf cs =>
      obtain ⟨kids, hks, hinv⟩ := dfsCore_ok_inv h
      obtain ⟨h1, h2, h3, h4, -, -, -, -, -, -, -, -⟩ := hinv
      obtain ⟨-, hw0, -, -, -, hwk⟩ := wfB_parts hwf
      intro u hu
      rw [subnodes_def, h4] at hu
      rcases List.mem_cons.mp hu with rfl | hu2
      · rw [h3, h1, h2, h4]
        cases hw : wid with
        | some i => simp
        | none => rw [hw0 hw]; simp
      · exact dfsList_all cs kids
          (fun p hp r hc u hu => ih (wfKids_mem hwk p hp) hc u hu) hks u hu2

/-- Claim C2 theorem.  The hypotheses say: the trie is a freshly built,
well-formed word trie (`wfB`), and the traversal ran to completion. -/
theorem claim_C2_sum_freq_invariant {wl : List String} {fuel : Nat} {t : Node}
    {preLen : Nat} {wordThr subThr : Option ℚ} {wrt srt : ℚ}
    {minSuf minPre : Nat} {r : StatNode}
    (hwf : t.wfB = true)
    (h : dfsRun wl fuel t preLen wordThr subThr wrt srt minSuf minPre = .ok r) :
    ∀ u ∈ r.subnodes,
      u.sumFreq = (if u.wordId.isSome then u.wordFreq else 0) +
        (u.children.map (fun p => p.2.sumFreq)).sum := by
  rw [dfsRun.eq_def] at h
  rcases wordThr with _ | w <;> rcases subThr with _ | s <;> simp only at h
  · exact absurd h (by simp)
  · split at h
    · exact absurd h (by simp)
    · exact dfsCore_sumInv hwf h
  · split at h
    · exact absurd h (by simp)
    · exact dfsCore_sumInv hwf h
  · split at h
    · exact absurd h (by simp)
    · exact dfsCore_sumInv hwf h

/-- Word list and trie for the single word "a" (frequency 1). -/
def wordsA : List String := [("a")]

def trieA : Node := .mk none 0 none none
  [(('a' : Char), .mk (some 0) 1 none none [])]

/-- The node "a" of the `dfs` result on `trieA` (thresholds 1/2, ratio
thresholds 1, minimum lengths 1): all four validity conditions hold there,
but the suffix-length gate (suffix length 0 < min_suffix_len 1) rejects the
selection, so `auto_suffix` stays unset. -/
def statAChild : StatNode :=
  .mk (some 0) 1 1 (some 0) 1 none 1 (some 0) 1 1 0 0
    none none false 1 1 []

/-- The `dfs` result on `trieA` with thresholds 1/2, ratio thresholds 1 and
minimum lengths 1. -/
def statA : StatNode :=
  .mk none 0 1 (some 0) 1 (some ('a' : Char)) 1 (some 0) 1 1 0 0
    none none false 0 1
    [(('a' : Char), statAChild)]

set_option maxRecDepth 8192 in
theorem claim_C2_witness :
    statA.sumFreq = (if statA.wordId.isSome then statA.wordFreq else 0) +
      (statA.children.map (fun p => p.2.sumFreq)).sum :=
  (@claim_C2_sum_freq_invariant wordsA 9 trieA 1 (some (1/2)) (some (1/2))
    1 1 1 1 statA
    (by simp [trieA, Node.wfB.eq_def, wfKids.eq_def])
    (by norm_num [dfsRun, dfsCore, dfsList, selInit, selStep, selStepSub,
      selStepWord, selStepBws, selStepAuto, wordsA, trieA,
      statA, statAChild, List.foldl_cons, List.foldl_nil, String.length, String.drop,
      StatNode.sumFreq, StatNode.bestWordId, StatNode.bestWordFreq,
      StatNode.bestWordSubtreeId, StatNode.bestWordSubtreeFreq,
      StatNode.bestWordSubtreeSumFreq, StatNode.hasAuto]))
    statA (by rw [subnodes_def]; exact List.mem_cons_self _ _)

/-! ### Claims C9 and C4: configuration-error behaviour and length gates -/

/-- Word list and trie for the single word "abc" (frequency 1). -/
def wordsAbc : List String := [("abc")]

def trieAbc : Node := .mk none 0 none none
  [(('a' : Char), .mk none 0 none none
    [(('b' : Char), .mk none 0 none none
      [(('c' : Char), .mk (some 0) 1 none none [])])])]

set_option maxRecDepth 8192 in
/-- Claim C9 theorem (code bug): the threshold configuration
`word_threshold = subtree_threshold = 0` is valid (`0 ≤ 0`, both supplied),
yet `dfs` raises - a TypeError from `word_list[None]` in mid-traversal -
on the word list `["abc"]`. -/
theorem claim_C9_typeerror_on_valid_config :
    ¬ ((0 : ℚ) > 0) ∧
    dfsRun wordsAbc 9 trieAbc 1 (some 0) (some 0) 1 1 1 1 =
      .error .typeError := by
  constructor
  · norm_num
  · norm_num [dfsRun, dfsCore, dfsList, selInit, selStep, selStepSub,
      selStepWord, selStepBws, selStepAuto, wordsAbc, trieAbc,
      List.foldl_cons, List.foldl_nil, String.length, String.drop,
      StatNode.sumFreq, StatNode.bestWordId, StatNode.bestWordFreq,
      StatNode.bestWordSubtreeId, StatNode.bestWordSubtreeFreq,
      StatNode.bestWordSubtreeSumFreq, StatNode.hasAuto]

/-- Word list and trie for the single word "ab" (frequency 1). -/
def wordsAb : List String := [("ab")]

def trieAb : Node := .mk none 0 none none
  [(('a' : Char), .mk none 0 none none
    [(('b' : Char), .mk (some 0) 1 none none [])])]

/-- The depth-1 node "a" inside that result: it carries an auto-completion
although the requested `min_prefix_len` was 3. -/
def statAbNodeA : StatNode :=
  .mk none 0 1 (some 0) 1 (some ('b' : Char)) 1 (some 0) 1 1 0 0
    (some 0) (some ("b")) true 1 1
    [(('b' : Char), .mk (some 0) 1 1 (some 0) 1 none 1 (some 0) 1 1 0 0
      none none false 2 1 [])]

/-- The `dfs` result on `trieAb`, thresholds 1/2, ratios 1, min_suffix_len 1
and min_prefix_len 3. -/
def statAbMinPre3 : StatNode :=
  .mk none 0 1 (some 0) 1 (some ('a' : Char)) 1 (some 0) 1 1 0 0
    none none true 0 3
    [(('a' : Char), statAbNodeA)]

set_option maxRecDepth 8192 in
/-- Claim C4 theorem (code bug): `dfs` run with `min_prefix_len = 3` sets
`auto_suffix = "b"` on the node of depth 1 (prefix "a"), because the
recursive call of node.py lines 579-585 omits `min_prefix_len`, so every
non-root node is gated by the default 1 instead of the configured value. -/
theorem claim_C4_min_prefix_len_ignored :
    dfsRun wordsAb 9 trieAb 1 (some (1/2)) (some (1/2)) 1 1 1 3 =
      .ok statAbMinPre3 ∧
    statAbNodeA ∈ statAbMinPre3.subnodes ∧
    statAbNodeA.autoSuffix = some ("b") ∧
    statAbNodeA.depth = 1 ∧ ¬ (3 ≤ statAbNodeA.depth) := by
  refine ⟨?_, ?_, rfl, rfl, by norm_num [statAbNodeA, StatNode.depth]⟩
  · norm_num [dfsRun, dfsCore, dfsList, selInit, selStep, selStepSub,
      selStepWord, selStepBws, selStepAuto, wordsAb, trieAb,
      statAbMinPre3, statAbNodeA,
      List.foldl_cons, List.foldl_nil, String.length, String.drop,
      StatNode.sumFreq, StatNode.bestWordId, StatNode.bestWordFreq,
      StatNode.bestWordSubtreeId, StatNode.bestWordSubtreeFreq,
      StatNode.bestWordSubtreeSumFreq, StatNode.hasAuto]
    decide
  · have h1 : statAbNodeA ∈ StatNode.subnodes statAbNodeA := by
      rw [subnodes_def]
      exact List.mem_cons_self _ _
    rw [statAbMinPre3, subnodes_def]
    refine List.mem_cons_of_mem _ ?_
    show statAbNodeA ∈ subnodesKids [(('a' : Char), statAbNodeA)]
    rw [subnodesKids_cons]
    exact List.mem_append_left _ h1

/-! ### Claim C1: the validity conditions behind `auto_suffix` -/

/-- The four validity conditions of §4.2 step 5 as the specification states
them at a node: the selected candidate passes both threshold tests relative
to the node's total (`sum_freq`), and beats the runner-up by the two ratio
thresholds. -/
def fourConds (wt st wrt srt : ℚ) (u : StatNode) : Prop :=
  u.bestWordSubtreeSumFreq / u.sumFreq ≥ st ∧
  u.bestWordSubtreeFreq / u.sumFreq ≥ wt ∧
  u.bestWordSubtreeFreq ≥ u.secondBestFreq * wrt ∧
  u.bestWordSubtreeSumFreq ≥ u.secondBestSumFreq * srt

/-- Generic transfer of a per-root property through `dfsList`. -/
theorem dfsList_each {f : Node → Except DfsErr StatNode} {Q : StatNode → Prop} :
    ∀ cs rs, (∀ p ∈ cs, ∀ r, f p.2 = .ok r → Q r) →
      dfsList f cs = .ok rs → ∀ q ∈ rs, Q q.2 := by
  intro cs
  induction cs with
  | nil =>
    intro rs _ h q hq
    rw [dfsList_nil_inv h] at hq
    exact absurd hq (List.not_mem_nil q)
  | cons p rest ih =>
    obtain ⟨ch, c⟩ := p
    intro rs hf h q hq
    obtain ⟨r, rest2, hc, hrest, rfl⟩ := dfsList_cons_inv h
    rcases List.mem_cons.mp hq with rfl | hq2
    · exact hf (ch, c) (List.mem_cons_self _ _) r hc
    · exact ih rest2 (fun p hp => hf p (List.mem_cons_of_mem _ hp)) hrest q hq2

theorem dfsList_ne_nil {f : Node → Except DfsErr StatNode}
    {cs : List (Char × Node)} {rs : List (Char × StatNode)}
    (h : dfsList f cs = .ok rs) (hne : cs ≠ []) : rs ≠ [] := by
  cases cs with
  | nil => exact absurd rfl hne
  | cons p rest =>
    obtain ⟨ch, c⟩ := p
    obtain ⟨r, rest2, -, -, rfl⟩ := dfsList_cons_inv h
    exact List.cons_ne_nil _ _

/-- Every node of a well-formed trie gets `sum_freq ≥ 1` from the traversal:
its subtree contains at least one word of frequency at least 1. -/
theorem dfsCore_sumFreq_ge_one {wl : List String} {wt st wrt srt : ℚ}
    {minSuf : Nat} :
    ∀ {fuel : Nat} {t : Node} {preLen minPre : Nat} {r : StatNode},
    t.wfB = true →
    dfsCore wl wt st wrt srt minSuf fuel t preLen minPre = .ok r →
    1 ≤ r.sumFreq := by
  intro fuel
  induction fuel with
  | zero =>
    intro t preLen minPre r hwf h
    rw [dfsCore] at h
    exact absurd h (by simp)
  | succ fuel ih =>
    intro t preLen minPre r hwf h
    cases t with
    | mk wid wf awid asuf cs =>
      obtain ⟨kids, hks, hinv⟩ := dfsCore_ok_inv h
      obtain ⟨-, -, h3, -, -⟩ := hinv
      obtain ⟨hw1, hw0, hwne, -, -, hwk⟩ := wfB_parts hwf
      have hkids : ∀ q ∈ kids, 1 ≤ q.2.sumFreq :=
        dfsList_each cs kids
          (fun p hp r hc => ih (wfKids_mem hwk p hp) hc) hks
      have hsum0 : 0 ≤ (kids.map (fun p => p.2.sumFreq)).sum :=
        List.sum_nonneg (by
          intro x hx
          obtain ⟨q, hq, rfl⟩ := List.mem_map.mp hx
          exact le_trans zero_le_one (hkids q hq))
      rw [h3]
      cases hwc : wid with
      | some i =>
        have := hw1 (by rw [hwc]; rfl)
        linarith
      | none =>
        have hne : kids ≠ [] := dfsList_ne_nil hks (hwne hwc)
        cases kids with
        | nil => exact absurd rfl hne
        | cons q rest =>
          have h1 : 1 ≤ q.2.sumFreq := hkids q (List.mem_cons_self _ _)
          have h2 : 0 ≤ (rest.map (fun p => p.2.sumFreq)).sum :=
            List.sum_nonneg (by
              intro x hx
              obtain ⟨p, hp, rfl⟩ := List.mem_map.mp hx
              exact le_trans zero_le_one
                (hkids p (List.mem_cons_of_mem _ hp)))
          rw [hw0 hwc]
          simp only [List.map_cons, List.sum_cons]
          linarith

/-- Invariant of the candidate slot of the selection state: either the
current candidate passed both threshold tests relative to the total, or no
candidate has been installed (`bwsSum = 0`) and `P` (which will say that the
node's own word failed its gate) holds. -/
def selGood (wt st total : ℚ) (P : Prop) (s : SelSt) : Prop :=
  (s.bwsSum / total ≥ st ∧ s.bwsFreq / total ≥ wt) ∨ (s.bwsSum = 0 ∧ P)

theorem selInit_good {wt st : ℚ} (wid : Option Nat) {wf total : ℚ}
    (b : Bool) (htot : 0 < total) (hst : st ≤ 1) :
    selGood wt st total (wf / total < wt) (selInit wt wid wf total b) := by
  unfold selGood selInit
  by_cases hg : wf / total ≥ wt
  · left
    constructor
    · simp only [if_pos hg]
      rw [div_self (ne_of_gt htot)]
      exact hst
    · simpa using hg
  · right
    constructor
    · simp only [if_neg hg]
    · exact lt_of_not_ge hg

theorem selStepSub_bws (s : SelSt) (ch : Char) (c : StatNode) :
    (selStepSub s ch c).bwsSum = s.bwsSum ∧
    (selStepSub s ch c).bwsFreq = s.bwsFreq := by
  unfold selStepSub
  split <;> exact ⟨rfl, rfl⟩

theorem selStepWord_bws (s : SelSt) (c : StatNode) :
    (selStepWord s c).bwsSum = s.bwsSum ∧
    (selStepWord s c).bwsFreq = s.bwsFreq := by
  unfold selStepWord
  split <;> exact ⟨rfl, rfl⟩

theorem selStepAuto_bws (s : SelSt) (c : StatNode) :
    (selStepAuto s c).bwsSum = s.bwsSum ∧
    (selStepAuto s c).bwsFreq = s.bwsFreq := by
  unfold selStepAuto
  split <;> exact ⟨rfl, rfl⟩

/-- `selStep` either keeps the candidate slot or installs a child candidate
that passed both threshold tests relative to the total. -/
theorem selStep_bws (wt st total : ℚ) (s : SelSt) (ch : Char) (c : StatNode) :
    ((selStep wt st total s ch c).bwsSum = s.bwsSum ∧
     (selStep wt st total s ch c).bwsFreq = s.bwsFreq) ∨
    ((selStep wt st total s ch c).bwsSum = c.bestWordSubtreeSumFreq ∧
     (selStep wt st total s ch c).bwsFreq = c.bestWordSubtreeFreq ∧
     c.bestWordSubtreeSumFreq / total ≥ st ∧
     c.bestWordSubtreeFreq / total ≥ wt) := by
  unfold selStep
  obtain ⟨ha1, ha2⟩ := selStepAuto_bws
    (selStepBws wt st total (selStepWord (selStepSub s ch c) c) c) c
  rw [ha1, ha2]
  obtain ⟨hw1, hw2⟩ := selStepWord_bws (selStepSub s ch c) c
  obtain ⟨hs1, hs2⟩ := selStepSub_bws s ch c
  unfold selStepBws
  split
  case isTrue h => exact Or.inr ⟨rfl, rfl, h.2.2.1, h.2.2.2⟩
  case isFalse h =>
    left
    constructor
    · show (selStepWord (selStepSub s ch c) c).bwsSum = s.bwsSum
      rw [hw1, hs1]
    · show (selStepWord (selStepSub s ch c) c).bwsFreq = s.bwsFreq
      rw [hw2, hs2]

theorem selStep_good {wt st total : ℚ} {P : Prop} {s : SelSt}
    (ch : Char) (c : StatNode) (h : selGood wt st total P s) :
    selGood wt st total P (selStep wt st total s ch c) := by
  rcases selStep_bws wt st total s ch c with ⟨e1, e2⟩ | ⟨e1, e2, t1, t2⟩
  · unfold selGood at h ⊢
    rw [e1, e2]
    exact h
  · unfold selGood
    left
    rw [e1, e2]
    exact ⟨t1, t2⟩

theorem selFold_good {wt st total : ℚ} {P : Prop} :
    ∀ (kids : List (Char × StatNode)) (s : SelSt),
      selGood wt st total P s →
      selGood wt st total P
        (kids.foldl (fun a p => selStep wt st total a p.1 p.2) s) := by
  intro kids
  induction kids with
  | nil => intro s h; exact h
  | cons p rest ih =>
    intro s h
    rw [List.foldl_cons]
    exact ih _ (selStep_good p.1 p.2 h)

/-- Per-node statement of the amended claim C1: a node with `auto_suffix`
satisfies the four validity conditions; a node without it either fails one
of them or its selected candidate word failed a length gate (the effective
`min_prefix_len` of the node and the global `min_suffix_len`). -/
def c1Prop (wl : List String) (wt st wrt srt : ℚ) (minSuf : Nat)
    (u : StatNode) : Prop :=
  (u.autoSuffix.isSome = true → fourConds wt st wrt srt u) ∧
  (u.autoSuffix = none →
    ¬ fourConds wt st wrt srt u ∨
    ∃ i w, u.bestWordSubtreeId = some i ∧ wl.get? i = some w ∧
      ¬ ((w.length : Int) - (u.depth : Int) ≥ (minSuf : Int) ∧
         (u.depth : Int) ≥ (u.minPreUsed : Int)))

theorem dfsCore_c1 {wl : List String} {wt st wrt srt : ℚ} {minSuf : Nat}
    (hwt0 : 0 ≤ wt) (hst1 : st ≤ 1) (hwtst : wt ≤ st) :
    ∀ {fuel : Nat} {t : Node} {preLen minPre : Nat} {r : StatNode},
    1 ≤ preLen → t.wfB = true →
    dfsCore wl wt st wrt srt minSuf fuel t preLen minPre = .ok r →
    ∀ u ∈ r.subnodes, c1Prop wl wt st wrt srt minSuf u := by
  intro fuel
  induction fuel with
  | zero =>
    intro t preLen minPre r hpre hwf h
    rw [dfsCore] at h
    exact absurd h (by simp)
  | succ fuel ih =>
    intro t preLen minPre r hpre hwf h
    cases t with
    | mk wid wf awid asuf cs =>
      obtain ⟨kids, hks, hinv⟩ := dfsCore_ok_inv h
      obtain ⟨h1r, h2r, h3r, h4r, h5r, h6r, h7r, h8r, h9r, h10r, hvI, hnvI⟩ := hinv
      obtain ⟨hfw1, hfw0, -, hawid, hasuf, hwk⟩ := wfB_parts hwf
      have htot1 : 1 ≤ r.sumFreq := dfsCore_sumFreq_ge_one hwf h
      rw [h3r] at htot1
      intro u hu
      rw [subnodes_def, h4r] at hu
      rcases List.mem_cons.mp hu with rfl | hu2
      · -- the node itself
        set total := wf + (kids.map (fun p => p.2.sumFreq)).sum with htotdef
        set sF := selFinal wt st wid wf total awid.isSome kids with hsFdef
        have htotpos : 0 < total := lt_of_lt_of_le zero_lt_one htot1
        have hwfnn : 0 ≤ wf := by
          cases hwc : wid with
          | some i => exact le_trans zero_le_one (hfw1 (by rw [hwc]; rfl))
          | none => rw [hfw0 hwc]
        have hgood : selGood wt st total (wf / total < wt) sF := by
          rw [hsFdef]
          exact selFold_good kids _ (selInit_good wid awid.isSome htotpos hst1)
        constructor
        · -- auto_suffix set → four conditions
          intro hsome
          by_cases hv : validTest wt wrt srt st sF
          · obtain ⟨i, w, hid, hw, hrid, hgT, hgF⟩ := hvI hv
            have hconds12 :
                sF.bwsSum / total ≥ st ∧ sF.bwsFreq / total ≥ wt := by
              rcases hgood with hg | ⟨hz, hlt⟩
              · exact hg
              · exfalso
                have hstle : st ≤ 0 := by
                  have := hv.1
                  rw [hz] at this
                  linarith
                have hwt0e : wt = 0 := le_antisymm (le_trans hwtst hstle) hwt0
                rw [hwt0e] at hlt
                have : 0 ≤ wf / total := div_nonneg hwfnn htotpos.le
                linarith
            refine ⟨?_, ?_, ?_, ?_⟩
            · rw [h6r, h3r]; exact hconds12.1
            · rw [h5r, h3r]; exact hconds12.2
            · rw [h5r, h7r]; exact hv.2.2.1
            · rw [h6r, h8r]; exact hv.2.2.2
          · obtain ⟨hid, hsuf, -, -⟩ := hnvI hv
            rw [hsuf, hasuf] at hsome
            exact absurd hsome (by simp)
        · -- auto_suffix unset → a condition or a gate fails
          intro hnone
          by_cases hv : validTest wt wrt srt st sF
          · obtain ⟨i, w, hid, hw, hrid, hgT, hgF⟩ := hvI hv
            by_cases hg : lenGates minSuf minPre preLen w
            · obtain ⟨hsuf, -, -⟩ := hgT hg
              rw [hnone] at hsuf
              exact absurd hsuf.symm (by simp)
            · right
              refine ⟨i, w, hrid, hw, ?_⟩
              rw [h9r, h10r]
              intro hc
              apply hg
              unfold lenGates
              have hcast : ((preLen - 1 : Nat) : Int) = (preLen : Int) - 1 := by
                omega
              rw [hcast] at hc
              exact hc
          · left
            intro hf
            apply hv
            obtain ⟨hf1, hf2, hf3, hf4⟩ := hf
            rw [h6r, h3r] at hf1
            rw [h5r, h3r] at hf2
            rw [h5r, h7r] at hf3
            rw [h6r, h8r] at hf4
            have hst0 : 0 ≤ st := le_trans hwt0 hwtst
            have hb1 : st * total ≤ sF.bwsSum := (le_div_iff₀ htotpos).mp hf1
            have hb2 : wt * total ≤ sF.bwsFreq := (le_div_iff₀ htotpos).mp hf2
            refine ⟨?_, ?_, hf3, hf4⟩
            · have : st * 1 ≤ st * total :=
                mul_le_mul_of_nonneg_left htot1 hst0
              linarith
            · have : wt * 1 ≤ wt * total :=
                mul_le_mul_of_nonneg_left htot1 hwt0
              linarith
      · exact dfsList_all cs kids
          (fun p hp r2 hc u2 hu2 =>
            ih (by omega) (wfKids_mem hwk p hp) hc u2 hu2) hks u hu2

/-- Resolution of the optional thresholds (node.py lines 560-565). -/
def resolvedThr : Option ℚ → Option ℚ → Option (ℚ × ℚ)
  | none, none => none
  | some w, none => some (w, w)
  | none, some s => some (s, s)
  | some w, some s => some (w, s)

/-- Claim C1 theorem (amended): over any well-formed built trie, with the
thresholds in their documented range [0,1], every node of a completed `dfs`
run with `auto_suffix` set satisfies the four §4.2-step-5 validity conditions
(both threshold tests relative to the node's total and both runner-up ratio
tests), and every node without `auto_suffix` either fails one of the four
conditions or its selected candidate word failed one of the two length gates
(`min_suffix_len`, and the `min_prefix_len` in effect at that node). -/
theorem claim_C1_amended {wl : List String} {fuel : Nat} {t : Node}
    {preLen : Nat} {wordThr subThr : Option ℚ} {wt st : ℚ} {wrt srt : ℚ}
    {minSuf minPre : Nat} {r : StatNode}
    (hres : resolvedThr wordThr subThr = some (wt, st))
    (hwt0 : 0 ≤ wt) (hst1 : st ≤ 1)
    (hpre : 1 ≤ preLen) (hwf : t.wfB = true)
    (h : dfsRun wl fuel t preLen wordThr subThr wrt srt minSuf minPre = .ok r) :
    ∀ u ∈ r.subnodes, c1Prop wl wt st wrt srt minSuf u := by
  rw [dfsRun.eq_def] at h
  rcases wordThr with _ | w <;> rcases subThr with _ | s <;>
    simp only at h <;> rw [resolvedThr] at hres
  · exact absurd h (by simp)
  · obtain ⟨rfl, rfl⟩ : s = wt ∧ s = st := by
      have := Option.some.inj hres
      exact ⟨congrArg Prod.fst this, congrArg Prod.snd this⟩
    split at h
    · exact absurd h (by simp)
    · exact dfsCore_c1 hwt0 hst1 le_rfl hpre hwf h
  · obtain ⟨rfl, rfl⟩ : w = wt ∧ w = st := by
      have := Option.some.inj hres
      exact ⟨congrArg Prod.fst this, congrArg Prod.snd this⟩
    split at h
    · exact absurd h (by simp)
    · exact dfsCore_c1 hwt0 hst1 le_rfl hpre hwf h
  · obtain ⟨rfl, rfl⟩ : w = wt ∧ s = st := by
      have := Option.some.inj hres
      exact ⟨congrArg Prod.fst this, congrArg Prod.snd this⟩
    split at h
    case isTrue hgt => exact absurd h (by simp)
    case isFalse hgt =>
      exact dfsCore_c1 hwt0 hst1 (not_lt.mp hgt) hpre hwf h

set_option maxRecDepth 8192 in
/-- Claim C1 counterexample: on the word list ["a"] with thresholds 1/2,
ratio thresholds 1 and minimum lengths 1, the node "a" is left without
`auto_suffix` although all four validity conditions hold - only the
suffix-length gate failed, which the claim does not mention. -/
theorem claim_C1_counterexample :
    dfsRun wordsA 9 trieA 1 (some (1/2)) (some (1/2)) 1 1 1 1 = .ok statA ∧
    statAChild ∈ statA.subnodes ∧
    statAChild.autoSuffix = none ∧
    fourConds (1/2) (1/2) 1 1 statAChild := by
  refine ⟨?_, ?_, rfl, ?_⟩
  · norm_num [dfsRun, dfsCore, dfsList, selInit, selStep, selStepSub,
      selStepWord, selStepBws, selStepAuto, wordsA, trieA,
      statA, statAChild, List.foldl_cons, List.foldl_nil, String.length,
      String.drop,
      StatNode.sumFreq, StatNode.bestWordId, StatNode.bestWordFreq,
      StatNode.bestWordSubtreeId, StatNode.bestWordSubtreeFreq,
      StatNode.bestWordSubtreeSumFreq, StatNode.hasAuto]
  · have h1 : statAChild ∈ StatNode.subnodes statAChild := by
      rw [subnodes_def]
      exact List.mem_cons_self _ _
    rw [statA, subnodes_def]
    refine List.mem_cons_of_mem _ ?_
    show statAChild ∈ subnodesKids [(('a' : Char), statAChild)]
    rw [subnodesKids_cons]
    exact List.mem_append_left _ h1
  · refine ⟨?_, ?_, ?_, ?_⟩ <;>
      norm_num [fourConds, statAChild, StatNode.sumFreq,
        StatNode.bestWordSubtreeFreq, StatNode.bestWordSubtreeSumFreq,
        StatNode.secondBestFreq, StatNode.secondBestSumFreq]

set_option maxRecDepth 8192 in
/-- Witness for claim C1 at a concrete input. -/
theorem claim_C1_witness :
    c1Prop wordsA (1/2) (1/2) 1 1 1 statA :=
  (@claim_C1_amended wordsA 9 trieA 1 (some (1/2)) (some (1/2)) (1/2) (1/2)
    1 1 1 1 statA rfl (by norm_num) (by norm_num) le_rfl
    (by simp [trieA, Node.wfB.eq_def, wfKids.eq_def])
    (by norm_num [dfsRun, dfsCore, dfsList, selInit, selStep, selStepSub,
      selStepWord, selStepBws, selStepAuto, wordsA, trieA,
      statA, statAChild, List.foldl_cons, List.foldl_nil, String.length,
      String.drop,
      StatNode.sumFreq, StatNode.bestWordId, StatNode.bestWordFreq,
      StatNode.bestWordSubtreeId, StatNode.bestWordSubtreeFreq,
      StatNode.bestWordSubtreeSumFreq, StatNode.hasAuto]))
    statA (by rw [subnodes_def]; exact List.mem_cons_self _ _)

/-! ## The navigable trie with cursor (`CoreTrie` in trie.py)

Python strings are modelled as `List Char`.  A `CT` node carries the
persistent fields (`completion`, `freq`, `prefix`) and the transient
navigation fields that `walk_to` writes onto nodes (`full_text`, `change`,
`num_accepted`).  The bookkeeping fields `counter` / `index` / `words`
(used only for display and demo purposes) and the `root` / `parent`
back-references are omitted: positions in the shared tree are modelled as
paths from the root, a transient node created by `child()` and not stored
in the tree is a `ghost` position, and a root clone produced by the reset
rule or the undo re-walk is the root position (writes to a clone never
reach the shared tree, which the position model reproduces by skipping
writes at the root position).  The configuration is the default one:
`case_insensitive = True`, `cache_full_text = True`,
`handle_control_characters = True`. -/
inductive CT where
  | mk (completion : List Char) (freq : Nat) (pfx : List Char)
       (fullText : List Char) (change : List Char) (numAccepted : Nat)
       (children : List (Char × CT))

def CT.completion : CT → List Char
  | .mk a _ _ _ _ _ _ => a

def CT.freq : CT → Nat
  | .mk _ a _ _ _ _ _ => a

def CT.pfx : CT → List Char
  | .mk _ _ a _ _ _ _ => a

def CT.fullText : CT → List Char
  | .mk _ _ _ a _ _ _ => a

def CT.change : CT → List Char
  | .mk _ _ _ _ a _ _ => a

def CT.numAccepted : CT → Nat
  | .mk _ _ _ _ _ a _ => a

def CT.children : CT → List (Char × CT)
  | .mk _ _ _ _ _ _ a => a

/-- A cursor position: a real node of the shared tree (`real []` doubles as
the root and its clones), or a transient chain of empty nodes hanging off
the real node at `base`. -/
inductive Pos where
  | real (path : List Char)
  | ghost (base : List Char) (ext : List Char)
deriving DecidableEq, Repr

/-- The backspace character (Python `"\b"`, code point 8). -/
def bspChar : Char := Char.ofNat 8

/-- The tab character (Python `"\t"`, code point 9). -/
def tabChar : Char := Char.ofNat 9

/-- `is_alpha` (trie.py lines 260-270): membership in the literal character
set of the 52 ASCII letters plus the apostrophe (code point 39). -/
def isAlphaApos (c : Char) : Bool :=
  (97 ≤ c.toNat && c.toNat ≤ 122) || (65 ≤ c.toNat && c.toNat ≤ 90) ||
  c.toNat = 39

/-- `is_control_character` with handling enabled (trie.py lines 272-285). -/
def isCtrlChar (c : Char) : Bool := c = tabChar || c = bspChar

/-- `is_reset_char` (trie.py lines 287-300). -/
def isResetChar (c : Char) : Bool := !isAlphaApos c && !isCtrlChar c

/-- A character matched by the undo regex `[A-Za-z0-9']` (trie.py line 225):
ASCII letters, digits, or the apostrophe. -/
def isWordChar (c : Char) : Bool :=
  (97 ≤ c.toNat && c.toNat ≤ 122) || (65 ≤ c.toNat && c.toNat ≤ 90) ||
  (48 ≤ c.toNat && c.toNat ≤ 57) || c.toNat = 39

/-- The longest suffix of `s` made of `isWordChar` characters: the match of
`[A-Za-z0-9']+$` (empty when the regex does not match). -/
def liveFragment (s : List Char) : List Char :=
  (s.reverse.takeWhile isWordChar).reverse

/-- Python dict lookup on an association list (first match). -/
def lookupChild (cs : List (Char × CT)) (k : Char) : Option CT :=
  match cs with
  | [] => none
  | (k2, c) :: rest => if k2 = k then some c else lookupChild rest k

/-- The node of the shared tree at a path of child keys. -/
def nodeAt? (t : CT) : List Char → Option CT
  | [] => some t
  | ch :: rest =>
    match lookupChild t.children ch with
    | none => none
    | some c => nodeAt? c rest

/-- Apply `g` to the value of the first entry with the given key (Python
dict update semantics; keys are unique in the trees this file builds). -/
def updChildren (g : CT → CT) (k : Char) : List (Char × CT) → List (Char × CT)
  | [] => []
  | (k2, c2) :: rest =>
    if k2 = k then (k2, g c2) :: rest
    else (k2, c2) :: updChildren g k rest

/-- Apply `f` to the node at the given path (no-op on a missing path). -/
def updAt : CT → List Char → (CT → CT) → CT
  | t, [], f => f t
  | .mk comp fr px ft chg na cs, ch :: rest, f =>
    .mk comp fr px ft chg na (updChildren (fun c => updAt c rest f) ch cs)

/-- Write onto the node a cursor position refers to.  Ghost nodes and root
clones are not part of the shared tree, so writes there are dropped. -/
def writeAt (t : CT) (pos : Pos) (f : CT → CT) : CT :=
  match pos with
  | .real [] => t
  | .real p => updAt t p f
  | .ghost _ _ => t

/-- `node.full_text = s; node.change = change` (trie.py lines 256-257). -/
def setFT (s chg : List Char) : CT → CT
  | .mk comp fr px _ _ na cs => .mk comp fr px s chg na cs

/-- `node.num_accepted = n` (trie.py line 236). -/
def setNumAcc (n : Nat) : CT → CT
  | .mk comp fr px ft chg _ cs => .mk comp fr px ft chg n cs

/-- `node.completion = post; node.freq = freq` (trie.py lines 343-344). -/
def setCompFreq (comp : List Char) (fr : Nat) : CT → CT
  | .mk _ _ px ft chg na cs => .mk comp fr px ft chg na cs

/-- `node.completion = post[i+1:]` (trie.py line 351). -/
def setComp (comp : List Char) : CT → CT
  | .mk _ fr px ft chg na cs => .mk comp fr px ft chg na cs

def childrenAt (t : CT) (pos : Pos) : List (Char × CT) :=
  match pos with
  | .real p =>
    match nodeAt? t p with
    | some n => n.children
    | none => []
  | .ghost _ _ => []

def completionAt (t : CT) (pos : Pos) : List Char :=
  match pos with
  | .real p =>
    match nodeAt? t p with
    | some n => n.completion
    | none => []
  | .ghost _ _ => []

/-- The `prefix` of the node a position refers to (transient nodes extend
their parent's prefix by the characters typed past the tree). -/
def pfxAt (t : CT) (pos : Pos) : List Char :=
  match pos with
  | .real p =>
    match nodeAt? t p with
    | some n => n.pfx
    | none => []
  | .ghost b e =>
    (match nodeAt? t b with
     | some n => n.pfx
     | none => []) ++ e

/-- `is_empty` (trie.py lines 156-163) at a position. -/
def emptyAt (t : CT) (pos : Pos) : Bool :=
  match pos with
  | .real p =>
    match nodeAt? t p with
    | some n => n.completion.isEmpty && n.children.isEmpty
    | none => true
  | .ghost _ _ => true

/-- The normal-character move (trie.py lines 238-249, read-only mode):
look the character up case-folded; descend if the child exists, otherwise
hang a transient empty node off the current position. -/
def stepPosNormal (t : CT) (pos : Pos) (ch : Char) : Pos :=
  match pos with
  | .real p =>
    match nodeAt? t p with
    | some n =>
      match lookupChild n.children ch.toLower with
      | some _ => .real (p ++ [ch.toLower])
      | none => .ghost p [ch]
    | none => .ghost p [ch]
  | .ghost b e => .ghost b (e ++ [ch])

/-- End of one loop iteration of `walk_to` (trie.py lines 251-257): the
reset rule, then the `full_text` / `change` write onto the reached node. -/
def finishStep (t : CT) (pos1 : Pos) (ch : Char) (s chg : List Char) :
    CT × Pos :=
  let pos2 := if emptyAt t pos1 && isResetChar ch then Pos.real [] else pos1
  (writeAt t pos2 (setFT s chg), pos2)

/-- `walk_to` in read-only mode (trie.py lines 195-258, `create_nodes =
False`, control-character handling enabled), one input character per loop
iteration.  State: shared tree, cursor position, the cursor node's
`full_text` (`s` in the source) and the `change` accumulator of this call.
`fuel` bounds the total number of characters processed, re-walks included;
it models Python's recursion/processing budget and every use in this file
supplies enough. -/
def walkAux : Nat → CT → Pos → List Char → List Char → List Char →
    Option (CT × Pos × List Char × List Char)
  | _, t, pos, s, chg, [] => some (t, pos, s, chg)
  | 0, _, _, _, _, _ :: _ => none
  | fuel + 1, t, pos, s, chg, ch :: rest =>
    if ch = bspChar && (lookupChild (childrenAt t pos) bspChar).isNone then
      -- backspace (trie.py lines 220-227)
      let s2 := s.dropLast
      let chg2 := chg ++ [bspChar]
      match walkAux fuel t (.real []) s2 [] (liveFragment s2) with
      | none => none
      | some (t1, pos1, _, _) =>
        let r := finishStep t1 pos1 ch s2 chg2
        walkAux fuel r.1 r.2 s2 chg2 rest
    else if ch = tabChar then
      -- tab (trie.py lines 229-236)
      let c := completionAt t pos
      let s2 := s ++ c
      let chg2 := chg ++ c
      match walkAux fuel t pos s [] c with
      | none => none
      | some (t1, pos1, _, _) =>
        let t2 := writeAt t1 pos1 (setNumAcc c.length)
        let r := finishStep t2 pos1 ch s2 chg2
        walkAux fuel r.1 r.2 s2 chg2 rest
    else
      -- normal character (trie.py lines 238-249)
      let s2 := s ++ [ch]
      let chg2 := chg ++ [ch]
      let pos1 := stepPosNormal t pos ch
      let r := finishStep t pos1 ch s2 chg2
      walkAux fuel r.1 r.2 s2 chg2 rest

/-- One `walk_to` call from a cursor at `pos` whose node carries
`full_text = s`: the `change` accumulator starts empty. -/
def walkTo (fuel : Nat) (t : CT) (pos : Pos) (s : List Char)
    (v : List Char) : Option (CT × Pos × List Char × List Char) :=
  walkAux fuel t pos s [] v

/-- `accept` (trie.py lines 353-363): walk through the current node's
completion. -/
def accept (fuel : Nat) (t : CT) (pos : Pos) (s : List Char) :
    Option (CT × Pos × List Char × List Char) :=
  walkTo fuel t pos s (completionAt t pos)

/-- Python dict assignment `children[ch] = n`: replace the entry if the key
exists, otherwise append it. -/
def setKey : List (Char × CT) → Char → CT → List (Char × CT)
  | [], k, c => [(k, c)]
  | (k2, c2) :: rest, k, c =>
    if k2 = k then (k, c) :: rest else (k2, c2) :: setKey rest k c

def addChild (k : Char) (c : CT) : CT → CT
  | .mk comp fr px ft chg na cs => .mk comp fr px ft chg na (setKey cs k c)

/-- `walk_to` in growable mode (trie.py lines 195-258 with `create_nodes =
True`): the control branches are disabled by the `not create_nodes` guards
and the reset rule is skipped, so every character either descends into the
case-folded child or creates a fresh empty child stored under the original
character (lines 242-249).  Positions stay real paths.  A missing path is
returned unchanged; the call sites only walk from existing nodes. -/
def walkCreate : CT → List Char → List Char → List Char → List Char →
    CT × List Char × List Char × List Char
  | t, p, s, chg, [] => (t, p, s, chg)
  | t, p, s, chg, ch :: rest =>
    let s2 := s ++ [ch]
    let chg2 := chg ++ [ch]
    match nodeAt? t p with
    | none => (t, p, s, chg)
    | some n =>
      match lookupChild n.children ch.toLower with
      | some _ =>
        let p2 := p ++ [ch.toLower]
        walkCreate (updAt t p2 (setFT s2 chg2)) p2 s2 chg2 rest
      | none =>
        -- `node.child(ch)` (trie.py lines 166-179): completion "", freq 1,
        -- prefix and full_text extended by the typed character.
        let newChild : CT := .mk [] 1 (n.pfx ++ [ch]) s2 [] 0 []
        let t1 := updAt t p (addChild ch newChild)
        let p2 := p ++ [ch]
        walkCreate (updAt t1 p2 (setFT s2 chg2)) p2 s2 chg2 rest

/-- The completion-materialising loop of `insert_pair` (trie.py lines
349-351): for each character of `post` except the last, step (creating) and
store the remaining completion. -/
def insertChain : CT → List Char → List Char → List Char → CT
  | t, _, _, [] => t
  | t, _, _, [_] => t
  | t, p, s, ch :: rest =>
    let r := walkCreate t p s [] [ch]
    insertChain (updAt r.1 r.2.1 (setComp rest)) r.2.1 r.2.2.1 rest

/-- `insert_pair` (trie.py lines 329-351).  The `counter` / `index` /
`words` bookkeeping (lines 345-347) is display-only and omitted. -/
def insertPair (t : CT) (pre post : List Char) (fr : Nat) : CT :=
  let r := walkCreate t [] t.fullText [] pre
  let t2 := updAt r.1 r.2.1 (setCompFreq post fr)
  insertChain t2 r.2.1 r.2.2.1 post

/-! ### Structural preservation by read-only navigation -/

/-- The persistent ("structural") part of a node: completion, frequency,
prefix, and the child keys.  Quantifying a statement over all paths makes
this capture the whole persistent tree shape. -/
def coreOf (n : CT) : List Char × Nat × List Char × List Char :=
  (n.completion, n.freq, n.pfx, n.children.map Prod.fst)

/-- A field update that touches only transient fields. -/
def transientUpd (f : CT → CT) : Prop :=
  ∀ n, (f n).children = n.children ∧ coreOf (f n) = coreOf n

theorem transient_setFT (s chg : List Char) : transientUpd (setFT s chg) := by
  intro n
  cases n
  exact ⟨rfl, rfl⟩

theorem transient_setNumAcc (k : Nat) : transientUpd (setNumAcc k) := by
  intro n
  cases n
  exact ⟨rfl, rfl⟩

theorem lookupChild_updChildren (g : CT → CT) (qh : Char)
    (cs : List (Char × CT)) (k : Char) :
    lookupChild (updChildren g qh cs) k =
      match lookupChild cs k with
      | none => none
      | some c => some (if k = qh then g c else c) := by
  induction cs with
  | nil => rfl
  | cons p rest ih =>
    obtain ⟨k2, c2⟩ := p
    rw [updChildren]
    by_cases hq : k2 = qh
    · rw [if_pos hq]
      by_cases hk : k2 = k
      · subst hk
        rw [lookupChild, if_pos rfl, lookupChild, if_pos rfl]
        show some (g c2) = some (if k2 = qh then g c2 else c2)
        rw [if_pos hq]
      · rw [lookupChild, if_neg hk, lookupChild, if_neg hk]
        have hkq : ¬ k = qh := fun hc => hk (hq.trans hc.symm)
        cases hr : lookupChild rest k with
        | none => rfl
        | some c =>
          show some c = some (if k = qh then g c else c)
          rw [if_neg hkq]
    · rw [if_neg hq]
      by_cases hk : k2 = k
      · subst hk
        rw [lookupChild, if_pos rfl, lookupChild, if_pos rfl]
        show some c2 = some (if k2 = qh then g c2 else c2)
        rw [if_neg hq]
      · rw [lookupChild, if_neg hk, lookupChild, if_neg hk, ih]

theorem map_fst_updChildren (g : CT → CT) (qh : Char)
    (cs : List (Char × CT)) :
    (updChildren g qh cs).map Prod.fst = cs.map Prod.fst := by
  induction cs with
  | nil => rfl
  | cons p rest ih =>
    obtain ⟨k2, c2⟩ := p
    rw [updChildren]
    by_cases hq : k2 = qh
    · rw [if_pos hq]
      rfl
    · rw [if_neg hq]
      simp only [List.map_cons, ih]

/-- `updAt` with a transient update preserves the persistent shape at every
path. -/
theorem nodeAt?_updAt_core {f : CT → CT} (hf : transientUpd f) :
    ∀ (q : List Char) (t : CT) (p : List Char),
      (nodeAt? (updAt t q f) p).map coreOf = (nodeAt? t p).map coreOf := by
  intro q
  induction q with
  | nil =>
    intro t p
    rw [updAt]
    cases p with
    | nil =>
      show some (coreOf (f t)) = some (coreOf t)
      rw [(hf t).2]
    | cons ch rest =>
      rw [nodeAt?, nodeAt?, (hf t).1]
  | cons qh qt ih =>
    intro t p
    cases t with
    | mk comp fr px ft chg na cs =>
      rw [updAt]
      cases p with
      | nil =>
        show some (coreOf (CT.mk comp fr px ft chg na
          (updChildren (fun c => updAt c qt f) qh cs))) =
          some (coreOf (CT.mk comp fr px ft chg na cs))
        unfold coreOf CT.completion CT.freq CT.pfx CT.children
        rw [map_fst_updChildren]
      | cons ph pt =>
        show ((match lookupChild (updChildren (fun c => updAt c qt f) qh cs)
            ph with
          | none => none
          | some c => nodeAt? c pt).map coreOf) =
          ((match lookupChild cs ph with
          | none => none
          | some c => nodeAt? c pt).map coreOf)
        rw [lookupChild_updChildren]
        cases hl : lookupChild cs ph with
        | none => rfl
        | some c =>
          show (nodeAt? (if ph = qh then updAt c qt f else c) pt).map coreOf =
            (nodeAt? c pt).map coreOf
          by_cases hq : ph = qh
          · rw [if_pos hq]
            exact ih c pt
          · rw [if_neg hq]

/-- `writeAt` with a transient update preserves the persistent shape. -/
theorem writeAt_core {f : CT → CT} (hf : transientUpd f) (t : CT) (pos : Pos)
    (p : List Char) :
    (nodeAt? (writeAt t pos f) p).map coreOf = (nodeAt? t p).map coreOf := by
  cases pos with
  | real q =>
    cases q with
    | nil => rfl
    | cons a b => exact nodeAt?_updAt_core hf (a :: b) t p
  | ghost _ _ => rfl

theorem walkAux_nil (fuel : Nat) (t : CT) (pos : Pos) (s chg : List Char) :
    walkAux fuel t pos s chg [] = some (t, pos, s, chg) := by
  cases fuel <;> rfl

theorem finishStep_core (t : CT) (pos1 : Pos) (ch : Char) (s chg : List Char)
    (p : List Char) :
    (nodeAt? (finishStep t pos1 ch s chg).1 p).map coreOf =
      (nodeAt? t p).map coreOf := by
  unfold finishStep
  exact writeAt_core (transient_setFT s chg) t _ p

/-- Read-only navigation preserves the persistent shape of the shared tree
at every path. -/
theorem walkAux_core :
    ∀ (fuel : Nat) (t : CT) (pos : Pos) (s chg v : List Char)
      (t2 : CT) (pos2 : Pos) (s2 chg2 : List Char),
    walkAux fuel t pos s chg v = some (t2, pos2, s2, chg2) →
    ∀ p, (nodeAt? t2 p).map coreOf = (nodeAt? t p).map coreOf := by
  intro fuel
  induction fuel with
  | zero =>
    intro t pos s chg v t2 pos2 s2 chg2 h p
    cases v with
    | nil =>
      rw [walkAux] at h
      obtain ⟨rfl, -, -, -⟩ := Prod.mk.injEq .. ▸ Option.some.inj h
      rfl
    | cons ch rest =>
      rw [walkAux] at h
      exact absurd h (by simp)
  | succ fuel ih =>
    intro t pos s chg v t2 pos2 s2 chg2 h p
    cases v with
    | nil =>
      rw [walkAux] at h
      obtain ⟨rfl, -, -, -⟩ := Prod.mk.injEq .. ▸ Option.some.inj h
      rfl
    | cons ch rest =>
      rw [walkAux] at h
      dsimp only at h
      split at h
      · -- backspace branch
        cases hin : walkAux fuel t (.real []) s.dropLast []
            (liveFragment s.dropLast) with
        | none => rw [hin] at h; exact absurd h (by simp)
        | some r1 =>
          rw [hin] at h
          obtain ⟨t1, pos1, s1x, c1x⟩ := r1
          calc (nodeAt? t2 p).map coreOf
              = (nodeAt? (finishStep t1 pos1 ch s.dropLast
                  (chg ++ [bspChar])).1 p).map coreOf := ih _ _ _ _ _ _ _ _ _ h p
            _ = (nodeAt? t1 p).map coreOf := finishStep_core _ _ _ _ _ p
            _ = (nodeAt? t p).map coreOf := ih _ _ _ _ _ _ _ _ _ hin p
      · split at h
        · -- tab branch
          cases hin : walkAux fuel t pos s [] (completionAt t pos) with
          | none => rw [hin] at h; exact absurd h (by simp)
          | some r1 =>
            rw [hin] at h
            obtain ⟨t1, pos1, s1x, c1x⟩ := r1
            calc (nodeAt? t2 p).map coreOf
                = (nodeAt? (finishStep (writeAt t1 pos1
                    (setNumAcc (completionAt t pos).length)) pos1 ch
                    (s ++ completionAt t pos)
                    (chg ++ completionAt t pos)).1 p).map coreOf :=
                  ih _ _ _ _ _ _ _ _ _ h p
              _ = (nodeAt? (writeAt t1 pos1
                    (setNumAcc (completionAt t pos).length)) p).map coreOf :=
                  finishStep_core _ _ _ _ _ p
              _ = (nodeAt? t1 p).map coreOf :=
                  writeAt_core (transient_setNumAcc _) t1 pos1 p
              _ = (nodeAt? t p).map coreOf := ih _ _ _ _ _ _ _ _ _ hin p
        · -- normal character
          calc (nodeAt? t2 p).map coreOf
              = (nodeAt? (finishStep t (stepPosNormal t pos ch) ch (s ++ [ch])
                  (chg ++ [ch])).1 p).map coreOf := ih _ _ _ _ _ _ _ _ _ h p
            _ = (nodeAt? t p).map coreOf := finishStep_core _ _ _ _ _ p

/-- Claim C8 theorem (amended): read-only navigation - stepping characters,
tab-acceptance, undo, and any whole `walk_to` call composed of them - never
changes the persistent part of any shared node (completion, frequency,
prefix, set of children); only the transient navigation fields (`full_text`,
`change`, `num_accepted`) of visited real nodes and the cursor itself
change. -/
theorem claim_C8_amended (fuel : Nat) (t : CT) (pos : Pos)
    (s chg v : List Char) (t2 : CT) (pos2 : Pos) (s2 chg2 : List Char)
    (h : walkAux fuel t pos s chg v = some (t2, pos2, s2, chg2)) :
    ∀ p, (nodeAt? t2 p).map coreOf = (nodeAt? t p).map coreOf :=
  walkAux_core fuel t pos s chg v t2 pos2 s2 chg2 h

/-- An empty root node, as `CoreTrie()` initialises it. -/
def rootCT : CT := .mk [] 1 [] [] [] 0 []

/-- The trie built by `insert("c|at")`: it contains the word "cat". -/
def trieCat : CT := insertPair rootCT [('c')] [('a'), ('t')] 1

/-- The trie built by `insert("ani|mals")`. -/
def trieAni : CT :=
  insertPair rootCT [('a'), ('n'), ('i')] [('m'), ('a'), ('l'), ('s')] 1

/-- The trie built by `insert("a1|b")`: its word "a1b" contains a digit. -/
def trieDig : CT := insertPair rootCT [('a'), ('1')] [('b')] 1

/-- Components of the "x c" walk used by the C8 witness. -/
def c8T2 : CT :=
  match walkTo 9 trieCat (.real []) [] [('x'), (' '), ('c')] with
  | some r => r.1
  | none => rootCT

def c8Pos2 : Pos :=
  match walkTo 9 trieCat (.real []) [] [('x'), (' '), ('c')] with
  | some r => r.2.1
  | none => .real []

def c8S2 : List Char :=
  match walkTo 9 trieCat (.real []) [] [('x'), (' '), ('c')] with
  | some r => r.2.2.1
  | none => []

def c8Chg2 : List Char :=
  match walkTo 9 trieCat (.real []) [] [('x'), (' '), ('c')] with
  | some r => r.2.2.2
  | none => []

theorem claim_C8_witness :
    (nodeAt? c8T2 [('c')]).map coreOf =
      (nodeAt? trieCat [('c')]).map coreOf :=
  claim_C8_amended 9 trieCat (.real []) [] [] [('x'), (' '), ('c')]
    c8T2 c8Pos2 c8S2 c8Chg2 rfl [('c')]

/-- Claim C8 counterexample: stepping the characters "x c" (read-only) over
the shared trie containing "cat" rewrites the `full_text` field of the
shared node "c" from "c" to "x c" - the walk does mutate shared nodes. -/
theorem claim_C8_counterexample :
    ((walkTo 9 trieCat (.real []) [] [('x'), (' '), ('c')]).map
      (fun r => (nodeAt? r.1 [('c')]).map CT.fullText)) =
        some (some [('x'), (' '), ('c')]) ∧
    (nodeAt? trieCat [('c')]).map CT.fullText = some [('c')] ∧
    ([('x'), (' '), ('c')] : List Char) ≠ [('c')] := by
  refine ⟨by decide, by decide, by decide⟩

/-! ### Claim C3: undo semantics -/

/-- Modelled from the specification's description of undo: the longest
trailing run of letters and apostrophes (no digits) of the remaining text.
This is the spec-side counterpart of `liveFragment`, which follows the
source regex `[A-Za-z0-9\x27]+$` and also accepts digits. -/
def undoFragmentSpec (s : List Char) : List Char :=
  (s.reverse.takeWhile isAlphaApos).reverse

/-- Claim C3 counterexample: typing "a1b" into the trie containing "a1b"
and pressing backspace leaves the cursor at the node "a1" (the source
regex keeps the digit run "a1"), while the claim's procedure - re-walking
the longest trailing run of letters/apostrophes, which is empty - would
leave it at the root. -/
theorem claim_C3_counterexample :
    ((walkTo 99 trieDig (.real []) []
        [('a'), ('1'), ('b'), bspChar]).map (fun r => r.2.1)) =
      some (Pos.real [('a'), ('1')]) ∧
    undoFragmentSpec [('a'), ('1')] = [] ∧
    ((walkTo 99 trieDig (.real []) []
        (undoFragmentSpec [('a'), ('1')])).map (fun r => r.2.1)) =
      some (Pos.real []) ∧
    Pos.real [('a'), ('1')] ≠ Pos.real [] := by
  refine ⟨by decide, by decide, by decide, by decide⟩

/-- Characterisation of one backspace step (trie.py lines 220-227): when
the current node has no literal backspace child, the text loses its last
character and the cursor is re-derived by the fragment re-walk from the
root. -/
theorem walkAux_bsp_char (fuel : Nat) (t : CT) (pos : Pos) (s chg : List Char)
    (t1 : CT) (pos1 : Pos) (s1 c1 : List Char)
    (hbsp : lookupChild (childrenAt t pos) bspChar = none)
    (hin : walkAux fuel t (.real []) s.dropLast [] (liveFragment s.dropLast) =
      some (t1, pos1, s1, c1)) :
    ∃ t2, walkAux (fuel + 1) t pos s chg [bspChar] =
      some (t2, pos1, s.dropLast, chg ++ [bspChar]) := by
  rw [walkAux.eq_def]
  dsimp only
  rw [if_pos (by simp [hbsp])]
  rw [hin]
  refine ⟨(finishStep t1 pos1 bspChar s.dropLast (chg ++ [bspChar])).1, ?_⟩
  have hpos : (finishStep t1 pos1 bspChar s.dropLast (chg ++ [bspChar])).2 =
      pos1 := by
    unfold finishStep
    have : isResetChar bspChar = false := by decide
    rw [this, Bool.and_false, if_neg (by simp)]
  dsimp only
  rw [walkAux_nil, hpos]

/-- Characterisation of one tab step (trie.py lines 229-236): the node's
completion is appended to the text and the cursor moves to the result of
walking the completion; no reset is applied for the tab itself. -/
theorem walkAux_tab_char (fuel : Nat) (t : CT) (pos : Pos) (s chg : List Char)
    (t1 : CT) (pos1 : Pos) (s1 c1 : List Char)
    (hin : walkAux fuel t pos s [] (completionAt t pos) =
      some (t1, pos1, s1, c1)) :
    ∃ t2, walkAux (fuel + 1) t pos s chg [tabChar] =
      some (t2, pos1, s ++ completionAt t pos, chg ++ completionAt t pos) := by
  rw [walkAux.eq_def]
  dsimp only
  rw [if_neg (by simp [show (tabChar = bspChar) = False by simp [tabChar, bspChar, Char.ext_iff]])]
  rw [if_pos rfl]
  rw [hin]
  have hpos : (finishStep (writeAt t1 pos1
      (setNumAcc (completionAt t pos).length)) pos1 tabChar
      (s ++ completionAt t pos) (chg ++ completionAt t pos)).2 = pos1 := by
    unfold finishStep
    have hrc : isResetChar tabChar = false := by decide
    rw [hrc, Bool.and_false, if_neg (by simp)]
  refine ⟨(finishStep (writeAt t1 pos1 (setNumAcc (completionAt t pos).length))
    pos1 tabChar (s ++ completionAt t pos) (chg ++ completionAt t pos)).1, ?_⟩
  show walkAux fuel
    (finishStep (writeAt t1 pos1 (setNumAcc (completionAt t pos).length))
      pos1 tabChar (s ++ completionAt t pos) (chg ++ completionAt t pos)).1
    (finishStep (writeAt t1 pos1 (setNumAcc (completionAt t pos).length))
      pos1 tabChar (s ++ completionAt t pos) (chg ++ completionAt t pos)).2
    (s ++ completionAt t pos) (chg ++ completionAt t pos) [] =
    some ((finishStep (writeAt t1 pos1 (setNumAcc (completionAt t pos).length))
      pos1 tabChar (s ++ completionAt t pos) (chg ++ completionAt t pos)).1,
      pos1, s ++ completionAt t pos, chg ++ completionAt t pos)
  rw [walkAux_nil, hpos]

/-- Characterisation of one normal-character step (trie.py lines 238-257):
the character is appended to the text, the cursor descends (or hangs a
transient node), and the reset rule fires exactly when the reached node is
empty and the character is a reset character. -/
theorem walkAux_normal_char (fuel : Nat) (t : CT) (pos : Pos)
    (s chg : List Char) (ch : Char)
    (hb : ¬ (ch = bspChar ∧ lookupChild (childrenAt t pos) bspChar = none))
    (ht : ch ≠ tabChar) :
    ∃ t2, walkAux (fuel + 1) t pos s chg [ch] =
      some (t2,
        if emptyAt t (stepPosNormal t pos ch) && isResetChar ch then
          Pos.real [] else stepPosNormal t pos ch,
        s ++ [ch], chg ++ [ch]) := by
  rw [walkAux.eq_def]
  dsimp only
  rw [if_neg (by
    simp only [Bool.and_eq_true, decide_eq_true_eq, Option.isNone_iff_eq_none]
    exact fun hc => hb ⟨hc.1, hc.2⟩)]
  rw [if_neg (by simp [ht])]
  refine ⟨(finishStep t (stepPosNormal t pos ch) ch (s ++ [ch])
    (chg ++ [ch])).1, ?_⟩
  rw [walkAux_nil]
  unfold finishStep
  rfl

/-- Claim C3 theorem (amended): the undo operation drops the last character
of the accumulated text and re-derives the cursor by re-walking, from the
tree root, the longest trailing run of letters, digits and apostrophes of
the remaining text; in particular, after typing "cat" into a trie
containing "cat", one backspace yields a cursor state (same node, same
accumulated text) identical to typing only "ca" from the start. -/
theorem claim_C3_amended :
    (∀ (fuel : Nat) (t : CT) (pos : Pos) (s chg : List Char)
       (t1 : CT) (pos1 : Pos) (s1 c1 : List Char),
      lookupChild (childrenAt t pos) bspChar = none →
      walkAux fuel t (.real []) s.dropLast [] (liveFragment s.dropLast) =
        some (t1, pos1, s1, c1) →
      ∃ t2, walkAux (fuel + 1) t pos s chg [bspChar] =
        some (t2, pos1, s.dropLast, chg ++ [bspChar])) ∧
    ((walkTo 99 trieCat (.real []) []
        [('c'), ('a'), ('t'), bspChar]).map (fun r => (r.2.1, r.2.2.1))) =
      ((walkTo 99 trieCat (.real []) []
        [('c'), ('a')]).map (fun r => (r.2.1, r.2.2.1))) ∧
    ((walkTo 99 trieCat (.real []) []
        [('c'), ('a')]).map (fun r => (r.2.1, r.2.2.1))) =
      some (Pos.real [('c'), ('a')], [('c'), ('a')]) := by
  refine ⟨?_, by decide, by decide⟩
  intro fuel t pos s chg t1 pos1 s1 c1 hbsp hin
  exact walkAux_bsp_char fuel t pos s chg t1 pos1 s1 c1 hbsp hin

/-- The state of the inner re-walk of the witness below. -/
def c3T1 : CT :=
  match walkAux 9 trieCat (.real []) [('c'), ('a')] []
      (liveFragment [('c'), ('a')]) with
  | some r => r.1
  | none => rootCT

def c3Pos1 : Pos :=
  match walkAux 9 trieCat (.real []) [('c'), ('a')] []
      (liveFragment [('c'), ('a')]) with
  | some r => r.2.1
  | none => .real []

def c3S1 : List Char :=
  match walkAux 9 trieCat (.real []) [('c'), ('a')] []
      (liveFragment [('c'), ('a')]) with
  | some r => r.2.2.1
  | none => []

def c3C1 : List Char :=
  match walkAux 9 trieCat (.real []) [('c'), ('a')] []
      (liveFragment [('c'), ('a')]) with
  | some r => r.2.2.2
  | none => []

theorem claim_C3_witness :
    ∃ t2, walkAux (9 + 1) trieCat
        (.ghost [('c'), ('a')] [('t')]) [('c'), ('a'), ('t')] [] [bspChar] =
      some (t2, c3Pos1, [('c'), ('a'), ('t')].dropLast, [] ++ [bspChar]) :=
  claim_C3_amended.1 9 trieCat (.ghost [('c'), ('a')] [('t')])
    [('c'), ('a'), ('t')] [] c3T1 c3Pos1 c3S1 c3C1 rfl rfl

/-! ### Claim C6: the reset rule -/

theorem stepPosNormal_ne_root (t : CT) (pos : Pos) (ch : Char) :
    stepPosNormal t pos ch ≠ Pos.real [] := by
  intro hcontra
  cases pos with
  | real p =>
    dsimp only [stepPosNormal] at hcontra
    split at hcontra
    · split at hcontra
      · rw [Pos.real.injEq] at hcontra
        exact List.cons_ne_nil _ _ (List.append_eq_nil.mp hcontra).2
      · exact Pos.noConfusion hcontra
    · exact Pos.noConfusion hcontra
  | ghost b e =>
    dsimp only [stepPosNormal] at hcontra
    exact Pos.noConfusion hcontra

/-- Claim C6 theorem: in read-only navigation, a character that is neither
a letter/apostrophe nor a control character and lands the cursor on an
empty node resets the cursor to the tree root while preserving the
accumulated text including that character (i); landing on a non-empty node
it does not reset (ii); letters and apostrophes never reset (iii); and the
two control characters take their control branches, to which the reset
rule for their own character never applies (iv), (v). -/
theorem claim_C6_reset_rule (fuel : Nat) (t : CT) (pos : Pos)
    (s chg : List Char) (ch : Char) :
    (isResetChar ch = true → emptyAt t (stepPosNormal t pos ch) = true →
      ∃ t2, walkAux (fuel + 1) t pos s chg [ch] =
        some (t2, Pos.real [], s ++ [ch], chg ++ [ch])) ∧
    (isResetChar ch = true → emptyAt t (stepPosNormal t pos ch) = false →
      ∃ t2, walkAux (fuel + 1) t pos s chg [ch] =
        some (t2, stepPosNormal t pos ch, s ++ [ch], chg ++ [ch]) ∧
        stepPosNormal t pos ch ≠ Pos.real []) ∧
    (isAlphaApos ch = true →
      ∃ t2, walkAux (fuel + 1) t pos s chg [ch] =
        some (t2, stepPosNormal t pos ch, s ++ [ch], chg ++ [ch]) ∧
        stepPosNormal t pos ch ≠ Pos.real []) ∧
    (∀ t1 pos1 s1 c1,
      walkAux fuel t pos s [] (completionAt t pos) = some (t1, pos1, s1, c1) →
      ∃ t2, walkAux (fuel + 1) t pos s chg [tabChar] =
        some (t2, pos1, s ++ completionAt t pos, chg ++ completionAt t pos)) ∧
    (lookupChild (childrenAt t pos) bspChar = none →
      ∀ t1 pos1 s1 c1,
      walkAux fuel t (.real []) s.dropLast [] (liveFragment s.dropLast) =
        some (t1, pos1, s1, c1) →
      ∃ t2, walkAux (fuel + 1) t pos s chg [bspChar] =
        some (t2, pos1, s.dropLast, chg ++ [bspChar])) := by
  have hresetNotCtrl : ∀ c : Char, isResetChar c = true → c ≠ bspChar ∧
      c ≠ tabChar := by
    intro c hc
    unfold isResetChar isCtrlChar at hc
    constructor
    · intro hb
      rw [hb] at hc
      simp at hc
    · intro hb
      rw [hb] at hc
      simp at hc
  have halphaNotCtrl : ∀ c : Char, isAlphaApos c = true → c ≠ bspChar ∧
      c ≠ tabChar := by
    intro c hc
    constructor
    · intro hb
      rw [hb] at hc
      exact absurd hc (by decide)
    · intro hb
      rw [hb] at hc
      exact absurd hc (by decide)
  refine ⟨?_, ?_, ?_, ?_, ?_⟩
  · intro hrc hempty
    obtain ⟨hb, ht⟩ := hresetNotCtrl ch hrc
    obtain ⟨t2, h2⟩ := walkAux_normal_char fuel t pos s chg ch
      (fun hc => hb hc.1) ht
    rw [hempty, hrc] at h2
    exact ⟨t2, by simpa using h2⟩
  · intro hrc hempty
    obtain ⟨hb, ht⟩ := hresetNotCtrl ch hrc
    obtain ⟨t2, h2⟩ := walkAux_normal_char fuel t pos s chg ch
      (fun hc => hb hc.1) ht
    rw [hempty] at h2
    exact ⟨t2, by simpa using h2, stepPosNormal_ne_root t pos ch⟩
  · intro halpha
    obtain ⟨hb, ht⟩ := halphaNotCtrl ch halpha
    obtain ⟨t2, h2⟩ := walkAux_normal_char fuel t pos s chg ch
      (fun hc => hb hc.1) ht
    have hrc : isResetChar ch = false := by
      unfold isResetChar
      rw [halpha]
      rfl
    rw [hrc] at h2
    exact ⟨t2, by simpa using h2, stepPosNormal_ne_root t pos ch⟩
  · intro t1 pos1 s1 c1 hin
    exact walkAux_tab_char fuel t pos s chg t1 pos1 s1 c1 hin
  · intro hbsp t1 pos1 s1 c1 hin
    exact walkAux_bsp_char fuel t pos s chg t1 pos1 s1 c1 hbsp hin

/-- Witness for claim C6 at a concrete input: typing a space at the
transient node "x" of the "cat" trie resets to the root and keeps the
text. -/
theorem claim_C6_witness :
    ∃ t2, walkAux (9 + 1) trieCat (.ghost [] [('x')]) [('x')] []
        [(' ')] =
      some (t2, Pos.real [], [('x')] ++ [(' ')], [] ++ [(' ')]) :=
  (claim_C6_reset_rule 9 trieCat (.ghost [] [('x')]) [('x')] [] (' ')).1
    (by decide) (by decide)

/-! ### Claim C5: accept semantics -/

/-- Walking control-free characters appends them, one by one, to the
accumulated text (the reset rule keeps the text). -/
theorem walkAux_text_append :
    ∀ (fuel : Nat) (t : CT) (pos : Pos) (s chg v : List Char)
      (t2 : CT) (pos2 : Pos) (s2 chg2 : List Char),
    (∀ ch ∈ v, isCtrlChar ch = false) →
    walkAux fuel t pos s chg v = some (t2, pos2, s2, chg2) →
    s2 = s ++ v := by
  intro fuel
  induction fuel with
  | zero =>
    intro t pos s chg v t2 pos2 s2 chg2 hv h
    cases v with
    | nil =>
      obtain ⟨-, -, rfl, -⟩ := Prod.mk.injEq .. ▸ Option.some.inj h
      simp
    | cons ch rest =>
      rw [walkAux] at h
      exact absurd h (by simp)
  | succ fuel ih =>
    intro t pos s chg v t2 pos2 s2 chg2 hv h
    cases v with
    | nil =>
      obtain ⟨-, -, rfl, -⟩ := Prod.mk.injEq .. ▸ Option.some.inj h
      simp
    | cons ch rest =>
      have hctrl : isCtrlChar ch = false := hv ch (List.mem_cons_self _ _)
      have hb : ch ≠ bspChar := by
        intro hc
        rw [hc] at hctrl
        exact absurd hctrl (by decide)
      have ht : ch ≠ tabChar := by
        intro hc
        rw [hc] at hctrl
        exact absurd hctrl (by decide)
      rw [walkAux.eq_def] at h
      dsimp only at h
      rw [if_neg (by simp [hb]), if_neg (by simp [ht])] at h
      have := ih _ _ (s ++ [ch]) (chg ++ [ch]) rest _ _ _ _
        (fun c hc => hv c (List.mem_cons_of_mem _ hc)) h
      rw [this]
      simp

/-- Claim C5 counterexample: a cursor whose accumulated text is not the
node's prefix (here: after typing "z ani", which went through a reset at
the space).  `accept()` yields accumulated text "z animals", while the
node's prefix + completion is "animals". -/
theorem claim_C5_counterexample :
    ((walkTo 99 trieAni (.real []) []
        [('z'), (' '), ('a'), ('n'), ('i')]).bind
      (fun r => (accept 99 r.1 r.2.1 r.2.2.1).map (fun r2 =>
        (r2.2.2.1, pfxAt r.1 r.2.1 ++ completionAt r.1 r.2.1)))) =
      some ([('z'), (' '), ('a'), ('n'), ('i'), ('m'), ('a'), ('l'), ('s')],
            [('a'), ('n'), ('i'), ('m'), ('a'), ('l'), ('s')]) ∧
    ([('z'), (' '), ('a'), ('n'), ('i'), ('m'), ('a'), ('l'), ('s')] :
        List Char) ≠
      [('a'), ('n'), ('i'), ('m'), ('a'), ('l'), ('s')] := by
  refine ⟨by decide, by decide⟩

/-- Claim C5 theorem (amended): `accept()` always leaves the cursor's
accumulated text equal to the pre-call accumulated text concatenated with
the node's completion (for completions free of control characters); when
the accumulated text equals the node's prefix this is prefix + completion.
In particular: after `insert("ani|mals")`, walking "ani" yields completion
"mals", and accept() yields accumulated text "animals" and completion "". -/
theorem claim_C5_amended :
    (∀ (fuel : Nat) (t : CT) (pos : Pos) (s : List Char)
       (t2 : CT) (pos2 : Pos) (s2 chg2 : List Char),
      (∀ ch ∈ completionAt t pos, isCtrlChar ch = false) →
      accept fuel t pos s = some (t2, pos2, s2, chg2) →
      s2 = s ++ completionAt t pos) ∧
    ((walkTo 99 trieAni (.real []) [] [('a'), ('n'), ('i')]).map
      (fun r => (r.2.1, r.2.2.1, completionAt r.1 r.2.1))) =
      some (Pos.real [('a'), ('n'), ('i')], [('a'), ('n'), ('i')],
        [('m'), ('a'), ('l'), ('s')]) ∧
    ((walkTo 99 trieAni (.real []) [] [('a'), ('n'), ('i')]).bind
      (fun r => (accept 99 r.1 r.2.1 r.2.2.1).map (fun r2 =>
        (r2.2.2.1, completionAt r2.1 r2.2.1)))) =
      some ([('a'), ('n'), ('i'), ('m'), ('a'), ('l'), ('s')], []) := by
  refine ⟨?_, by decide, by decide⟩
  intro fuel t pos s t2 pos2 s2 chg2 hfree h
  exact walkAux_text_append fuel t pos s [] (completionAt t pos)
    t2 pos2 s2 chg2 hfree h

/-- The components of the accept run in the witness below. -/
def c5T2 : CT :=
  match accept 99 trieAni (.real [('a'), ('n'), ('i')]) [('a'), ('n'), ('i')]
      with
  | some r => r.1
  | none => rootCT

def c5Pos2 : Pos :=
  match accept 99 trieAni (.real [('a'), ('n'), ('i')]) [('a'), ('n'), ('i')]
      with
  | some r => r.2.1
  | none => .real []

def c5S2 : List Char :=
  match accept 99 trieAni (.real [('a'), ('n'), ('i')]) [('a'), ('n'), ('i')]
      with
  | some r => r.2.2.1
  | none => []

def c5Chg2 : List Char :=
  match accept 99 trieAni (.real [('a'), ('n'), ('i')]) [('a'), ('n'), ('i')]
      with
  | some r => r.2.2.2
  | none => []

theorem claim_C5_witness :
    c5S2 = [('a'), ('n'), ('i')] ++
      completionAt trieAni (.real [('a'), ('n'), ('i')]) :=
  claim_C5_amended.1 99 trieAni (.real [('a'), ('n'), ('i')])
    [('a'), ('n'), ('i')] c5T2 c5Pos2 c5S2 c5Chg2 (by decide) rfl

/-! ### Claim C10: insertion materialises the completion chain -/

/-- The completion of the node at a path, if the path exists. -/
def compAt (t : CT) (p : List Char) : Option (List Char) :=
  (nodeAt? t p).map CT.completion

theorem nodeAt?_append (t : CT) (p q : List Char) :
    nodeAt? t (p ++ q) = (nodeAt? t p).bind (fun n => nodeAt? n q) := by
  induction p generalizing t with
  | nil => rfl
  | cons ch rest ih =>
    rw [List.cons_append, nodeAt?, nodeAt?]
    cases lookupChild t.children ch with
    | none => rfl
    | some c => exact ih c

theorem compAt_of_coreEq {t t2 : CT} {p : List Char}
    (h : (nodeAt? t2 p).map coreOf = (nodeAt? t p).map coreOf) :
    compAt t2 p = compAt t p := by
  unfold compAt
  cases h1 : nodeAt? t p with
  | none =>
    rw [h1] at h
    cases h2 : nodeAt? t2 p with
    | none => rfl
    | some m => rw [h2] at h; exact absurd h (by simp)
  | some n =>
    rw [h1] at h
    cases h2 : nodeAt? t2 p with
    | none => rw [h2] at h; exact absurd h (by simp)
    | some m =>
      rw [h2] at h
      have hc : coreOf m = coreOf n := Option.some.inj h
      have hcomp : m.completion = n.completion := congrArg Prod.fst hc
      show some m.completion = some n.completion
      rw [hcomp]

theorem isSome_of_coreEq {t t2 : CT} {p : List Char}
    (h : (nodeAt? t2 p).map coreOf = (nodeAt? t p).map coreOf) :
    (nodeAt? t2 p).isSome = (nodeAt? t p).isSome := by
  cases h1 : nodeAt? t p with
  | none =>
    rw [h1] at h
    cases h2 : nodeAt? t2 p with
    | none => rfl
    | some m => rw [h2] at h; exact absurd h (by simp)
  | some n =>
    rw [h1] at h
    cases h2 : nodeAt? t2 p with
    | none => rw [h2] at h; exact absurd h (by simp)
    | some m => rfl

/-- Reading the completion from a real position, given the node. -/
theorem completionAt_of_compAt {t : CT} {q x : List Char}
    (h : compAt t q = some x) : completionAt t (.real q) = x := by
  unfold compAt at h
  show (match nodeAt? t q with
    | some n => n.completion
    | none => []) = x
  cases h1 : nodeAt? t q with
  | none => rw [h1] at h; exact absurd h (by simp)
  | some n =>
    rw [h1] at h
    exact Option.some.inj h

/-- A path that exists has all its prefixes existing. -/
theorem nodeAt?_isSome_of_append {t : CT} {p q : List Char}
    (h : (nodeAt? t (p ++ q)).isSome = true) :
    (nodeAt? t p).isSome = true := by
  rw [nodeAt?_append] at h
  cases h1 : nodeAt? t p with
  | none => rw [h1] at h; exact absurd h (by simp)
  | some n => rfl

/-- Updating at a path rewrites exactly the node at that path. -/
theorem nodeAt?_updAt_self (f : CT → CT) :
    ∀ (q : List Char) (t : CT),
      nodeAt? (updAt t q f) q = (nodeAt? t q).map f := by
  intro q
  induction q with
  | nil =>
    intro t
    rw [updAt]
    rfl
  | cons qh qt ih =>
    intro t
    cases t with
    | mk comp fr px ft chg na cs =>
      rw [updAt]
      show (match lookupChild (updChildren (fun c => updAt c qt f) qh cs)
          qh with
        | none => none
        | some c => nodeAt? c qt) =
        ((match lookupChild cs qh with
        | none => none
        | some c => nodeAt? c qt).map f)
      rw [lookupChild_updChildren]
      cases hl : lookupChild cs qh with
      | none => rfl
      | some c =>
        show nodeAt? (if qh = qh then updAt c qt f else c) qt =
          (nodeAt? c qt).map f
        rw [if_pos rfl]
        exact ih c

/-- A children-preserving update at one path leaves the completion of every
other path unchanged. -/
theorem compAt_updAt_ne {f : CT → CT} (hf : ∀ n, (f n).children = n.children) :
    ∀ (q : List Char) (t : CT) (p : List Char), p ≠ q →
      compAt (updAt t q f) p = compAt t p := by
  intro q
  induction q with
  | nil =>
    intro t p hne
    rw [updAt]
    cases p with
    | nil => exact absurd rfl hne
    | cons ph pt =>
      unfold compAt
      rw [nodeAt?, nodeAt?, hf t]
  | cons qh qt ih =>
    intro t p hne
    cases t with
    | mk comp fr px ft chg na cs =>
      rw [updAt]
      cases p with
      | nil => rfl
      | cons ph pt =>
        unfold compAt
        show ((match lookupChild (updChildren (fun c => updAt c qt f) qh cs)
            ph with
          | none => none
          | some c => nodeAt? c pt).map CT.completion) =
          ((match lookupChild cs ph with
          | none => none
          | some c => nodeAt? c pt).map CT.completion)
        rw [lookupChild_updChildren]
        cases hl : lookupChild cs ph with
        | none => rfl
        | some c =>
          show (nodeAt? (if ph = qh then updAt c qt f else c) pt).map
              CT.completion =
            (nodeAt? c pt).map CT.completion
          by_cases hq : ph = qh
          · rw [if_pos hq]
            have hpt : pt ≠ qt := by
              intro hc
              exact hne (by rw [hq, hc])
            exact ih c pt hpt
          · rw [if_neg hq]

theorem lookupChild_setKey (k : Char) (c : CT) :
    ∀ cs, lookupChild (setKey cs k c) k = some c := by
  intro cs
  induction cs with
  | nil =>
    show (if k = k then some c else lookupChild [] k) = some c
    rw [if_pos rfl]
  | cons p rest ih =>
    obtain ⟨k2, c2⟩ := p
    show lookupChild
      (if k2 = k then (k, c) :: rest else (k2, c2) :: setKey rest k c) k =
      some c
    by_cases hk : k2 = k
    · rw [if_pos hk]
      show (if k = k then some c else lookupChild rest k) = some c
      rw [if_pos rfl]
    · rw [if_neg hk]
      show (if k2 = k then some c2 else lookupChild (setKey rest k c) k) =
        some c
      rw [if_neg hk]
      exact ih

theorem lookupChild_setKey_ne (k k2 : Char) (c : CT) (hne : k2 ≠ k) :
    ∀ cs, lookupChild (setKey cs k c) k2 = lookupChild cs k2 := by
  intro cs
  induction cs with
  | nil =>
    show (if k = k2 then some c else lookupChild [] k2) = lookupChild [] k2
    rw [if_neg (fun hc => hne hc.symm)]
  | cons p rest ih =>
    obtain ⟨kh, ch⟩ := p
    show lookupChild
      (if kh = k then (k, c) :: rest else (kh, ch) :: setKey rest k c) k2 = _
    by_cases hk : kh = k
    · rw [if_pos hk]
      show (if k = k2 then some c else lookupChild rest k2) =
        (if kh = k2 then some ch else lookupChild rest k2)
      rw [if_neg (fun hc => hne hc.symm), hk,
        if_neg (fun hc => hne hc.symm)]
    · rw [if_neg hk]
      show (if kh = k2 then some ch else lookupChild (setKey rest k c) k2) =
        (if kh = k2 then some ch else lookupChild rest k2)
      by_cases hk2 : kh = k2
      · rw [if_pos hk2, if_pos hk2]
      · rw [if_neg hk2, if_neg hk2]
        exact ih

/-- Unfolding equation of `nodeAt?` on a nonempty path. -/
theorem nodeAt?_cons (t : CT) (ch : Char) (rest : List Char) :
    nodeAt? t (ch :: rest) =
      match lookupChild t.children ch with
      | none => none
      | some c => nodeAt? c rest := rfl

/-- `addChild` at an existing node materialises the extended path. -/
theorem nodeAt?_updAt_addChild (k : Char) (c : CT) :
    ∀ (q : List Char) (t : CT), (nodeAt? t q).isSome = true →
      nodeAt? (updAt t q (addChild k c)) (q ++ [k]) = some c := by
  intro q
  induction q with
  | nil =>
    intro t _
    cases t with
    | mk comp fr px ft chg na cs =>
      show nodeAt? (CT.mk comp fr px ft chg na (setKey cs k c)) [k] = some c
      rw [nodeAt?_cons]
      show (match lookupChild (setKey cs k c) k with
        | none => none
        | some c2 => nodeAt? c2 []) = some c
      rw [lookupChild_setKey]
      rfl
  | cons qh qt ih =>
    intro t h
    cases t with
    | mk comp fr px ft chg na cs =>
      rw [nodeAt?_cons] at h
      rw [updAt]
      show (match lookupChild
          (updChildren (fun x => updAt x qt (addChild k c)) qh cs) qh with
        | none => none
        | some c2 => nodeAt? c2 (qt ++ [k])) = some c
      rw [lookupChild_updChildren]
      cases hl : lookupChild cs qh with
      | none =>
        rw [show lookupChild (CT.mk comp fr px ft chg na cs).children qh =
          lookupChild cs qh from rfl, hl] at h
        exact absurd h (by simp)
      | some c0 =>
        rw [show lookupChild (CT.mk comp fr px ft chg na cs).children qh =
          lookupChild cs qh from rfl, hl] at h
        show nodeAt? (if qh = qh then updAt c0 qt (addChild k c) else c0)
            (qt ++ [k]) = some c
        rw [if_pos rfl]
        exact ih c0 h

/-- `addChild` with a key fresh at its target node preserves every
completion fact that held before. -/
theorem compAt_updAt_addChild (k : Char) (c : CT) :
    ∀ (q : List Char) (t : CT) (n : CT), nodeAt? t q = some n →
      lookupChild n.children k = none →
      ∀ (p : List Char) (x : List Char), compAt t p = some x →
        compAt (updAt t q (addChild k c)) p = some x := by
  intro q
  induction q with
  | nil =>
    intro t n hq hk p x hp
    have hn : n = t := (Option.some.inj hq).symm
    subst hn
    cases n with
    | mk comp fr px ft chg na cs =>
      rw [updAt]
      cases p with
      | nil => exact hp
      | cons ph pt =>
        unfold compAt at hp ⊢
        rw [nodeAt?_cons] at hp
        rw [nodeAt?_cons]
        show ((match lookupChild (setKey cs k c) ph with
          | none => none
          | some c2 => nodeAt? c2 pt).map CT.completion) = some x
        rw [show lookupChild (CT.mk comp fr px ft chg na cs).children ph =
          lookupChild cs ph from rfl] at hp
        by_cases hpk : ph = k
        · rw [hpk] at hp
          rw [show (CT.mk comp fr px ft chg na cs).children = cs from rfl]
            at hk
          rw [hk] at hp
          exact absurd hp (by simp)
        · rw [lookupChild_setKey_ne k ph c hpk]
          exact hp
  | cons qh qt ih =>
    intro t n hq hk p x hp
    cases t with
    | mk comp fr px ft chg na cs =>
      rw [nodeAt?_cons] at hq
      rw [show lookupChild (CT.mk comp fr px ft chg na cs).children qh =
        lookupChild cs qh from rfl] at hq
      rw [updAt]
      cases p with
      | nil => exact hp
      | cons ph pt =>
        unfold compAt at hp ⊢
        rw [nodeAt?_cons] at hp
        rw [show lookupChild (CT.mk comp fr px ft chg na cs).children ph =
          lookupChild cs ph from rfl] at hp
        rw [nodeAt?_cons]
        show ((match lookupChild
            (updChildren (fun y => updAt y qt (addChild k c)) qh cs) ph with
          | none => none
          | some c2 => nodeAt? c2 pt).map CT.completion) = some x
        rw [lookupChild_updChildren]
        cases hl : lookupChild cs ph with
        | none =>
          rw [hl] at hp
          exact absurd hp (by simp)
        | some c1 =>
          rw [hl] at hp
          show (nodeAt? (if ph = qh then updAt c1 qt (addChild k c) else c1)
              pt).map CT.completion = some x
          by_cases hpq : ph = qh
          · rw [if_pos hpq]
            rw [hpq] at hl
            cases hq2 : lookupChild cs qh with
            | none => rw [hq2] at hq; exact absurd hq (by simp)
            | some c0 =>
              rw [hq2] at hq
              rw [hq2] at hl
              have hc10 : c1 = c0 := (Option.some.inj hl).symm
              subst hc10
              exact ih c1 n hq hk pt x hp
          · rw [if_neg hpq]
            exact hp

/-- Unfolding of the create-mode walk when the case-folded child exists
(trie.py lines 238-241 with `create_nodes = True`). -/
theorem walkCreate_cons_hit (t : CT) (p s chg : List Char) (ch : Char)
    (rest : List Char) (n c0 : CT) (hn : nodeAt? t p = some n)
    (hl : lookupChild n.children ch.toLower = some c0) :
    walkCreate t p s chg (ch :: rest) =
      walkCreate
        (updAt t (p ++ [ch.toLower]) (setFT (s ++ [ch]) (chg ++ [ch])))
        (p ++ [ch.toLower]) (s ++ [ch]) (chg ++ [ch]) rest := by
  rw [walkCreate]
  rw [hn]
  show (match lookupChild n.children ch.toLower with
    | some _ => walkCreate
        (updAt t (p ++ [ch.toLower]) (setFT (s ++ [ch]) (chg ++ [ch])))
        (p ++ [ch.toLower]) (s ++ [ch]) (chg ++ [ch]) rest
    | none => walkCreate
        (updAt (updAt t p
            (addChild ch (CT.mk [] 1 (n.pfx ++ [ch]) (s ++ [ch]) [] 0 [])))
          (p ++ [ch]) (setFT (s ++ [ch]) (chg ++ [ch])))
        (p ++ [ch]) (s ++ [ch]) (chg ++ [ch]) rest) = _
  rw [hl]

/-- Unfolding of the create-mode walk when the child is missing: a fresh
empty child is hung under the typed character (trie.py lines 242-249). -/
theorem walkCreate_cons_miss (t : CT) (p s chg : List Char) (ch : Char)
    (rest : List Char) (n : CT) (hn : nodeAt? t p = some n)
    (hl : lookupChild n.children ch.toLower = none) :
    walkCreate t p s chg (ch :: rest) =
      walkCreate
        (updAt (updAt t p
            (addChild ch (CT.mk [] 1 (n.pfx ++ [ch]) (s ++ [ch]) [] 0 [])))
          (p ++ [ch]) (setFT (s ++ [ch]) (chg ++ [ch])))
        (p ++ [ch]) (s ++ [ch]) (chg ++ [ch]) rest := by
  rw [walkCreate]
  rw [hn]
  show (match lookupChild n.children ch.toLower with
    | some _ => walkCreate
        (updAt t (p ++ [ch.toLower]) (setFT (s ++ [ch]) (chg ++ [ch])))
        (p ++ [ch.toLower]) (s ++ [ch]) (chg ++ [ch]) rest
    | none => walkCreate
        (updAt (updAt t p
            (addChild ch (CT.mk [] 1 (n.pfx ++ [ch]) (s ++ [ch]) [] 0 [])))
          (p ++ [ch]) (setFT (s ++ [ch]) (chg ++ [ch])))
        (p ++ [ch]) (s ++ [ch]) (chg ++ [ch]) rest) = _
  rw [hl]

/-- The create-mode walk over lower-case-stable characters from an existing
node: the cursor path is extended by exactly the walked characters, the
target node exists afterwards, and every completion fact about the tree is
preserved (only transient fields and fresh children are written). -/
theorem walkCreate_spec :
    ∀ (v : List Char) (t : CT) (p s chg : List Char),
      (∀ ch ∈ v, ch.toLower = ch) →
      (nodeAt? t p).isSome = true →
      (walkCreate t p s chg v).2.1 = p ++ v ∧
      (nodeAt? (walkCreate t p s chg v).1 (p ++ v)).isSome = true ∧
      (∀ r x, compAt t r = some x →
        compAt (walkCreate t p s chg v).1 r = some x) := by
  intro v
  induction v with
  | nil =>
    intro t p s chg _ hp
    refine ⟨(List.append_nil p).symm, ?_, fun r x hx => hx⟩
    rw [List.append_nil]
    exact hp
  | cons ch rest ih =>
    intro t p s chg hv hp
    have hch : ch.toLower = ch := hv ch (by simp)
    have hvr : ∀ c ∈ rest, c.toLower = c := fun c hc => hv c (by simp [hc])
    have hassoc : p ++ ch :: rest = (p ++ [ch]) ++ rest :=
      (List.append_assoc p [ch] rest).symm
    cases hn : nodeAt? t p with
    | none => rw [hn] at hp; exact absurd hp (by simp)
    | some n =>
      cases hl : lookupChild n.children ch with
      | some c0 =>
        rw [walkCreate_cons_hit t p s chg ch rest n c0 hn (by rw [hch]; exact hl)]
        rw [hch]
        have hpch : (nodeAt? t (p ++ [ch])).isSome = true := by
          have h1 : nodeAt? t (p ++ [ch]) = nodeAt? n [ch] := by
            rw [nodeAt?_append, hn]
            rfl
          rw [h1, nodeAt?_cons, hl]
          rfl
        have hcore : ∀ r, (nodeAt? (updAt t (p ++ [ch])
            (setFT (s ++ [ch]) (chg ++ [ch]))) r).map coreOf =
            (nodeAt? t r).map coreOf :=
          fun r => nodeAt?_updAt_core
            (transient_setFT (s ++ [ch]) (chg ++ [ch])) (p ++ [ch]) t r
        have hp2 : (nodeAt? (updAt t (p ++ [ch])
            (setFT (s ++ [ch]) (chg ++ [ch]))) (p ++ [ch])).isSome = true := by
          rw [isSome_of_coreEq (hcore (p ++ [ch]))]
          exact hpch
        obtain ⟨ha, hb, hc⟩ := ih (updAt t (p ++ [ch])
          (setFT (s ++ [ch]) (chg ++ [ch]))) (p ++ [ch])
          (s ++ [ch]) (chg ++ [ch]) hvr hp2
        refine ⟨?_, ?_, ?_⟩
        · rw [ha, hassoc]
        · rw [hassoc]
          exact hb
        · intro r x hx
          refine hc r x ?_
          rw [compAt_of_coreEq (hcore r)]
          exact hx
      | none =>
        rw [walkCreate_cons_miss t p s chg ch rest n hn (by rw [hch]; exact hl)]
        have h1 : nodeAt? (updAt t p
            (addChild ch (CT.mk [] 1 (n.pfx ++ [ch]) (s ++ [ch]) [] 0 [])))
            (p ++ [ch]) =
            some (CT.mk [] 1 (n.pfx ++ [ch]) (s ++ [ch]) [] 0 []) :=
          nodeAt?_updAt_addChild ch _ p t hp
        have hpres1 : ∀ r x, compAt t r = some x →
            compAt (updAt t p (addChild ch
              (CT.mk [] 1 (n.pfx ++ [ch]) (s ++ [ch]) [] 0 []))) r = some x :=
          compAt_updAt_addChild ch _ p t n hn hl
        have hcore : ∀ r, (nodeAt? (updAt (updAt t p (addChild ch
            (CT.mk [] 1 (n.pfx ++ [ch]) (s ++ [ch]) [] 0 [])))
            (p ++ [ch]) (setFT (s ++ [ch]) (chg ++ [ch]))) r).map coreOf =
            (nodeAt? (updAt t p (addChild ch
              (CT.mk [] 1 (n.pfx ++ [ch]) (s ++ [ch]) [] 0 []))) r).map
              coreOf :=
          fun r => nodeAt?_updAt_core
            (transient_setFT (s ++ [ch]) (chg ++ [ch])) (p ++ [ch]) _ r
        have hp2 : (nodeAt? (updAt (updAt t p (addChild ch
            (CT.mk [] 1 (n.pfx ++ [ch]) (s ++ [ch]) [] 0 [])))
            (p ++ [ch]) (setFT (s ++ [ch]) (chg ++ [ch])))
            (p ++ [ch])).isSome = true := by
          rw [isSome_of_coreEq (hcore (p ++ [ch])), h1]
          rfl
        obtain ⟨ha, hb, hc⟩ := ih (updAt (updAt t p (addChild ch
            (CT.mk [] 1 (n.pfx ++ [ch]) (s ++ [ch]) [] 0 [])))
            (p ++ [ch]) (setFT (s ++ [ch]) (chg ++ [ch]))) (p ++ [ch])
          (s ++ [ch]) (chg ++ [ch]) hvr hp2
        refine ⟨?_, ?_, ?_⟩
        · rw [ha, hassoc]
        · rw [hassoc]
          exact hb
        · intro r x hx
          refine hc r x ?_
          rw [compAt_of_coreEq (hcore r)]
          exact hpres1 r x hx

theorem setComp_children (c : List Char) (n : CT) :
    (setComp c n).children = n.children := by
  cases n
  rfl

theorem setComp_completion (c : List Char) (n : CT) :
    (setComp c n).completion = c := by
  cases n
  rfl

theorem setCompFreq_completion (c : List Char) (fr : Nat) (n : CT) :
    (setCompFreq c fr n).completion = c := by
  cases n
  rfl

/-- Unfolding of the completion-materialising loop on two or more remaining
characters (trie.py lines 349-351, one loop iteration). -/
theorem insertChain_cons2 (t : CT) (p s : List Char) (ch ch2 : Char)
    (rest2 : List Char) :
    insertChain t p s (ch :: ch2 :: rest2) =
      insertChain
        (updAt (walkCreate t p s [] [ch]).1 (walkCreate t p s [] [ch]).2.1
          (setComp (ch2 :: rest2)))
        (walkCreate t p s [] [ch]).2.1 (walkCreate t p s [] [ch]).2.2.1
        (ch2 :: rest2) := by
  rw [insertChain]
  exact fun h => List.noConfusion h

/-- The completion-materialising loop of `insert_pair`: after it runs over
`post` from the node at `p`, every strict intermediate node `p ++ post[:j]`
(`1 <= j < |post|`) carries completion `post[j:]`, and every completion
fact about a path other than these intermediate ones is preserved. -/
theorem insertChain_spec :
    ∀ (post : List Char) (t : CT) (p s : List Char),
      (∀ ch ∈ post, ch.toLower = ch) →
      (nodeAt? t p).isSome = true →
      (∀ r x, compAt t r = some x →
          (∀ j, 1 ≤ j → j < post.length → r ≠ p ++ post.take j) →
          compAt (insertChain t p s post) r = some x) ∧
      (∀ j, 1 ≤ j → j < post.length →
          compAt (insertChain t p s post) (p ++ post.take j) =
            some (post.drop j)) := by
  intro post
  induction post with
  | nil =>
    intro t p s _ _
    exact ⟨fun r x hx _ => hx, fun j hj1 hj2 => absurd hj2 (by simp)⟩
  | cons ch rest ih =>
    intro t p s hv hp
    cases rest with
    | nil =>
      refine ⟨fun r x hx _ => hx, fun j hj1 hj2 => ?_⟩
      exact absurd hj2 (by simp; omega)
    | cons ch2 rest2 =>
      have hch : ch.toLower = ch := hv ch (by simp)
      have hvr : ∀ c ∈ ch2 :: rest2, c.toLower = c :=
        fun c hc => hv c (by simp at hc ⊢; tauto)
      obtain ⟨ha, hb, hc⟩ := walkCreate_spec [ch] t p s []
        (by
          intro c hc2
          simp at hc2
          rw [hc2]
          exact hch) hp
      rw [insertChain_cons2, ha]
      have hp2 : (nodeAt? (updAt (walkCreate t p s [] [ch]).1 (p ++ [ch])
          (setComp (ch2 :: rest2))) (p ++ [ch])).isSome = true := by
        rw [nodeAt?_updAt_self]
        obtain ⟨m, hm⟩ := Option.isSome_iff_exists.mp hb
        rw [hm]
        rfl
      have hcomp2 : compAt (updAt (walkCreate t p s [] [ch]).1 (p ++ [ch])
          (setComp (ch2 :: rest2))) (p ++ [ch]) = some (ch2 :: rest2) := by
        unfold compAt
        rw [nodeAt?_updAt_self]
        obtain ⟨m, hm⟩ := Option.isSome_iff_exists.mp hb
        rw [hm]
        show some (setComp (ch2 :: rest2) m).completion = _
        rw [setComp_completion]
      have hpres2 : ∀ r x, compAt t r = some x → r ≠ p ++ [ch] →
          compAt (updAt (walkCreate t p s [] [ch]).1 (p ++ [ch])
            (setComp (ch2 :: rest2))) r = some x := by
        intro r x hx hne
        rw [compAt_updAt_ne (setComp_children (ch2 :: rest2)) (p ++ [ch])
          (walkCreate t p s [] [ch]).1 r hne]
        exact hc r x hx
      obtain ⟨hA, hB⟩ := ih (updAt (walkCreate t p s [] [ch]).1 (p ++ [ch])
        (setComp (ch2 :: rest2))) (p ++ [ch])
        (walkCreate t p s [] [ch]).2.2.1 hvr hp2
      have hpath : ∀ j' : Nat, p ++ (ch :: ch2 :: rest2).take (j' + 1) =
          (p ++ [ch]) ++ (ch2 :: rest2).take j' := by
        intro j'
        rw [List.take_succ_cons]
        exact (List.append_assoc p [ch] ((ch2 :: rest2).take j')).symm
      refine ⟨?_, ?_⟩
      · intro r x hx hnej
        have hne1 : r ≠ p ++ [ch] := by
          have := hnej 1 (le_refl 1) (by simp)
          intro heq
          exact this (by rw [heq]; rfl)
        refine hA r x (hpres2 r x hx hne1) ?_
        intro j' h1' h2'
        have hlt : j' + 1 < (ch :: ch2 :: rest2).length :=
          Nat.succ_lt_succ h2'
        have := hnej (j' + 1) (by omega) hlt
        rw [hpath j'] at this
        exact this
      · intro j hj1 hj2
        cases j with
        | zero => exact absurd hj1 (by omega)
        | succ j' =>
          rw [hpath j']
          cases Nat.eq_zero_or_pos j' with
          | inl hz =>
            subst hz
            show compAt _ ((p ++ [ch]) ++ []) = some (ch2 :: rest2)
            rw [List.append_nil]
            refine hA (p ++ [ch]) (ch2 :: rest2) hcomp2 ?_
            intro j'' h1'' h2'' heq
            have hlenEq := congrArg List.length heq
            simp [List.length_append, List.length_take] at hlenEq
            omega
          | inr hpos =>
            have h2 : j' < (ch2 :: rest2).length :=
              Nat.lt_of_succ_lt_succ hj2
            exact hB j' hpos h2

theorem isResetChar_alpha {ch : Char} (h : isAlphaApos ch = true) :
    isResetChar ch = false := by
  unfold isResetChar
  rw [h]
  rfl

theorem alpha_ne_bsp {ch : Char} (h : isAlphaApos ch = true) :
    ch ≠ bspChar := by
  intro he
  subst he
  exact absurd h (by decide)

theorem alpha_ne_tab {ch : Char} (h : isAlphaApos ch = true) :
    ch ≠ tabChar := by
  intro he
  subst he
  exact absurd h (by decide)

/-- Unfolding of one normal-character iteration of the read-only walk with
the continuation kept abstract. -/
theorem walkAux_cons_normal (fuel : Nat) (t : CT) (pos : Pos)
    (s chg : List Char) (ch : Char) (rest : List Char)
    (hb : ¬ (ch = bspChar ∧ lookupChild (childrenAt t pos) bspChar = none))
    (ht : ch ≠ tabChar) :
    walkAux (fuel + 1) t pos s chg (ch :: rest) =
      walkAux fuel
        (finishStep t (stepPosNormal t pos ch) ch (s ++ [ch]) (chg ++ [ch])).1
        (finishStep t (stepPosNormal t pos ch) ch (s ++ [ch]) (chg ++ [ch])).2
        (s ++ [ch]) (chg ++ [ch]) rest := by
  rw [walkAux.eq_def]
  dsimp only
  rw [if_neg (by
    simp only [Bool.and_eq_true, decide_eq_true_eq, Option.isNone_iff_eq_none]
    exact fun hc => hb ⟨hc.1, hc.2⟩)]
  rw [if_neg (by simp [ht])]

/-- Read-only walking of case-stable letters or apostrophes over a fully
materialised path descends exactly that path: the cursor ends at the real
node, the text is extended by the walked characters, and the persistent
tree shape is untouched. -/
theorem walkAux_descend :
    ∀ (v : List Char) (fuel : Nat) (t : CT) (p s chg : List Char),
      (∀ ch ∈ v, isAlphaApos ch = true ∧ ch.toLower = ch) →
      (∀ q u : List Char, q ++ u = v → (nodeAt? t (p ++ q)).isSome = true) →
      ∃ t2, walkAux (fuel + v.length) t (.real p) s chg v =
        some (t2, .real (p ++ v), s ++ v, chg ++ v) ∧
        ∀ r, (nodeAt? t2 r).map coreOf = (nodeAt? t r).map coreOf := by
  intro v
  induction v with
  | nil =>
    intro fuel t p s chg _ _
    refine ⟨t, ?_, fun r => rfl⟩
    rw [walkAux_nil]
    simp
  | cons ch rest ih =>
    intro fuel t p s chg hv hpaths
    have hal : isAlphaApos ch = true := (hv ch (by simp)).1
    have hlow : ch.toLower = ch := (hv ch (by simp)).2
    have hvr : ∀ c ∈ rest, isAlphaApos c = true ∧ c.toLower = c :=
      fun c hc => hv c (by simp [hc])
    have hp0 : (nodeAt? t p).isSome = true := by
      have := hpaths [] (ch :: rest) rfl
      rw [List.append_nil] at this
      exact this
    obtain ⟨n, hn⟩ := Option.isSome_iff_exists.mp hp0
    have hp1 : (nodeAt? t (p ++ [ch])).isSome = true :=
      hpaths [ch] rest rfl
    have hl : ∃ c, lookupChild n.children ch = some c := by
      have h1 : nodeAt? t (p ++ [ch]) = nodeAt? n [ch] := by
        rw [nodeAt?_append, hn]
        rfl
      rw [h1, nodeAt?_cons] at hp1
      cases hl2 : lookupChild n.children ch with
      | none => rw [hl2] at hp1; exact absurd hp1 (by simp)
      | some c => exact ⟨c, rfl⟩
    obtain ⟨c, hlc⟩ := hl
    have hstep : stepPosNormal t (.real p) ch = .real (p ++ [ch]) := by
      show (match nodeAt? t p with
        | some n2 =>
          match lookupChild n2.children ch.toLower with
          | some _ => Pos.real (p ++ [ch.toLower])
          | none => Pos.ghost p [ch]
        | none => Pos.ghost p [ch]) = Pos.real (p ++ [ch])
      rw [hn]
      show (match lookupChild n.children ch.toLower with
        | some _ => Pos.real (p ++ [ch.toLower])
        | none => Pos.ghost p [ch]) = Pos.real (p ++ [ch])
      rw [hlow, hlc]
    have hreset : isResetChar ch = false := isResetChar_alpha hal
    have hfin2 : (finishStep t (.real (p ++ [ch])) ch (s ++ [ch])
        (chg ++ [ch])).2 = .real (p ++ [ch]) := by
      unfold finishStep
      rw [hreset, Bool.and_false, if_neg (by simp)]
    have hfin1core : ∀ r, (nodeAt? (finishStep t (.real (p ++ [ch])) ch
        (s ++ [ch]) (chg ++ [ch])).1 r).map coreOf =
        (nodeAt? t r).map coreOf :=
      fun r => finishStep_core t _ ch _ _ r
    have hunf := walkAux_cons_normal (fuel + rest.length) t (.real p) s chg
      ch rest (fun hc => (alpha_ne_bsp hal) hc.1) (alpha_ne_tab hal)
    rw [hstep, hfin2] at hunf
    have hpaths2 : ∀ q u : List Char, q ++ u = rest →
        (nodeAt? (finishStep t (.real (p ++ [ch])) ch (s ++ [ch])
          (chg ++ [ch])).1 ((p ++ [ch]) ++ q)).isSome = true := by
      intro q u hq
      rw [isSome_of_coreEq (hfin1core ((p ++ [ch]) ++ q))]
      have hassoc2 : (p ++ [ch]) ++ q = p ++ (ch :: q) := by
        rw [List.append_assoc]
        rfl
      rw [hassoc2]
      exact hpaths (ch :: q) u (by show ch :: (q ++ u) = ch :: rest; rw [hq])
    obtain ⟨t2, hrec, hcore2⟩ := ih fuel
      (finishStep t (.real (p ++ [ch])) ch (s ++ [ch]) (chg ++ [ch])).1
      (p ++ [ch]) (s ++ [ch]) (chg ++ [ch]) hvr hpaths2
    refine ⟨t2, ?_, ?_⟩
    · have hfuel : fuel + (ch :: rest).length = (fuel + rest.length) + 1 :=
        rfl
      rw [hfuel, hunf, hrec]
      simp [List.append_assoc]
    · intro r
      rw [hcore2 r, hfin1core r]

/-- `insert_pair` materialises the whole completion chain: the node at
`pre ++ post[:k]` carries completion `post[k:]`, for every `k < |post|`. -/
theorem insertPair_compAt (t0 : CT) (pre post : List Char) (fr : Nat)
    (hpre : ∀ ch ∈ pre, ch.toLower = ch)
    (hpost : ∀ ch ∈ post, ch.toLower = ch)
    (k : Nat) (hk : k < post.length) :
    compAt (insertPair t0 pre post fr) (pre ++ post.take k) =
      some (post.drop k) := by
  obtain ⟨ha, hb, hc⟩ := walkCreate_spec pre t0 [] t0.fullText [] hpre rfl
  rw [List.nil_append] at ha hb
  show compAt (insertChain
    (updAt (walkCreate t0 [] t0.fullText [] pre).1
      (walkCreate t0 [] t0.fullText [] pre).2.1 (setCompFreq post fr))
    (walkCreate t0 [] t0.fullText [] pre).2.1
    (walkCreate t0 [] t0.fullText [] pre).2.2.1 post)
    (pre ++ post.take k) = some (post.drop k)
  rw [ha]
  obtain ⟨m, hm⟩ := Option.isSome_iff_exists.mp hb
  have hT2some : (nodeAt? (updAt (walkCreate t0 [] t0.fullText [] pre).1 pre
      (setCompFreq post fr)) pre).isSome = true := by
    rw [nodeAt?_updAt_self, hm]
    rfl
  have hT2comp : compAt (updAt (walkCreate t0 [] t0.fullText [] pre).1 pre
      (setCompFreq post fr)) pre = some post := by
    unfold compAt
    rw [nodeAt?_updAt_self, hm]
    show some (setCompFreq post fr m).completion = _
    rw [setCompFreq_completion]
  obtain ⟨hA, hB⟩ := insertChain_spec post
    (updAt (walkCreate t0 [] t0.fullText [] pre).1 pre (setCompFreq post fr))
    pre (walkCreate t0 [] t0.fullText [] pre).2.2.1 hpost hT2some
  cases Nat.eq_zero_or_pos k with
  | inl hz =>
    subst hz
    rw [List.take_zero, List.append_nil, List.drop_zero]
    refine hA pre post hT2comp ?_
    intro j hj1 hj2 heq
    have hlj : (post.take j).length = j :=
      List.length_take_of_le (Nat.le_of_lt hj2)
    have hlenEq := congrArg List.length heq
    rw [List.length_append, hlj] at hlenEq
    omega
  | inr hpos =>
    exact hB k hpos hk

/-- Claim C10 counterexample: after insert_pair("A", "B", 1) on a growable
trie, walking "A" (the k = 0 instance of the claim) from the root in
read-only mode does not reach a node with completion "B": insertion stored
the fresh child under the typed character while navigation looks the
character up case-folded, so the cursor lands on a transient miss node
whose completion is empty. -/
theorem claim_C10_counterexample :
    (walkTo 1 (insertPair rootCT [('A')] [('B')] 1) (.real []) []
        ([('A')] ++ List.take 0 [('B')])).map
      (fun r => (r.2.1, completionAt r.1 r.2.1)) =
      some (Pos.ghost [] [('A')], ([] : List Char)) ∧
    List.drop 0 [('B')] = [('B')] ∧
    ([] : List Char) ≠ [('B')] :=
  ⟨by decide, rfl, by decide⟩

/-- Claim C10 theorem (amended): after insert_pair(pre, post, freq) over
characters that are case-stable letters or apostrophes, for every k with
0 <= k < length(post) the node at path pre ++ post[:k] carries completion
post[k:], and read-only walking of pre ++ post[:k] from the tree root
reaches exactly that node and reads that completion there. -/
theorem claim_C10_amended (t0 : CT) (pre post : List Char) (fr : Nat)
    (k : Nat)
    (hch : ∀ ch ∈ pre ++ post, isAlphaApos ch = true ∧ ch.toLower = ch)
    (hk : k < post.length) (fuel : Nat) :
    compAt (insertPair t0 pre post fr) (pre ++ post.take k) =
      some (post.drop k) ∧
    ∃ t2 s2 chg2,
      walkTo (fuel + (pre ++ post.take k).length) (insertPair t0 pre post fr)
        (.real []) [] (pre ++ post.take k) =
        some (t2, .real (pre ++ post.take k), s2, chg2) ∧
      completionAt t2 (.real (pre ++ post.take k)) = post.drop k := by
  have hpre : ∀ ch ∈ pre, ch.toLower = ch :=
    fun c hc => (hch c (by simp [hc])).2
  have hpost : ∀ ch ∈ post, ch.toLower = ch :=
    fun c hc => (hch c (by simp [hc])).2
  have hcompPath := insertPair_compAt t0 pre post fr hpre hpost k hk
  refine ⟨hcompPath, ?_⟩
  have hdeep : (nodeAt? (insertPair t0 pre post fr)
      (pre ++ post.take k)).isSome = true := by
    unfold compAt at hcompPath
    cases hnn : nodeAt? (insertPair t0 pre post fr) (pre ++ post.take k) with
    | none => rw [hnn] at hcompPath; exact absurd hcompPath (by simp)
    | some _ => rfl
  have hWalkHyp : ∀ q u : List Char, q ++ u = pre ++ post.take k →
      (nodeAt? (insertPair t0 pre post fr) ([] ++ q)).isSome = true := by
    intro q u hq
    show (nodeAt? (insertPair t0 pre post fr) q).isSome = true
    exact nodeAt?_isSome_of_append (p := q) (q := u)
      (by rw [hq]; exact hdeep)
  have hchars : ∀ ch ∈ pre ++ post.take k,
      isAlphaApos ch = true ∧ ch.toLower = ch := by
    intro c hc
    refine hch c ?_
    simp at hc ⊢
    cases hc with
    | inl h => exact Or.inl h
    | inr h => exact Or.inr (List.mem_of_mem_take h)
  obtain ⟨t2, hwalk, hcore⟩ := walkAux_descend (pre ++ post.take k) fuel
    (insertPair t0 pre post fr) [] [] [] hchars hWalkHyp
  refine ⟨t2, [] ++ (pre ++ post.take k), [] ++ (pre ++ post.take k),
    ?_, ?_⟩
  · exact hwalk
  · refine completionAt_of_compAt ?_
    rw [compAt_of_coreEq (hcore (pre ++ post.take k))]
    exact hcompPath

theorem claim_C10_witness :
    compAt (insertPair rootCT [('c')] [('a'), ('t')] 1)
        ([('c')] ++ List.take 1 [('a'), ('t')]) =
      some (List.drop 1 [('a'), ('t')]) ∧
    ∃ t2 s2 chg2,
      walkTo (0 + ([('c')] ++ List.take 1 [('a'), ('t')]).length)
        (insertPair rootCT [('c')] [('a'), ('t')] 1) (.real []) []
        ([('c')] ++ List.take 1 [('a'), ('t')]) =
        some (t2, .real ([('c')] ++ List.take 1 [('a'), ('t')]), s2, chg2) ∧
      completionAt t2 (.real ([('c')] ++ List.take 1 [('a'), ('t')])) =
        List.drop 1 [('a'), ('t')] :=
  claim_C10_amended rootCT [('c')] [('a'), ('t')] 1 1 (by decide) (by decide) 0

/-! ### Claim C7: the completion-merge pipeline (merge.py, merge_completions)

The embedding works on parsed completion files, `(prefix, completion,
frequency)` triples with the integer frequencies the parser produces, and
numeric weights.  Python dicts are association lists in insertion order;
`dict[k] = v` replaces the first entry or appends; Python floats are ℚ. -/

/-- Python dict lookup (first matching key). -/
def dGet {κ α : Type} [DecidableEq κ] : List (κ × α) → κ → Option α
  | [], _ => none
  | (k2, v) :: rest, k => if k2 = k then some v else dGet rest k

/-- Python dict assignment: replace the first entry or append. -/
def dSet {κ α : Type} [DecidableEq κ] : List (κ × α) → κ → α → List (κ × α)
  | [], k, v => [(k, v)]
  | (k2, v2) :: rest, k, v =>
    if k2 = k then (k, v) :: rest else (k2, v2) :: dSet rest k v

/-- `list[i] = f(list[i])` on a Python list of tries. -/
def updIdx {α : Type} : List α → Nat → (α → α) → List α
  | [], _, _ => []
  | a :: rest, 0, f => f a :: rest
  | a :: rest, n + 1, f => a :: updIdx rest n f

/-- `zip` over three lists (stops at the shortest, like Python zip). -/
def zip3L {α β γ : Type} : List α → List β → List γ → List (α × β × γ)
  | a :: as2, b :: bs, c :: cs => (a, b, c) :: zip3L as2 bs cs
  | _, _, _ => []

/-- A parsed completion line: prefix, completion, integer frequency. -/
abbrev MEntry := String × String × Nat

/-- A freshly constructed `Node()` (node.py `__init__`): no word, frequency
0, no auto data, no children. -/
def emptyNode : Node := .mk none 0 none none []

/-- One word insertion of `Node.build` (node.py lines 66-78): walk the word
creating children via `setdefault`, then set `word_id` / `word_freq` at the
final node. -/
def buildAdd : Node → List Char → Nat → ℚ → Node
  | .mk _ _ awid asuf cs, [], i, f => .mk (some i) f awid asuf cs
  | .mk wid wf awid asuf cs, ch :: rest, i, f =>
    let child := match dGet cs ch with
      | some c => c
      | none => emptyNode
    .mk wid wf awid asuf (dSet cs ch (buildAdd child rest i f))

/-- The insertion loop of `Node.build` with the running word index. -/
def buildFrom : Node → Nat → List (List Char × ℚ) → Node
  | root, _, [] => root
  | root, i, (w, f) :: rest => buildFrom (buildAdd root w i f) (i + 1) rest

/-- Navigation `node[ch]` chained over a string (node.py lines 207-236):
descend through children, `none` when the path is missing. -/
def navNode : Node → List Char → Option Node
  | n, [] => some n
  | n, ch :: rest =>
    match dGet n.children ch with
    | none => none
    | some c => navNode c rest

/-- Apply `f` to the node at a path (no-op on a missing path; the call
sites below only touch existing paths, where the source mutates in
place). -/
def updNdAt : Node → List Char → (Node → Node) → Node
  | t, [], f => f t
  | .mk wid wf awid asuf cs, ch :: rest, f =>
    .mk wid wf awid asuf
      (match dGet cs ch with
       | none => cs
       | some c => dSet cs ch (updNdAt c rest f))

/-- `node.auto_suffix = post` (merge.py line 125). -/
def setAuto (post : String) : Node → Node
  | .mk wid wf awid _ cs => .mk wid wf awid (some post) cs

/-- `if node.auto_suffix: node.auto_suffix = None` (node.py lines 446-447,
451-452): Python truthiness keeps `None` and the empty string. -/
def clearAuto (n : Node) : Node :=
  match n with
  | .mk wid wf awid asuf cs =>
    match asuf with
    | none => .mk wid wf awid none cs
    | some s => if s = ("") then .mk wid wf awid (some s) cs
      else .mk wid wf awid none cs

/-- The completion-walking loop of `Node.disable` (node.py lines 448-453):
clear the auto suffix at the current node, then keep descending through
`post` until the path runs out. -/
def disableFrom : Node → List Char → List Char → Node
  | t, p, [] => updNdAt t p clearAuto
  | t, p, ch :: rest =>
    let t1 := updNdAt t p clearAuto
    match navNode t1 (p ++ [ch]) with
    | none => t1
    | some _ => disableFrom t1 (p ++ [ch]) rest

/-- `Node.disable` (node.py lines 441-453). -/
def Node.disable (t : Node) (pre post : String) : Node :=
  match navNode t pre.toList with
  | none => t
  | some _ => disableFrom t pre.toList post.toList

/-- Build one weighted trie of merge_completions (merge.py lines 104-127):
`Node.build` over the weighted complete words, then `auto_suffix := post`
at each prefix node. -/
def buildTrieFile (A : List MEntry) (w : ℚ) : Node :=
  let words := A.map (fun e => ((e.1 ++ e.2.1).toList, (e.2.2 : ℚ) * w))
  let root := buildFrom emptyNode 0 words
  A.foldl (fun t e => updNdAt t e.1.toList (setAuto e.2.1)) root

/-- The survival test of the collection pass (merge.py lines 163-178):
the prefix path exists and its `auto_suffix` equals the completion. -/
def surviving (t : Node) (pre post : String) : Bool :=
  match navNode t pre.toList with
  | none => false
  | some n => decide (n.autoSuffix = some post)

/-- One append into `completion_to_tries` (merge.py lines 111-114). -/
def cttAdd (m : List ((String × String) × List (Nat × ℚ)))
    (key : String × String) (e : Nat × ℚ) :
    List ((String × String) × List (Nat × ℚ)) :=
  match dGet m key with
  | none => m ++ [(key, [e])]
  | some l => dSet m key (l ++ [e])

/-- `completion_to_tries` contributions of one file (merge.py lines
106-114). -/
def cttFile (idx : Nat) (w : ℚ) :
    List MEntry → List ((String × String) × List (Nat × ℚ)) →
    List ((String × String) × List (Nat × ℚ))
  | [], m => m
  | (pre, post, f) :: rest, m =>
    cttFile idx w rest (cttAdd m (pre, post) (idx, (f : ℚ) * w))

/-- `completion_to_tries` over all files (the `enumerate(zip(...))` loop,
merge.py lines 105-127, restricted to the bookkeeping part). -/
def cttAll : Nat → List (List MEntry) → List ℚ →
    List ((String × String) × List (Nat × ℚ)) →
    List ((String × String) × List (Nat × ℚ))
  | _, [], _, m => m
  | _, _ :: _, [], m => m
  | idx, A :: fs, w :: ws, m => cttAll (idx + 1) fs ws (cttFile idx w A m)

/-- `sum(weighted_freq for _, weighted_freq in trie_info_list)`. -/
def totalOf (l : List (Nat × ℚ)) : ℚ := l.foldl (fun a e => a + e.2) 0

/-- One append into `prefix_to_completions` (merge.py lines 136-138). -/
def p2cAdd (m : List (String × List (String × ℚ × List Nat))) (pre : String)
    (e : String × ℚ × List Nat) :
    List (String × List (String × ℚ × List Nat)) :=
  match dGet m pre with
  | none => m ++ [(pre, [e])]
  | some l => dSet m pre (l ++ [e])

/-- `prefix_to_completions` built from `completion_to_tries` (merge.py
lines 131-138). -/
def p2cBuild : List ((String × String) × List (Nat × ℚ)) →
    List (String × List (String × ℚ × List Nat)) →
    List (String × List (String × ℚ × List Nat))
  | [], m => m
  | ((pre, post), l) :: rest, m =>
    p2cBuild rest (p2cAdd m pre (post, totalOf l, l.map Prod.fst))

/-- Stable insertion step for the in-place descending sort by weighted
frequency (merge.py line 147); equal keys keep their original order, as
Python's stable sort does. -/
def insDesc (x : String × ℚ × List Nat) :
    List (String × ℚ × List Nat) → List (String × ℚ × List Nat)
  | [] => [x]
  | y :: ys => if y.2.1 < x.2.1 then x :: y :: ys else y :: insDesc x ys

def sortDesc (l : List (String × ℚ × List Nat)) :
    List (String × ℚ × List Nat) :=
  l.foldl (fun acc x => insDesc x acc) []

/-- `for trie_index in trie_indices: tries[trie_index].disable(pre, post)`
(merge.py lines 151-153). -/
def applyDisables (pre : String) (e : String × ℚ × List Nat)
    (ts : List Node) : List Node :=
  e.2.2.foldl (fun acc i => updIdx acc i (fun t => t.disable pre e.1)) ts

/-- The conflict loop (merge.py lines 141-153): for each prefix with more
than one completion, sort descending by weighted frequency and disable all
but the best in every trie that contains them. -/
def conflictPass : List (String × List (String × ℚ × List Nat)) →
    List Node → List Node
  | [], ts => ts
  | (pre, entries) :: rest, ts =>
    conflictPass rest
      (if entries.length ≤ 1 then ts
       else ((sortDesc entries).drop 1).foldl
         (fun acc e => applyDisables pre e acc) ts)

/-- One accumulation into `final_completions` (merge.py lines 180-188):
sum the weighted frequency, track the minimal original index. -/
def finAdd (m : List ((String × String) × (ℚ × Nat)))
    (key : String × String) (wf : ℚ) (cidx : Nat) :
    List ((String × String) × (ℚ × Nat)) :=
  match dGet m key with
  | none => m ++ [(key, (wf, cidx))]
  | some fi => dSet m key (fi.1 + wf, min fi.2 cidx)

/-- The collection pass over one file (merge.py lines 161-188), with the
running `completion_index` from `enumerate`. -/
def collectFile (t : Node) (w : ℚ) :
    Nat → List MEntry → List ((String × String) × (ℚ × Nat)) →
    List ((String × String) × (ℚ × Nat))
  | _, [], m => m
  | cidx, (pre, post, f) :: rest, m =>
    collectFile t w (cidx + 1) rest
      (if surviving t pre post then finAdd m (pre, post) ((f : ℚ) * w) cidx
       else m)

/-- The collection pass over all tries (merge.py lines 159-188). -/
def collectAll : List (Node × List MEntry × ℚ) →
    List ((String × String) × (ℚ × Nat)) →
    List ((String × String) × (ℚ × Nat))
  | [], m => m
  | (t, A, w) :: rest, m => collectAll rest (collectFile t w 0 A m)

/-- Stable insertion step for `sorted(..., key=(-freq, min_index))`
(merge.py lines 192-194). -/
def insFin (x : (String × String) × (ℚ × Nat)) :
    List ((String × String) × (ℚ × Nat)) →
    List ((String × String) × (ℚ × Nat))
  | [] => [x]
  | y :: ys =>
    if y.2.1 < x.2.1 ∨ (y.2.1 = x.2.1 ∧ x.2.2 < y.2.2) then x :: y :: ys
    else y :: insFin x ys

def sortFin (l : List ((String × String) × (ℚ × Nat))) :
    List ((String × String) × (ℚ × Nat)) :=
  l.foldl (fun acc x => insFin x acc) []

/-- Python `round()` (banker's rounding, half to even) on a rational. -/
def roundQ (x : ℚ) : ℤ :=
  let fl := ⌊x⌋
  let fr := x - fl
  if fr < 1 / 2 then fl
  else if 1 / 2 < fr then fl + 1
  else if fl % 2 = 0 then fl else fl + 1

/-- `merge_completions` (merge.py lines 17-206) on parsed completion files
with numeric weights: validation, `completion_to_tries`, per-file tries,
`prefix_to_completions`, the conflict loop, the collection pass, and the
final sort; output data is the `(prefix, completion, rounded frequency)`
content of the formatted lines. -/
def mergeCompletions (files : List (List MEntry)) (ws : List ℚ) :
    Except String (List (String × String × ℤ)) :=
  if files.isEmpty then
    .error ("At least one completion file is required")
  else if ws.length ≠ files.length then
    .error ("Number of weights must match number of completion files")
  else
    let ctt := cttAll 0 files ws []
    let tries := List.zipWith buildTrieFile files ws
    let p2c := p2cBuild ctt []
    let tries2 := conflictPass p2c tries
    let fin := collectAll (zip3L tries2 files ws) []
    .ok ((sortFin fin).map (fun e => (e.1.1, e.1.2, roundQ e.2.1)))

section DictLemmas

variable {κ α : Type} [DecidableEq κ]

theorem dGet_dSet_self (m : List (κ × α)) (k : κ) (v : α) :
    dGet (dSet m k v) k = some v := by
  induction m with
  | nil => rw [dSet, dGet, if_pos rfl]
  | cons p rest ih =>
    obtain ⟨k2, v2⟩ := p
    rw [dSet]
    by_cases hk : k2 = k
    · rw [if_pos hk, dGet, if_pos rfl]
    · rw [if_neg hk, dGet, if_neg hk]
      exact ih

theorem dGet_dSet_ne (m : List (κ × α)) (k k2 : κ) (v : α) (hne : k2 ≠ k) :
    dGet (dSet m k v) k2 = dGet m k2 := by
  induction m with
  | nil =>
    show (if k = k2 then some v else dGet ([] : List (κ × α)) k2) =
      dGet ([] : List (κ × α)) k2
    rw [if_neg (fun hc => hne hc.symm)]
  | cons p rest ih =>
    obtain ⟨kh, vh⟩ := p
    rw [dSet]
    by_cases hk : kh = k
    · rw [if_pos hk, dGet, if_neg (fun hc => hne hc.symm), dGet, hk,
        if_neg (fun hc => hne hc.symm)]
    · rw [if_neg hk, dGet, dGet]
      by_cases hk2 : kh = k2
      · rw [if_pos hk2, if_pos hk2]
      · rw [if_neg hk2, if_neg hk2]
        exact ih

theorem dSet_keys_of_present (m : List (κ × α)) (k : κ) (v : α)
    (h : (dGet m k).isSome = true) :
    (dSet m k v).map Prod.fst = m.map Prod.fst := by
  induction m with
  | nil => rw [dGet] at h; exact absurd h (by simp)
  | cons p rest ih =>
    obtain ⟨kh, vh⟩ := p
    rw [dGet] at h
    rw [dSet]
    by_cases hk : kh = k
    · rw [if_pos hk]
      simp [hk]
    · rw [if_neg hk]
      rw [if_neg hk] at h
      simp only [List.map_cons]
      rw [ih h]

theorem dGet_append (m1 m2 : List (κ × α)) (k : κ) :
    dGet (m1 ++ m2) k =
      match dGet m1 k with
      | some v => some v
      | none => dGet m2 k := by
  induction m1 with
  | nil => rfl
  | cons p rest ih =>
    obtain ⟨kh, vh⟩ := p
    rw [List.cons_append, dGet, dGet]
    by_cases hk : kh = k
    · rw [if_pos hk, if_pos hk]
    · rw [if_neg hk, if_neg hk]
      exact ih

theorem dGet_eq_none_of_not_mem (m : List (κ × α)) (k : κ)
    (h : k ∉ m.map Prod.fst) : dGet m k = none := by
  induction m with
  | nil => rfl
  | cons p rest ih =>
    obtain ⟨kh, vh⟩ := p
    simp only [List.map_cons, List.mem_cons] at h
    rw [dGet, if_neg (fun hc => h (Or.inl hc.symm))]
    exact ih (fun hc => h (Or.inr hc))

theorem mem_keys_of_dGet_isSome (m : List (κ × α)) (k : κ)
    (h : (dGet m k).isSome = true) : k ∈ m.map Prod.fst := by
  by_cases hm : k ∈ m.map Prod.fst
  · exact hm
  · rw [dGet_eq_none_of_not_mem m k hm] at h
    exact absurd h (by simp)

theorem dGet_mem (m : List (κ × α)) (k : κ) (v : α)
    (h : dGet m k = some v) : (k, v) ∈ m := by
  induction m with
  | nil => rw [dGet] at h; exact absurd h (by simp)
  | cons p rest ih =>
    obtain ⟨kh, vh⟩ := p
    rw [dGet] at h
    by_cases hk : kh = k
    · rw [if_pos hk] at h
      subst hk
      rw [Option.some.inj h]
      exact List.mem_cons_self _ _
    · rw [if_neg hk] at h
      exact List.mem_cons_of_mem _ (ih h)

theorem dSet_mem (m : List (κ × α)) (k : κ) (v : α) (x : κ × α)
    (h : x ∈ dSet m k v) : x ∈ m ∨ x = (k, v) := by
  induction m with
  | nil =>
    rw [dSet] at h
    simp at h
    exact Or.inr h
  | cons p rest ih =>
    obtain ⟨kh, vh⟩ := p
    rw [dSet] at h
    by_cases hk : kh = k
    · rw [if_pos hk] at h
      cases List.mem_cons.mp h with
      | inl h2 => exact Or.inr h2
      | inr h2 => exact Or.inl (List.mem_cons_of_mem _ h2)
    · rw [if_neg hk] at h
      cases List.mem_cons.mp h with
      | inl h2 => exact Or.inl (h2 ▸ List.mem_cons_self _ _)
      | inr h2 =>
        cases ih h2 with
        | inl h3 => exact Or.inl (List.mem_cons_of_mem _ h3)
        | inr h3 => exact Or.inr h3

/-- Extensionality for association lists: same key sequence, no duplicate
keys, and pointwise equal lookups force list equality. -/
theorem alExt : ∀ (m1 m2 : List (κ × α)),
    m1.map Prod.fst = m2.map Prod.fst →
    (m1.map Prod.fst).Nodup →
    (∀ k, dGet m1 k = dGet m2 k) → m1 = m2 := by
  intro m1
  induction m1 with
  | nil =>
    intro m2 hkeys _ _
    cases m2 with
    | nil => rfl
    | cons p rest => exact absurd hkeys (by simp)
  | cons p rest ih =>
    intro m2 hkeys hnd hget
    obtain ⟨kh, vh⟩ := p
    cases m2 with
    | nil => exact absurd hkeys (by simp)
    | cons q rest2 =>
      obtain ⟨kh2, vh2⟩ := q
      simp only [List.map_cons, List.cons.injEq] at hkeys
      obtain ⟨hkeq, hkeys2⟩ := hkeys
      subst hkeq
      have hv : vh = vh2 := by
        have := hget kh
        rw [dGet, if_pos rfl, dGet, if_pos rfl] at this
        exact Option.some.inj this
      subst hv
      simp only [List.map_cons, List.nodup_cons] at hnd
      have hget2 : ∀ k, dGet rest k = dGet rest2 k := by
        intro k
        by_cases hk : kh = k
        · subst hk
          rw [dGet_eq_none_of_not_mem rest kh hnd.1,
            dGet_eq_none_of_not_mem rest2 kh (hkeys2 ▸ hnd.1)]
        · have := hget k
          rw [dGet, if_neg hk, dGet, if_neg hk] at this
          exact this
      rw [ih rest2 hkeys2 hnd.2 hget2]

end DictLemmas

/-- Map over the values of an association list. -/
def mapVals {κ α β : Type} (f : α → β) (m : List (κ × α)) : List (κ × β) :=
  m.map (fun kv => (kv.1, f kv.2))

section MapValsLemmas

variable {κ α β : Type} [DecidableEq κ] (f : α → β)

theorem dGet_mapVals (m : List (κ × α)) (k : κ) :
    dGet (mapVals f m) k = (dGet m k).map f := by
  induction m with
  | nil => rfl
  | cons p rest ih =>
    obtain ⟨kh, vh⟩ := p
    show dGet ((kh, f vh) :: mapVals f rest) k = _
    rw [dGet, dGet]
    by_cases hk : kh = k
    · rw [if_pos hk, if_pos hk]
      rfl
    · rw [if_neg hk, if_neg hk]
      exact ih

theorem dSet_mapVals (m : List (κ × α)) (k : κ) (v : α) :
    dSet (mapVals f m) k (f v) = mapVals f (dSet m k v) := by
  induction m with
  | nil => rfl
  | cons p rest ih =>
    obtain ⟨kh, vh⟩ := p
    show (if kh = k then (k, f v) :: mapVals f rest
      else (kh, f vh) :: dSet (mapVals f rest) k (f v)) =
      mapVals f (if kh = k then (k, v) :: rest
        else (kh, vh) :: dSet rest k v)
    by_cases hk : kh = k
    · rw [if_pos hk, if_pos hk]
      rfl
    · rw [if_neg hk, if_neg hk]
      show (kh, f vh) :: dSet (mapVals f rest) k (f v) =
        (kh, f vh) :: mapVals f (dSet rest k v)
      rw [ih]

end MapValsLemmas

theorem keys_mapVals {κ α β : Type} (f : α → β) (m : List (κ × α)) :
    (mapVals f m).map Prod.fst = m.map Prod.fst := by
  induction m with
  | nil => rfl
  | cons p rest ih =>
    obtain ⟨kh, vh⟩ := p
    show kh :: (mapVals f rest).map Prod.fst = kh :: rest.map Prod.fst
    rw [ih]

theorem dGet_isSome_of_mem_keys {κ α : Type} [DecidableEq κ]
    (m : List (κ × α)) (k : κ) (h : k ∈ m.map Prod.fst) :
    (dGet m k).isSome = true := by
  induction m with
  | nil => exact absurd h (by simp)
  | cons p rest ih =>
    obtain ⟨kh, vh⟩ := p
    simp only [List.map_cons, List.mem_cons] at h
    rw [dGet]
    by_cases hk : kh = k
    · rw [if_pos hk]
      rfl
    · rw [if_neg hk]
      exact ih (h.resolve_left (fun hc => hk hc.symm))

abbrev Mctt := List ((String × String) × List (Nat × ℚ))

/-- The `(trie_index, weighted_freq)` contributions one file pass appends
under one `(prefix, completion)` key. -/
def entriesOf (idx : Nat) (w : ℚ) (A : List MEntry) (k : String × String) :
    List (Nat × ℚ) :=
  A.filterMap (fun e =>
    if (e.1, e.2.1) = k then some (idx, (e.2.2 : ℚ) * w) else none)

def hasKeyA (A : List MEntry) (k : String × String) : Bool :=
  A.any (fun e => decide ((e.1, e.2.1) = k))

theorem dGet_cttAdd (m : Mctt) (key : String × String) (e : Nat × ℚ)
    (k : String × String) :
    dGet (cttAdd m key e) k =
      if k = key then some ((dGet m key).getD [] ++ [e]) else dGet m k := by
  unfold cttAdd
  by_cases hk : k = key
  · subst hk
    rw [if_pos rfl]
    cases hm : dGet m k with
    | none =>
      rw [dGet_append, hm]
      show dGet [(k, [e])] k = some [e]
      rw [dGet, if_pos rfl]
    | some l =>
      rw [dGet_dSet_self]
      rfl
  · rw [if_neg hk]
    cases hm : dGet m key with
    | none =>
      rw [dGet_append]
      cases h2 : dGet m k with
      | none =>
        show dGet [(key, [e])] k = none
        rw [dGet, if_neg (fun hc => hk hc.symm)]
        rfl
      | some v => rfl
    | some l =>
      exact dGet_dSet_ne m key k (l ++ [e]) hk

theorem dGet_cttFile (idx : Nat) (w : ℚ) :
    ∀ (A : List MEntry) (m : Mctt) (k : String × String),
      dGet (cttFile idx w A m) k =
        match dGet m k with
        | some l => some (l ++ entriesOf idx w A k)
        | none =>
          if hasKeyA A k then some (entriesOf idx w A k) else none := by
  intro A
  induction A with
  | nil =>
    intro m k
    show dGet m k =
      match dGet m k with
      | some l => some (l ++ entriesOf idx w [] k)
      | none =>
        if hasKeyA [] k then some (entriesOf idx w [] k) else none
    cases hm : dGet m k with
    | none => rfl
    | some l =>
      show some l = some (l ++ [])
      rw [List.append_nil]
  | cons e rest ih =>
    intro m k
    obtain ⟨pre, post, f⟩ := e
    rw [cttFile, ih, dGet_cttAdd]
    have hEnt : entriesOf idx w ((pre, post, f) :: rest) k =
        if (pre, post) = k then
          (idx, (f : ℚ) * w) :: entriesOf idx w rest k
        else entriesOf idx w rest k := by
      unfold entriesOf
      rw [List.filterMap_cons]
      by_cases hpk : (pre, post) = k
      · rw [if_pos hpk, if_pos hpk]
      · rw [if_neg hpk, if_neg hpk]
    have hHas : hasKeyA ((pre, post, f) :: rest) k =
        (decide ((pre, post) = k) || hasKeyA rest k) := by
      unfold hasKeyA
      rw [List.any_cons]
    rw [hEnt, hHas]
    by_cases hke : k = (pre, post)
    · subst hke
      rw [if_pos rfl, if_pos rfl]
      cases hm : dGet m (pre, post) with
      | none => simp
      | some l => simp
    · rw [if_neg hke,
        if_neg (c := (pre, post) = k) (fun hc => hke hc.symm),
        decide_eq_false (fun hc => hke hc.symm), Bool.false_or]

theorem keys_cttAdd_present (m : Mctt) (key : String × String) (e : Nat × ℚ)
    (h : (dGet m key).isSome = true) :
    (cttAdd m key e).map Prod.fst = m.map Prod.fst := by
  unfold cttAdd
  obtain ⟨l, hl⟩ := Option.isSome_iff_exists.mp h
  rw [hl]
  exact dSet_keys_of_present m key (l ++ [e]) h

theorem keys_cttFile (idx : Nat) (w : ℚ) :
    ∀ (A : List MEntry) (m : Mctt),
      (∀ e ∈ A, (dGet m (e.1, e.2.1)).isSome = true) →
      (cttFile idx w A m).map Prod.fst = m.map Prod.fst := by
  intro A
  induction A with
  | nil => intro m _; rfl
  | cons e rest ih =>
    intro m hpres
    obtain ⟨pre, post, f⟩ := e
    rw [cttFile]
    have h0 : (dGet m (pre, post)).isSome = true :=
      hpres (pre, post, f) (by simp)
    have hpres2 : ∀ e2 ∈ rest,
        (dGet (cttAdd m (pre, post) (idx, (f : ℚ) * w))
          (e2.1, e2.2.1)).isSome = true := by
      intro e2 he2
      rw [dGet_cttAdd]
      by_cases hk : (e2.1, e2.2.1) = (pre, post)
      · rw [if_pos hk]
        rfl
      · rw [if_neg hk]
        exact hpres e2 (List.mem_cons_of_mem _ he2)
    rw [ih _ hpres2, keys_cttAdd_present m _ _ h0]

theorem nodupKeys_cttAdd (m : Mctt) (key : String × String) (e : Nat × ℚ)
    (h : (m.map Prod.fst).Nodup) :
    ((cttAdd m key e).map Prod.fst).Nodup := by
  unfold cttAdd
  cases hm : dGet m key with
  | some l =>
    show ((dSet m key (l ++ [e])).map Prod.fst).Nodup
    rw [dSet_keys_of_present m key _ (by rw [hm]; rfl)]
    exact h
  | none =>
    show (((m ++ [(key, [e])]).map Prod.fst)).Nodup
    rw [List.map_append]
    refine List.nodup_append.mpr ⟨h, by simp, ?_⟩
    intro a ha hb
    simp at hb
    subst hb
    have := dGet_isSome_of_mem_keys m a ha
    rw [hm] at this
    exact absurd this (by simp)

theorem nodupKeys_cttFile (idx : Nat) (w : ℚ) :
    ∀ (A : List MEntry) (m : Mctt), (m.map Prod.fst).Nodup →
      ((cttFile idx w A m).map Prod.fst).Nodup := by
  intro A
  induction A with
  | nil => intro m h; exact h
  | cons e rest ih =>
    intro m h
    obtain ⟨pre, post, f⟩ := e
    rw [cttFile]
    exact ih _ (nodupKeys_cttAdd m _ _ h)

/-- Relabel contribution entries from trie 0 to trie 1. -/
def relabel (l : List (Nat × ℚ)) : List (Nat × ℚ) :=
  l.map (fun e => (e.1 + 1, e.2))

/-- The `completion_to_tries` value a key gets from two identical passes. -/
def dualVal (l : List (Nat × ℚ)) : List (Nat × ℚ) := l ++ relabel l

theorem entriesOf_succ (idx : Nat) (w : ℚ) (A : List MEntry)
    (k : String × String) :
    entriesOf (idx + 1) w A k = relabel (entriesOf idx w A k) := by
  unfold entriesOf relabel
  induction A with
  | nil => rfl
  | cons e rest ih =>
    rw [List.filterMap_cons, List.filterMap_cons]
    by_cases hk : (e.1, e.2.1) = k
    · rw [if_pos hk, if_pos hk]
      simp only [List.map_cons]
      rw [ih]
    · rw [if_neg hk, if_neg hk]
      exact ih

theorem entriesOf_one (w : ℚ) (A : List MEntry) (k : String × String) :
    entriesOf 1 w A k = relabel (entriesOf 0 w A k) :=
  entriesOf_succ 0 w A k

theorem hasKey_of_mem (A : List MEntry) (e : MEntry) (he : e ∈ A) :
    hasKeyA A (e.1, e.2.1) = true := by
  unfold hasKeyA
  rw [List.any_eq_true]
  exact ⟨e, he, by simp⟩

/-- Two identical passes of `completion_to_tries` bookkeeping produce the
single pass with every contribution list doubled (the second copy labeled
with trie index 1). -/
theorem ctt_dual_eq (A : List MEntry) :
    cttFile 1 1 A (cttFile 0 1 A []) = mapVals dualVal (cttFile 0 1 A []) := by
  have hpres : ∀ e ∈ A,
      (dGet (cttFile 0 1 A []) (e.1, e.2.1)).isSome = true := by
    intro e he
    rw [dGet_cttFile]
    show (if hasKeyA A (e.1, e.2.1) = true then
      some (entriesOf 0 1 A (e.1, e.2.1)) else none).isSome = true
    rw [hasKey_of_mem A e he, if_pos rfl]
    rfl
  refine alExt _ _ ?_ ?_ ?_
  · rw [keys_cttFile 1 1 A _ hpres, keys_mapVals]
  · rw [keys_cttFile 1 1 A _ hpres]
    exact nodupKeys_cttFile 0 1 A [] (by simp)
  · intro k
    rw [dGet_cttFile, dGet_mapVals]
    cases hm : dGet (cttFile 0 1 A []) k with
    | none =>
      have hh : hasKeyA A k = false := by
        cases h3 : hasKeyA A k with
        | false => rfl
        | true =>
          rw [dGet_cttFile] at hm
          have h4 : (if hasKeyA A k = true then some (entriesOf 0 1 A k)
              else none) = none := hm
          rw [h3, if_pos rfl] at h4
          exact Option.noConfusion h4
      show (if hasKeyA A k = true then some (entriesOf 1 1 A k)
        else none) = none
      rw [hh]
      simp
    | some l =>
      have hl : l = entriesOf 0 1 A k := by
        rw [dGet_cttFile] at hm
        have h2 : (if hasKeyA A k = true then some (entriesOf 0 1 A k)
            else none) = some l := hm
        by_cases hh : hasKeyA A k = true
        · rw [if_pos hh] at h2
          exact (Option.some.inj h2).symm
        · rw [if_neg hh] at h2
          exact absurd h2 (by simp)
      show some (l ++ entriesOf 1 1 A k) = some (dualVal l)
      rw [hl, entriesOf_one]
      rfl

abbrev Mp2c := List (String × List (String × ℚ × List Nat))

/-- How one `prefix_to_completions` entry changes when both passes
contribute: doubled total, indices of both tries. -/
def dualP2cE (v : String × ℚ × List Nat) : String × ℚ × List Nat :=
  (v.1, v.2.1 + v.2.1, v.2.2 ++ v.2.2.map (fun i => i + 1))

theorem totalOf_base : ∀ (l : List (Nat × ℚ)) (a : ℚ),
    l.foldl (fun x e => x + e.2) a = a + totalOf l := by
  intro l
  induction l with
  | nil =>
    intro a
    show a = a + 0
    rw [add_zero]
  | cons e rest ih =>
    intro a
    show rest.foldl (fun x e2 => x + e2.2) (a + e.2) = a + totalOf (e :: rest)
    rw [ih]
    have h2 : totalOf (e :: rest) = 0 + e.2 + totalOf rest := by
      show rest.foldl (fun x e2 => x + e2.2) (0 + e.2) = 0 + e.2 + totalOf rest
      rw [ih]
    rw [h2]
    ring

theorem totalOf_append (l1 l2 : List (Nat × ℚ)) :
    totalOf (l1 ++ l2) = totalOf l1 + totalOf l2 := by
  unfold totalOf
  rw [List.foldl_append]
  exact totalOf_base l2 _

theorem totalOf_relabel (l : List (Nat × ℚ)) :
    totalOf (relabel l) = totalOf l := by
  unfold totalOf relabel
  rw [List.foldl_map]

theorem mapfst_dualVal (l : List (Nat × ℚ)) :
    (dualVal l).map Prod.fst =
      l.map Prod.fst ++ (l.map Prod.fst).map (fun i => i + 1) := by
  unfold dualVal relabel
  rw [List.map_append, List.map_map, List.map_map]
  rfl

theorem p2cAdd_mapVals (m : Mp2c) (pre : String) (e : String × ℚ × List Nat) :
    p2cAdd (mapVals (List.map dualP2cE) m) pre (dualP2cE e) =
      mapVals (List.map dualP2cE) (p2cAdd m pre e) := by
  unfold p2cAdd
  rw [dGet_mapVals]
  cases hm : dGet m pre with
  | none =>
    show mapVals (List.map dualP2cE) m ++ [(pre, [dualP2cE e])] =
      mapVals (List.map dualP2cE) (m ++ [(pre, [e])])
    unfold mapVals
    rw [List.map_append]
    rfl
  | some l =>
    show dSet (mapVals (List.map dualP2cE) m) pre
        (l.map dualP2cE ++ [dualP2cE e]) =
      mapVals (List.map dualP2cE) (dSet m pre (l ++ [e]))
    have h2 : l.map dualP2cE ++ [dualP2cE e] =
        List.map dualP2cE (l ++ [e]) := by
      rw [List.map_append]
      rfl
    rw [h2, dSet_mapVals]

theorem p2cBuild_dual : ∀ (items : Mctt) (m : Mp2c),
    p2cBuild (mapVals dualVal items) (mapVals (List.map dualP2cE) m) =
      mapVals (List.map dualP2cE) (p2cBuild items m) := by
  intro items
  induction items with
  | nil => intro m; rfl
  | cons it rest ih =>
    intro m
    obtain ⟨⟨pre, post⟩, l⟩ := it
    show p2cBuild (((pre, post), dualVal l) :: mapVals dualVal rest)
        (mapVals (List.map dualP2cE) m) =
      mapVals (List.map dualP2cE) (p2cBuild (((pre, post), l) :: rest) m)
    rw [p2cBuild, p2cBuild]
    have hentry : (post, totalOf (dualVal l), (dualVal l).map Prod.fst) =
        dualP2cE (post, totalOf l, l.map Prod.fst) := by
      unfold dualP2cE
      show (post, totalOf (dualVal l), (dualVal l).map Prod.fst) =
        (post, totalOf l + totalOf l,
          l.map Prod.fst ++ (l.map Prod.fst).map (fun i => i + 1))
      rw [mapfst_dualVal]
      show (post, totalOf (dualVal l), _) = _
      unfold dualVal
      rw [totalOf_append, totalOf_relabel]
    rw [hentry, p2cAdd_mapVals]
    exact ih (p2cAdd m pre (post, totalOf l, l.map Prod.fst))

theorem dGet_of_mem_nodup {κ α : Type} [DecidableEq κ] :
    ∀ (m : List (κ × α)), (m.map Prod.fst).Nodup →
      ∀ (k : κ) (v : α), (k, v) ∈ m → dGet m k = some v := by
  intro m
  induction m with
  | nil => intro _ k v h; exact absurd h (by simp)
  | cons p rest ih =>
    intro hnd k v h
    obtain ⟨kh, vh⟩ := p
    simp only [List.map_cons, List.nodup_cons] at hnd
    cases List.mem_cons.mp h with
    | inl h2 =>
      obtain ⟨h3, h4⟩ := Prod.mk.injEq .. ▸ h2
      subst h3
      subst h4
      rw [dGet, if_pos rfl]
    | inr h2 =>
      rw [dGet]
      by_cases hk : kh = k
      · exfalso
        subst hk
        exact hnd.1 (List.mem_map.mpr ⟨(kh, v), h2, rfl⟩)
      · rw [if_neg hk]
        exact ih hnd.2 k v h2

theorem entriesOf_fst (idx : Nat) (w : ℚ) (A : List MEntry)
    (k : String × String) :
    ∀ x ∈ entriesOf idx w A k, x.1 = idx := by
  intro x hx
  unfold entriesOf at hx
  rw [List.mem_filterMap] at hx
  obtain ⟨a, _, hfa⟩ := hx
  by_cases hc : (a.1, a.2.1) = k
  · rw [if_pos hc] at hfa
    rw [← Option.some.inj hfa]
  · rw [if_neg hc] at hfa
    exact absurd hfa (by simp)

theorem ctt_fst_zero (A : List MEntry) :
    ∀ it ∈ cttFile 0 1 A [], ∀ i ∈ it.2.map Prod.fst, i = 0 := by
  intro it hit i hi
  have hnd := nodupKeys_cttFile 0 1 A ([] : Mctt) (by simp)
  obtain ⟨k2, l2⟩ := it
  have hget : dGet (cttFile 0 1 A []) k2 = some l2 :=
    dGet_of_mem_nodup _ hnd k2 l2 hit
  rw [dGet_cttFile] at hget
  have h2 : (if hasKeyA A k2 = true then some (entriesOf 0 1 A k2)
      else none) = some l2 := hget
  have hl2 : l2 = entriesOf 0 1 A k2 := by
    by_cases hh : hasKeyA A k2 = true
    · rw [if_pos hh] at h2
      exact (Option.some.inj h2).symm
    · rw [if_neg hh] at h2
      exact absurd h2 (by simp)
  rw [List.mem_map] at hi
  obtain ⟨x, hxm, hxi⟩ := hi
  rw [← hxi]
  exact entriesOf_fst 0 1 A k2 x (hl2 ▸ hxm)

theorem p2cAdd_zeros (m : Mp2c) (pre : String) (e : String × ℚ × List Nat)
    (hm : ∀ pe ∈ m, ∀ e2 ∈ pe.2, ∀ i ∈ e2.2.2, i = 0)
    (he : ∀ i ∈ e.2.2, i = 0) :
    ∀ pe ∈ p2cAdd m pre e, ∀ e2 ∈ pe.2, ∀ i ∈ e2.2.2, i = 0 := by
  intro pe hpe
  unfold p2cAdd at hpe
  cases hg : dGet m pre with
  | none =>
    rw [hg] at hpe
    have hpe2 : pe ∈ m ++ [(pre, [e])] := hpe
    cases List.mem_append.mp hpe2 with
    | inl h2 => exact hm pe h2
    | inr h2 =>
      simp only [List.mem_singleton] at h2
      subst h2
      intro e2 he2 i hi
      simp only [List.mem_singleton] at he2
      subst he2
      exact he i hi
  | some l =>
    rw [hg] at hpe
    have hpe2 : pe ∈ dSet m pre (l ++ [e]) := hpe
    cases dSet_mem m pre (l ++ [e]) pe hpe2 with
    | inl h2 => exact hm pe h2
    | inr h2 =>
      subst h2
      intro e2 he2 i hi
      cases List.mem_append.mp he2 with
      | inl h3 => exact hm (pre, l) (dGet_mem m pre l hg) e2 h3 i hi
      | inr h3 =>
        simp only [List.mem_singleton] at h3
        subst h3
        exact he i hi

theorem p2cBuild_zeros : ∀ (items : Mctt) (m : Mp2c),
    (∀ it ∈ items, ∀ i ∈ it.2.map Prod.fst, i = 0) →
    (∀ pe ∈ m, ∀ e2 ∈ pe.2, ∀ i ∈ e2.2.2, i = 0) →
    ∀ pe ∈ p2cBuild items m, ∀ e2 ∈ pe.2, ∀ i ∈ e2.2.2, i = 0 := by
  intro items
  induction items with
  | nil => intro m _ hm; exact hm
  | cons it rest ih =>
    intro m hits hm
    obtain ⟨⟨pre, post⟩, l⟩ := it
    rw [p2cBuild]
    refine ih _ (fun it2 h2 => hits it2 (List.mem_cons_of_mem _ h2)) ?_
    refine p2cAdd_zeros m pre _ hm ?_
    intro i hi
    exact hits ((pre, post), l) (by simp) i hi

theorem insDesc_mem (x : String × ℚ × List Nat) :
    ∀ (l : List (String × ℚ × List Nat)) (y : String × ℚ × List Nat),
      y ∈ insDesc x l → y = x ∨ y ∈ l := by
  intro l
  induction l with
  | nil =>
    intro y hy
    simp only [insDesc, List.mem_singleton] at hy
    exact Or.inl hy
  | cons z zs ih =>
    intro y hy
    rw [insDesc] at hy
    by_cases hlt : z.2.1 < x.2.1
    · rw [if_pos hlt] at hy
      cases List.mem_cons.mp hy with
      | inl h2 => exact Or.inl h2
      | inr h2 => exact Or.inr h2
    · rw [if_neg hlt] at hy
      cases List.mem_cons.mp hy with
      | inl h2 => exact Or.inr (h2 ▸ List.mem_cons_self _ _)
      | inr h2 =>
        cases ih y h2 with
        | inl h3 => exact Or.inl h3
        | inr h3 => exact Or.inr (List.mem_cons_of_mem _ h3)

theorem sortDesc_mem (l : List (String × ℚ × List Nat))
    (y : String × ℚ × List Nat) (hy : y ∈ sortDesc l) : y ∈ l := by
  suffices h : ∀ (l2 : List (String × ℚ × List Nat)) acc,
      y ∈ l2.foldl (fun a x => insDesc x a) acc → y ∈ acc ∨ y ∈ l2 by
    cases h l [] hy with
    | inl h2 => exact absurd h2 (by simp)
    | inr h2 => exact h2
  intro l2
  induction l2 with
  | nil => intro acc h2; exact Or.inl h2
  | cons z zs ih =>
    intro acc h2
    cases ih (insDesc z acc) h2 with
    | inl h3 =>
      cases insDesc_mem z acc y h3 with
      | inl h4 => exact Or.inr (h4 ▸ List.mem_cons_self _ _)
      | inr h4 => exact Or.inl h4
    | inr h3 => exact Or.inr (List.mem_cons_of_mem _ h3)

theorem insDesc_dual (x : String × ℚ × List Nat) :
    ∀ (l : List (String × ℚ × List Nat)),
      insDesc (dualP2cE x) (l.map dualP2cE) = (insDesc x l).map dualP2cE := by
  intro l
  induction l with
  | nil => rfl
  | cons y ys ih =>
    show insDesc (dualP2cE x) (dualP2cE y :: ys.map dualP2cE) = _
    rw [insDesc, insDesc]
    by_cases hlt : y.2.1 < x.2.1
    · have h2 : (dualP2cE y).2.1 < (dualP2cE x).2.1 := by
        show y.2.1 + y.2.1 < x.2.1 + x.2.1
        linarith
      rw [if_pos h2, if_pos hlt]
      rfl
    · have h2 : ¬ (dualP2cE y).2.1 < (dualP2cE x).2.1 := by
        show ¬ y.2.1 + y.2.1 < x.2.1 + x.2.1
        intro h3
        exact hlt (by linarith)
      rw [if_neg h2, if_neg hlt]
      show dualP2cE y :: insDesc (dualP2cE x) (ys.map dualP2cE) =
        (y :: insDesc x ys).map dualP2cE
      rw [ih]
      rfl

theorem sortDesc_dual (l : List (String × ℚ × List Nat)) :
    sortDesc (l.map dualP2cE) = (sortDesc l).map dualP2cE := by
  suffices h : ∀ (l2 : List (String × ℚ × List Nat)) acc,
      (l2.map dualP2cE).foldl (fun a x => insDesc x a) (acc.map dualP2cE) =
        (l2.foldl (fun a x => insDesc x a) acc).map dualP2cE by
    exact h l []
  intro l2
  induction l2 with
  | nil => intro acc; rfl
  | cons z zs ih =>
    intro acc
    show (zs.map dualP2cE).foldl (fun a x => insDesc x a)
        (insDesc (dualP2cE z) (acc.map dualP2cE)) = _
    rw [insDesc_dual]
    exact ih (insDesc z acc)

theorem foldZeros (g : Node → Node) :
    ∀ (idxs : List Nat) (x : Node) (ts : List Node),
      (∀ i ∈ idxs, i = 0) →
      idxs.foldl (fun acc i => updIdx acc i g) (x :: ts) =
        (idxs.foldl (fun a _ => g a) x) :: ts := by
  intro idxs
  induction idxs with
  | nil => intro x ts _; rfl
  | cons i rest ih =>
    intro x ts hz
    have hi : i = 0 := hz i (by simp)
    subst hi
    show rest.foldl (fun acc i => updIdx acc i g) (g x :: ts) = _
    rw [ih (g x) ts (fun j hj => hz j (by simp [hj]))]
    rfl

theorem foldOnes (g : Node → Node) :
    ∀ (idxs : List Nat) (a x : Node),
      (∀ i ∈ idxs, i = 0) →
      (idxs.map (fun i => i + 1)).foldl (fun acc i => updIdx acc i g)
        [a, x] = [a, idxs.foldl (fun y _ => g y) x] := by
  intro idxs
  induction idxs with
  | nil => intro a x _; rfl
  | cons i rest ih =>
    intro a x hz
    have hi : i = 0 := hz i (by simp)
    subst hi
    show (rest.map (fun i => i + 1)).foldl (fun acc i => updIdx acc i g)
      [a, g x] = _
    rw [ih a (g x) (fun j hj => hz j (by simp [hj]))]
    rfl

theorem applyDisables_single (pre : String) (e : String × ℚ × List Nat)
    (x : Node) (hz : ∀ i ∈ e.2.2, i = 0) :
    applyDisables pre e [x] =
      [e.2.2.foldl (fun y _ => Node.disable y pre e.1) x] := by
  unfold applyDisables
  exact foldZeros _ e.2.2 x [] hz

theorem applyDisables_dual (pre : String) (e : String × ℚ × List Nat)
    (x y : Node) (hz : ∀ i ∈ e.2.2, i = 0) :
    applyDisables pre (dualP2cE e) [x, y] =
      [e.2.2.foldl (fun z _ => Node.disable z pre e.1) x,
       e.2.2.foldl (fun z _ => Node.disable z pre e.1) y] := by
  unfold applyDisables
  show (e.2.2 ++ e.2.2.map (fun i => i + 1)).foldl
      (fun acc i => updIdx acc i (fun t => Node.disable t pre e.1))
      [x, y] = _
  rw [List.foldl_append]
  rw [foldZeros _ e.2.2 x [y] hz]
  exact foldOnes _ e.2.2 _ y hz

theorem losersFold (pre : String) :
    ∀ (ls : List (String × ℚ × List Nat)) (x : Node),
      (∀ e ∈ ls, ∀ i ∈ e.2.2, i = 0) →
      ∃ y, ls.foldl (fun acc e => applyDisables pre e acc) [x] = [y] ∧
        (ls.map dualP2cE).foldl (fun acc e => applyDisables pre e acc)
          [x, x] = [y, y] := by
  intro ls
  induction ls with
  | nil => intro x _; exact ⟨x, rfl, rfl⟩
  | cons e rest ih =>
    intro x hz
    have hze : ∀ i ∈ e.2.2, i = 0 := hz e (by simp)
    have hzr : ∀ e2 ∈ rest, ∀ i ∈ e2.2.2, i = 0 :=
      fun e2 he2 => hz e2 (by simp [he2])
    obtain ⟨y, h1, h2⟩ :=
      ih (e.2.2.foldl (fun z _ => Node.disable z pre e.1) x) hzr
    refine ⟨y, ?_, ?_⟩
    · show rest.foldl (fun acc e2 => applyDisables pre e2 acc)
        (applyDisables pre e [x]) = [y]
      rw [applyDisables_single pre e x hze]
      exact h1
    · show (rest.map dualP2cE).foldl (fun acc e2 => applyDisables pre e2 acc)
        (applyDisables pre (dualP2cE e) [x, x]) = [y, y]
      rw [applyDisables_dual pre e x x hze]
      exact h2

/-- The conflict loop acts identically on both copies of a doubled pair of
tries: single run and dual run end in the same per-copy trie. -/
theorem conflictPass_dual :
    ∀ (m : Mp2c),
      (∀ pe ∈ m, ∀ e ∈ pe.2, ∀ i ∈ e.2.2, i = 0) →
      ∀ (X : Node),
      ∃ Y, conflictPass m [X] = [Y] ∧
        conflictPass (mapVals (List.map dualP2cE) m) [X, X] = [Y, Y] := by
  intro m
  induction m with
  | nil => intro _ X; exact ⟨X, rfl, rfl⟩
  | cons pe rest ih =>
    intro hz X
    obtain ⟨pre, entries⟩ := pe
    have hze : ∀ e ∈ entries, ∀ i ∈ e.2.2, i = 0 :=
      hz (pre, entries) (by simp)
    have hzr : ∀ pe2 ∈ rest, ∀ e ∈ pe2.2, ∀ i ∈ e.2.2, i = 0 :=
      fun pe2 hp => hz pe2 (by simp [hp])
    by_cases hlen : entries.length ≤ 1
    · have hlen2 : (entries.map dualP2cE).length ≤ 1 := by
        rw [List.length_map]
        exact hlen
      obtain ⟨Y, h1, h2⟩ := ih hzr X
      refine ⟨Y, ?_, ?_⟩
      · rw [conflictPass, if_pos hlen]
        exact h1
      · show conflictPass ((pre, entries.map dualP2cE) ::
          mapVals (List.map dualP2cE) rest) [X, X] = [Y, Y]
        rw [conflictPass, if_pos hlen2]
        exact h2
    · have hlen2 : ¬ (entries.map dualP2cE).length ≤ 1 := by
        rw [List.length_map]
        exact hlen
      have hzs : ∀ e ∈ (sortDesc entries).drop 1, ∀ i ∈ e.2.2, i = 0 :=
        fun e he => hze e (sortDesc_mem entries e (List.mem_of_mem_drop he))
      obtain ⟨Y1, hl1, hl2⟩ := losersFold pre ((sortDesc entries).drop 1)
        X hzs
      obtain ⟨Y, h1, h2⟩ := ih hzr Y1
      refine ⟨Y, ?_, ?_⟩
      · rw [conflictPass, if_neg hlen, hl1]
        exact h1
      · show conflictPass ((pre, entries.map dualP2cE) ::
          mapVals (List.map dualP2cE) rest) [X, X] = [Y, Y]
        rw [conflictPass, if_neg hlen2, sortDesc_dual]
        rw [← List.map_drop]
        rw [hl2]
        exact h2

abbrev Mfin := List ((String × String) × (ℚ × Nat))

/-- The `(weighted_freq, completion_index)` contributions one collection
pass makes under one key, in pass order. -/
def contsOf (t : Node) (w : ℚ) :
    Nat → List MEntry → (String × String) → List (ℚ × Nat)
  | _, [], _ => []
  | c, (pre, post, f) :: rest, k =>
    if surviving t pre post = true ∧ (pre, post) = k then
      ((f : ℚ) * w, c) :: contsOf t w (c + 1) rest k
    else contsOf t w (c + 1) rest k

/-- Fold a list of contributions onto an optional accumulated
`(sum, min_index)` pair, the way `final_completions` accumulates. -/
def applyConts (o : Option (ℚ × Nat)) (l : List (ℚ × Nat)) :
    Option (ℚ × Nat) :=
  l.foldl (fun acc e =>
    match acc with
    | none => some (e.1, e.2)
    | some fi => some (fi.1 + e.1, min fi.2 e.2)) o

theorem dGet_finAdd (m : Mfin) (key : String × String) (wf : ℚ) (ci : Nat)
    (k : String × String) :
    dGet (finAdd m key wf ci) k =
      if k = key then
        some (match dGet m key with
          | none => (wf, ci)
          | some fi => (fi.1 + wf, min fi.2 ci))
      else dGet m k := by
  unfold finAdd
  by_cases hk : k = key
  · subst hk
    rw [if_pos rfl]
    cases hm : dGet m k with
    | none =>
      rw [dGet_append, hm]
      show dGet [(k, (wf, ci))] k = some (wf, ci)
      rw [dGet, if_pos rfl]
    | some fi =>
      rw [dGet_dSet_self]
  · rw [if_neg hk]
    cases hm : dGet m key with
    | none =>
      rw [dGet_append]
      cases h2 : dGet m k with
      | none =>
        show dGet [(key, (wf, ci))] k = none
        rw [dGet, if_neg (fun hc => hk hc.symm)]
        rfl
      | some v => rfl
    | some fi =>
      exact dGet_dSet_ne m key k _ hk

theorem dGet_collectFile (t : Node) (w : ℚ) :
    ∀ (A : List MEntry) (c : Nat) (m : Mfin) (k : String × String),
      dGet (collectFile t w c A m) k =
        applyConts (dGet m k) (contsOf t w c A k) := by
  intro A
  induction A with
  | nil => intro c m k; rfl
  | cons e rest ih =>
    intro c m k
    obtain ⟨pre, post, f⟩ := e
    rw [collectFile, ih]
    by_cases hs : surviving t pre post = true
    · rw [if_pos hs]
      by_cases hk : (pre, post) = k
      · subst hk
        have hcont : contsOf t w c ((pre, post, f) :: rest) (pre, post) =
            ((f : ℚ) * w, c) :: contsOf t w (c + 1) rest (pre, post) := by
          rw [contsOf, if_pos ⟨hs, rfl⟩]
        rw [hcont, dGet_finAdd, if_pos rfl]
        cases hm : dGet m (pre, post) with
        | none => rfl
        | some fi => rfl
      · have hcont : contsOf t w c ((pre, post, f) :: rest) k =
            contsOf t w (c + 1) rest k := by
          rw [contsOf, if_neg (fun hc => hk hc.2)]
        rw [hcont, dGet_finAdd, if_neg (fun hc => hk hc.symm)]
    · rw [if_neg hs]
      have hcont : contsOf t w c ((pre, post, f) :: rest) k =
          contsOf t w (c + 1) rest k := by
        rw [contsOf, if_neg (fun hc => hs hc.1)]
      rw [hcont]

theorem keys_finAdd_present (m : Mfin) (key : String × String) (wf : ℚ)
    (ci : Nat) (h : (dGet m key).isSome = true) :
    (finAdd m key wf ci).map Prod.fst = m.map Prod.fst := by
  unfold finAdd
  obtain ⟨fi, hfi⟩ := Option.isSome_iff_exists.mp h
  rw [hfi]
  exact dSet_keys_of_present m key _ h

theorem keys_collectFile (t : Node) (w : ℚ) :
    ∀ (A : List MEntry) (c : Nat) (m : Mfin),
      (∀ e ∈ A, surviving t e.1 e.2.1 = true →
        (dGet m (e.1, e.2.1)).isSome = true) →
      (collectFile t w c A m).map Prod.fst = m.map Prod.fst := by
  intro A
  induction A with
  | nil => intro c m _; rfl
  | cons e rest ih =>
    intro c m hpres
    obtain ⟨pre, post, f⟩ := e
    rw [collectFile]
    by_cases hs : surviving t pre post = true
    · rw [if_pos hs]
      have h0 : (dGet m (pre, post)).isSome = true :=
        hpres (pre, post, f) (by simp) hs
      have hpres2 : ∀ e2 ∈ rest, surviving t e2.1 e2.2.1 = true →
          (dGet (finAdd m (pre, post) ((f : ℚ) * w) c)
            (e2.1, e2.2.1)).isSome = true := by
        intro e2 he2 hs2
        rw [dGet_finAdd]
        by_cases hk : (e2.1, e2.2.1) = (pre, post)
        · rw [if_pos hk]
          rfl
        · rw [if_neg hk]
          exact hpres e2 (List.mem_cons_of_mem _ he2) hs2
      rw [ih _ _ hpres2, keys_finAdd_present m _ _ _ h0]
    · rw [if_neg hs]
      exact ih _ m (fun e2 he2 => hpres e2 (List.mem_cons_of_mem _ he2))

theorem nodupKeys_finAdd (m : Mfin) (key : String × String) (wf : ℚ)
    (ci : Nat) (h : (m.map Prod.fst).Nodup) :
    ((finAdd m key wf ci).map Prod.fst).Nodup := by
  unfold finAdd
  cases hm : dGet m key with
  | some fi =>
    show ((dSet m key (fi.1 + wf, min fi.2 ci)).map Prod.fst).Nodup
    rw [dSet_keys_of_present m key _ (by rw [hm]; rfl)]
    exact h
  | none =>
    show ((m ++ [(key, (wf, ci))]).map Prod.fst).Nodup
    rw [List.map_append]
    refine List.nodup_append.mpr ⟨h, by simp, ?_⟩
    intro a ha hb
    simp at hb
    subst hb
    have := dGet_isSome_of_mem_keys m a ha
    rw [hm] at this
    exact absurd this (by simp)

theorem nodupKeys_collectFile (t : Node) (w : ℚ) :
    ∀ (A : List MEntry) (c : Nat) (m : Mfin), (m.map Prod.fst).Nodup →
      ((collectFile t w c A m).map Prod.fst).Nodup := by
  intro A
  induction A with
  | nil => intro c m h; exact h
  | cons e rest ih =>
    intro c m h
    obtain ⟨pre, post, f⟩ := e
    rw [collectFile]
    by_cases hs : surviving t pre post = true
    · rw [if_pos hs]
      exact ih _ _ (nodupKeys_finAdd m _ _ _ h)
    · rw [if_neg hs]
      exact ih _ m h

theorem applyConts_shift : ∀ (l : List (ℚ × Nat)) (a b : ℚ) (i j : Nat)
    (s : ℚ) (mi : Nat),
    applyConts (some (b, j)) l = some (s, mi) →
    applyConts (some (a + b, min i j)) l = some (a + s, min i mi) := by
  intro l
  induction l with
  | nil =>
    intro a b i j s mi h
    obtain ⟨h3, h4⟩ := Prod.mk.injEq .. ▸ Option.some.inj h
    subst h3
    subst h4
    rfl
  | cons e rest ih =>
    intro a b i j s mi h
    have h2 : applyConts (some (b + e.1, min j e.2)) rest = some (s, mi) := h
    have h3 := ih a (b + e.1) i (min j e.2) s mi h2
    show applyConts (some (a + b + e.1, min (min i j) e.2)) rest =
      some (a + s, min i mi)
    rw [add_assoc, min_assoc]
    exact h3

theorem applyConts_some : ∀ (l : List (ℚ × Nat)) (b : ℚ) (j : Nat),
    ∃ s mi, applyConts (some (b, j)) l = some (s, mi) := by
  intro l
  induction l with
  | nil => intro b j; exact ⟨b, j, rfl⟩
  | cons e rest ih =>
    intro b j
    obtain ⟨s, mi, hs⟩ := ih (b + e.1) (min j e.2)
    exact ⟨s, mi, hs⟩

theorem applyConts_isSome (l : List (ℚ × Nat)) (h : l ≠ []) :
    (applyConts none l).isSome = true := by
  cases l with
  | nil => exact absurd rfl h
  | cons e rest =>
    obtain ⟨s, mi, hs⟩ := applyConts_some rest e.1 e.2
    have h0 : applyConts none (e :: rest) = some (s, mi) := hs
    rw [h0]
    rfl

/-- Folding the same contribution list twice doubles the sum and keeps the
minimal index. -/
theorem applyConts_double (l : List (ℚ × Nat)) :
    applyConts (applyConts none l) l =
      (applyConts none l).map (fun fi => (fi.1 + fi.1, fi.2)) := by
  cases l with
  | nil => rfl
  | cons e rest =>
    obtain ⟨s, mi, hs⟩ := applyConts_some rest e.1 e.2
    have h0 : applyConts none (e :: rest) = some (s, mi) := hs
    rw [h0]
    show applyConts (some (s + e.1, min mi e.2)) rest = some (s + s, mi)
    have h3 := applyConts_shift rest s e.1 mi e.2 s mi hs
    rw [min_self] at h3
    exact h3

theorem contsOf_ne_nil (t : Node) (w : ℚ) :
    ∀ (A : List MEntry) (c : Nat) (e : MEntry), e ∈ A →
      surviving t e.1 e.2.1 = true →
      contsOf t w c A (e.1, e.2.1) ≠ [] := by
  intro A
  induction A with
  | nil => intro c e he; exact absurd he (by simp)
  | cons e2 rest ih =>
    intro c e he hs
    obtain ⟨pre, post, f⟩ := e2
    cases List.mem_cons.mp he with
    | inl h2 =>
      subst h2
      rw [contsOf, if_pos ⟨hs, rfl⟩]
      simp
    | inr h2 =>
      rw [contsOf]
      by_cases hc : surviving t pre post = true ∧
          (pre, post) = (e.1, e.2.1)
      · rw [if_pos hc]
        simp
      · rw [if_neg hc]
        exact ih (c + 1) e h2 hs

/-- Running the collection pass twice over the same trie doubles every
accumulated frequency and keeps the minimal tiebreak index. -/
theorem fin_dual_eq (Y : Node) (A : List MEntry) :
    collectFile Y 1 0 A (collectFile Y 1 0 A []) =
      mapVals (fun fi => (fi.1 + fi.1, fi.2)) (collectFile Y 1 0 A []) := by
  have hpres : ∀ e ∈ A, surviving Y e.1 e.2.1 = true →
      (dGet (collectFile Y 1 0 A []) (e.1, e.2.1)).isSome = true := by
    intro e he hs
    rw [dGet_collectFile]
    show (applyConts none (contsOf Y 1 0 A (e.1, e.2.1))).isSome = true
    exact applyConts_isSome _ (contsOf_ne_nil Y 1 A 0 e he hs)
  refine alExt _ _ ?_ ?_ ?_
  · rw [keys_collectFile Y 1 A 0 _ hpres, keys_mapVals]
  · rw [keys_collectFile Y 1 A 0 _ hpres]
    exact nodupKeys_collectFile Y 1 A 0 [] (by simp)
  · intro k
    rw [dGet_collectFile, dGet_mapVals, dGet_collectFile]
    show applyConts (applyConts none (contsOf Y 1 0 A k))
        (contsOf Y 1 0 A k) =
      (applyConts none (contsOf Y 1 0 A k)).map
        (fun fi => (fi.1 + fi.1, fi.2))
    exact applyConts_double _

/-- Doubling transform on one `final_completions` item. -/
def dblFin (kv : (String × String) × (ℚ × Nat)) :
    (String × String) × (ℚ × Nat) :=
  (kv.1, (kv.2.1 + kv.2.1, kv.2.2))

theorem insFin_mem (x : (String × String) × (ℚ × Nat)) :
    ∀ (l : List ((String × String) × (ℚ × Nat)))
      (y : (String × String) × (ℚ × Nat)),
      y ∈ insFin x l → y = x ∨ y ∈ l := by
  intro l
  induction l with
  | nil =>
    intro y hy
    simp only [insFin, List.mem_singleton] at hy
    exact Or.inl hy
  | cons z zs ih =>
    intro y hy
    rw [insFin] at hy
    by_cases hlt : z.2.1 < x.2.1 ∨ (z.2.1 = x.2.1 ∧ x.2.2 < z.2.2)
    · rw [if_pos hlt] at hy
      cases List.mem_cons.mp hy with
      | inl h2 => exact Or.inl h2
      | inr h2 => exact Or.inr h2
    · rw [if_neg hlt] at hy
      cases List.mem_cons.mp hy with
      | inl h2 => exact Or.inr (h2 ▸ List.mem_cons_self _ _)
      | inr h2 =>
        cases ih y h2 with
        | inl h3 => exact Or.inl h3
        | inr h3 => exact Or.inr (List.mem_cons_of_mem _ h3)

theorem sortFin_mem (l : List ((String × String) × (ℚ × Nat)))
    (y : (String × String) × (ℚ × Nat)) (hy : y ∈ sortFin l) : y ∈ l := by
  suffices h : ∀ (l2 : List ((String × String) × (ℚ × Nat))) acc,
      y ∈ l2.foldl (fun a x => insFin x a) acc → y ∈ acc ∨ y ∈ l2 by
    cases h l [] hy with
    | inl h2 => exact absurd h2 (by simp)
    | inr h2 => exact h2
  intro l2
  induction l2 with
  | nil => intro acc h2; exact Or.inl h2
  | cons z zs ih =>
    intro acc h2
    cases ih (insFin z acc) h2 with
    | inl h3 =>
      cases insFin_mem z acc y h3 with
      | inl h4 => exact Or.inr (h4 ▸ List.mem_cons_self _ _)
      | inr h4 => exact Or.inl h4
    | inr h3 => exact Or.inr (List.mem_cons_of_mem _ h3)

theorem insFin_dual (x : (String × String) × (ℚ × Nat)) :
    ∀ (l : List ((String × String) × (ℚ × Nat))),
      insFin (dblFin x) (l.map dblFin) = (insFin x l).map dblFin := by
  intro l
  induction l with
  | nil => rfl
  | cons y ys ih =>
    show insFin (dblFin x) (dblFin y :: ys.map dblFin) = _
    rw [insFin, insFin]
    have hiff : ((dblFin y).2.1 < (dblFin x).2.1 ∨
        ((dblFin y).2.1 = (dblFin x).2.1 ∧
          (dblFin x).2.2 < (dblFin y).2.2)) ↔
        (y.2.1 < x.2.1 ∨ (y.2.1 = x.2.1 ∧ x.2.2 < y.2.2)) := by
      show (y.2.1 + y.2.1 < x.2.1 + x.2.1 ∨
        (y.2.1 + y.2.1 = x.2.1 + x.2.1 ∧ x.2.2 < y.2.2)) ↔ _
      constructor
      · rintro (h | ⟨h1, h2⟩)
        · exact Or.inl (by linarith)
        · exact Or.inr ⟨by linarith, h2⟩
      · rintro (h | ⟨h1, h2⟩)
        · exact Or.inl (by linarith)
        · exact Or.inr ⟨by rw [h1], h2⟩
    by_cases hlt : y.2.1 < x.2.1 ∨ (y.2.1 = x.2.1 ∧ x.2.2 < y.2.2)
    · rw [if_pos (hiff.mpr hlt), if_pos hlt]
      rfl
    · rw [if_neg (fun hc => hlt (hiff.mp hc)), if_neg hlt]
      show dblFin y :: insFin (dblFin x) (ys.map dblFin) =
        (y :: insFin x ys).map dblFin
      rw [ih]
      rfl

theorem sortFin_dual (l : List ((String × String) × (ℚ × Nat))) :
    sortFin (l.map dblFin) = (sortFin l).map dblFin := by
  suffices h : ∀ (l2 : List ((String × String) × (ℚ × Nat))) acc,
      (l2.map dblFin).foldl (fun a x => insFin x a) (acc.map dblFin) =
        (l2.foldl (fun a x => insFin x a) acc).map dblFin by
    exact h l []
  intro l2
  induction l2 with
  | nil => intro acc; rfl
  | cons z zs ih =>
    intro acc
    show (zs.map dblFin).foldl (fun a x => insFin x a)
        (insFin (dblFin z) (acc.map dblFin)) = _
    rw [insFin_dual]
    exact ih (insFin z acc)

/-- All frequencies in the accumulated `final_completions` are integers
when the weight is 1 (the parser only produces integer frequencies). -/
def natValued (m : Mfin) : Prop := ∀ kv ∈ m, ∃ n : ℕ, kv.2.1 = (n : ℚ)

theorem natValued_finAdd (m : Mfin) (key : String × String) (f : ℕ)
    (ci : Nat) (hm : natValued m) :
    natValued (finAdd m key ((f : ℚ) * 1) ci) := by
  intro kv hkv
  unfold finAdd at hkv
  cases hg : dGet m key with
  | none =>
    rw [hg] at hkv
    have h2 : kv ∈ m ++ [(key, ((f : ℚ) * 1, ci))] := hkv
    cases List.mem_append.mp h2 with
    | inl h3 => exact hm kv h3
    | inr h3 =>
      simp only [List.mem_singleton] at h3
      subst h3
      exact ⟨f, mul_one _⟩
  | some fi =>
    rw [hg] at hkv
    have h2 : kv ∈ dSet m key (fi.1 + (f : ℚ) * 1, min fi.2 ci) := hkv
    cases dSet_mem m key _ kv h2 with
    | inl h3 => exact hm kv h3
    | inr h3 =>
      subst h3
      obtain ⟨a, ha⟩ := hm (key, fi) (dGet_mem m key fi hg)
      refine ⟨a + f, ?_⟩
      show fi.1 + (f : ℚ) * 1 = ((a + f : ℕ) : ℚ)
      rw [ha]
      push_cast
      ring

theorem natValued_collectFile (Y : Node) :
    ∀ (A : List MEntry) (c : Nat) (m : Mfin), natValued m →
      natValued (collectFile Y 1 c A m) := by
  intro A
  induction A with
  | nil => intro c m hm; exact hm
  | cons e rest ih =>
    intro c m hm
    obtain ⟨pre, post, f⟩ := e
    rw [collectFile]
    by_cases hs : surviving Y pre post = true
    · rw [if_pos hs]
      exact ih _ _ (natValued_finAdd m (pre, post) f c hm)
    · rw [if_neg hs]
      exact ih _ m hm

theorem roundQ_intCast (z : ℤ) : roundQ (z : ℚ) = z := by
  show (if ((z : ℚ) - ⌊(z : ℚ)⌋ < 1 / 2) then ⌊(z : ℚ)⌋
    else if (1 / 2 < (z : ℚ) - ⌊(z : ℚ)⌋) then ⌊(z : ℚ)⌋ + 1
    else if ⌊(z : ℚ)⌋ % 2 = 0 then ⌊(z : ℚ)⌋ else ⌊(z : ℚ)⌋ + 1) = z
  rw [Int.floor_intCast, sub_self, if_pos (by norm_num)]

theorem roundQ_nat_double (n : ℕ) :
    roundQ ((n : ℚ) + (n : ℚ)) = 2 * roundQ ((n : ℚ)) := by
  have h1 : ((n : ℚ) + (n : ℚ)) = (((2 * (n : ℤ)) : ℤ) : ℚ) := by
    push_cast
    ring
  have h2 : ((n : ℚ)) = (((n : ℤ) : ℚ)) := by
    push_cast
    ring
  rw [h1, roundQ_intCast, h2, roundQ_intCast]

theorem mapCongrMem {α β : Type} :
    ∀ (l : List α) (f g : α → β), (∀ a ∈ l, f a = g a) →
      l.map f = l.map g := by
  intro l
  induction l with
  | nil => intro f g _; rfl
  | cons a rest ih =>
    intro f g h
    show f a :: rest.map f = g a :: rest.map g
    rw [h a (by simp), ih f g (fun b hb => h b (by simp [hb]))]

/-- Claim C7 theorem: merging a completion set with itself at weights 1.0
and 1.0 yields the output of merging it alone at weight 1.0 with every
surviving pair carrying exactly double the frequency (same pairs, same
order). -/
theorem claim_C7_self_merge_doubles (A : List MEntry) :
    ∃ out, mergeCompletions [A] [1] = .ok out ∧
      mergeCompletions [A, A] [1, 1] =
        .ok (out.map (fun tr => (tr.1, tr.2.1, 2 * tr.2.2))) := by
  have hz := p2cBuild_zeros (cttFile 0 1 A []) [] (ctt_fst_zero A)
    (by intro pe hpe; exact absurd hpe (by simp))
  obtain ⟨Y, hY1, hY2⟩ := conflictPass_dual
    (p2cBuild (cttFile 0 1 A []) []) hz (buildTrieFile A 1)
  refine ⟨(sortFin (collectFile Y 1 0 A [])).map
    (fun e => (e.1.1, e.1.2, roundQ e.2.1)), ?_, ?_⟩
  · have hs1 : mergeCompletions [A] [1] =
        .ok ((sortFin (collectAll (zip3L
          (conflictPass (p2cBuild (cttFile 0 1 A []) [])
            [buildTrieFile A 1]) [A] [1]) [])).map
          (fun e => (e.1.1, e.1.2, roundQ e.2.1))) := rfl
    rw [hs1, hY1]
    rfl
  · have hs2 : mergeCompletions [A, A] [1, 1] =
        .ok ((sortFin (collectAll (zip3L
          (conflictPass (p2cBuild (cttFile 1 1 A (cttFile 0 1 A [])) [])
            [buildTrieFile A 1, buildTrieFile A 1]) [A, A] [1, 1])
          [])).map (fun e => (e.1.1, e.1.2, roundQ e.2.1))) := rfl
    rw [hs2, ctt_dual_eq]
    have hp2 : p2cBuild (mapVals dualVal (cttFile 0 1 A [])) [] =
        mapVals (List.map dualP2cE) (p2cBuild (cttFile 0 1 A []) []) :=
      p2cBuild_dual (cttFile 0 1 A []) []
    rw [hp2, hY2]
    show Except.ok ((sortFin (collectFile Y 1 0 A
        (collectFile Y 1 0 A []))).map
      (fun e => (e.1.1, e.1.2, roundQ e.2.1))) = _
    rw [fin_dual_eq]
    have hconv : mapVals (fun fi => (fi.1 + fi.1, fi.2))
        (collectFile Y 1 0 A []) =
        (collectFile Y 1 0 A []).map dblFin := rfl
    rw [hconv, sortFin_dual]
    refine congrArg Except.ok ?_
    rw [List.map_map, List.map_map]
    refine mapCongrMem _ _ _ ?_
    intro kv hkv
    have hmem : kv ∈ collectFile Y 1 0 A [] := sortFin_mem _ kv hkv
    obtain ⟨n, hn⟩ := natValued_collectFile Y A 0 []
      (by intro kv2 h2; exact absurd h2 (by simp)) kv hmem
    show (kv.1.1, kv.1.2, roundQ (kv.2.1 + kv.2.1)) =
      (kv.1.1, kv.1.2, 2 * roundQ kv.2.1)
    rw [hn, roundQ_nat_double]

end Amc
